import Mathlib

/-!
Parallel-graph: thread pool and graph traversal.

A shallow embedding of `os_threadpool.c`, `parallel.c` and `serial.c`.

* Part 1 embeds the pool operations as functions on an explicit pool record
  (`os_threadpool_t`), with the mutex owner as a field and every
  `pthread_mutex_lock` / `pthread_mutex_unlock` as an explicit operation.
* Part 2 embeds the threads (workers running `thread_loop_function`, the
  orchestrator running `enqueue_task` and then `wait_for_completion`) as a
  labelled step function on a system state.  One step is one critical
  section: all shared pool data is accessed under `tp->mutex`, so critical
  sections are the atomic units of every interleaving.
* Part 3 embeds the two consumers: the fan-out workload and the graph
  traversal of `parallel.c`, together with the recursive `process_node` of
  `serial.c`.
-/

namespace ParallelGraph

/-! ## Part 1: tasks and pool operations (`os_threadpool.c`) -/

/-- Task object `os_task_t`.  Function pointers are represented by the
number identifying the function, `argument` by the value the pointer refers
to, and a `NULL` `destroy_arg` by `none`. -/
structure os_task_t where
  action : Nat
  argument : Nat
  destroy_arg : Option Nat
deriving DecidableEq

/-- Modelled from the spec: the `DIE(assertion, call_description)` macro of
`utils.h` (not part of the sources); it aborts the process with a diagnostic
when the assertion holds.  The abort is the `error` result. -/
def DIE (assertion : Bool) (call_description : String) : Except String Unit :=
  if assertion then Except.error call_description else Except.ok ()

/-- Function `create_task`; `malloc_ok` tells whether `malloc` returned a
non-NULL pointer. -/
def create_task (malloc_ok : Bool) (action arg : Nat) (destroy_arg : Option Nat) :
    Except String os_task_t :=
  match DIE (!malloc_ok) "malloc" with
  | Except.error e => Except.error e
  | Except.ok _ => Except.ok { action := action, argument := arg, destroy_arg := destroy_arg }

/-- Observable calls made by the teardown code. -/
inductive Effect where
  | call_action (fn arg : Nat)
  | call_destroy_arg (fn arg : Nat)
  | free_task (t : os_task_t)
  | mutex_destroy
  | cond_destroy
  | stop_cond_destroy
  | free_threads
  | free_pool
deriving DecidableEq

/-- Function `destroy_task`: calls `destroy_arg(argument)` unless it is NULL,
then frees the task. -/
def destroy_task (t : os_task_t) : List Effect :=
  (match t.destroy_arg with
   | some fn => [Effect.call_destroy_arg fn t.argument]
   | none => []) ++ [Effect.free_task t]

/-- Pool object `os_threadpool_t`.  `head` is the task list, `stop` the stop
flag (`0` is `false`), `mutex` the current owner of `tp->mutex` (`none` when
unlocked), `threads` the handle array (`none` for a slot `pthread_create`
did not fill). -/
structure os_threadpool_t where
  head : List os_task_t
  stop : Bool
  mutex : Option Nat
  num_threads : Nat
  threads : List (Option Nat)
deriving DecidableEq

/-- Modelled from the spec: `list_empty` of `os_list.h` (not part of the
sources), true when the queue holds no task. -/
def list_empty (head : List os_task_t) : Bool :=
  head.isEmpty

/-- Modelled from the spec: `list_add_tail` of `os_list.h` (not part of the
sources), appending at the tail of the queue. -/
def list_add_tail (head : List os_task_t) (t : os_task_t) : List os_task_t :=
  head ++ [t]

/-- Function `queue_is_empty`. -/
def queue_is_empty (tp : os_threadpool_t) : Bool :=
  list_empty tp.head

/-- Operation `pthread_mutex_lock(&tp->mutex)` by thread `self`: succeeds when
the mutex is free, and does not return (`none`) while it is held. -/
def pthread_mutex_lock (self : Nat) (tp : os_threadpool_t) : Option os_threadpool_t :=
  match tp.mutex with
  | none => some { tp with mutex := some self }
  | some _ => none

/-- Operation `pthread_mutex_unlock(&tp->mutex)`. -/
def pthread_mutex_unlock (tp : os_threadpool_t) : os_threadpool_t :=
  { tp with mutex := none }

/-- The blocking half of `pthread_cond_wait`: the mutex is released and the
caller sleeps.  The half after the wake-up reacquires the mutex, which is a
`pthread_mutex_lock` again. -/
def pthread_cond_wait (tp : os_threadpool_t) : os_threadpool_t :=
  { tp with mutex := none }

/-- Condition-variable notifications issued inside a critical section. -/
inductive Sig where
  | signal_cond
  | broadcast_cond
  | signal_stop_cond
deriving DecidableEq

/-- Function `enqueue_task` run by thread `self`.  The result is `none` while
the mutex cannot be taken; otherwise the pool after the call and the
notifications issued. -/
def enqueue_task (self : Nat) (tp : os_threadpool_t) (t : os_task_t) :
    Option (os_threadpool_t × List Sig) :=
  match pthread_mutex_lock self tp with
  | none => none
  | some tp1 =>
    let was_empty := list_empty tp1.head
    let tp2 := { tp1 with head := list_add_tail tp1.head t }
    let sigs := if was_empty then [Sig.signal_cond] else []
    some (pthread_mutex_unlock tp2, sigs)

/-- Function `signal_stop_condition_if_needed` run by thread `self`. -/
def signal_stop_condition_if_needed (self : Nat) (tp : os_threadpool_t) :
    Option (os_threadpool_t × List Sig) :=
  match pthread_mutex_lock self tp with
  | none => none
  | some tp1 => some (pthread_mutex_unlock tp1, [Sig.signal_stop_cond])

/-- How one pass through the body of `dequeue_task` ends: with a task, with
the `NULL` sentinel, or asleep in `pthread_cond_wait(&tp->cond, ...)`. -/
inductive DequeueResult where
  | task (t : os_task_t)
  | null
  | wait
deriving DecidableEq

/-- Function `dequeue_task` run by thread `self`, from the acquisition of the
mutex (by `pthread_mutex_lock` on entry, or inside `pthread_cond_wait` after
a wake-up) to its release.  From either acquisition the code evaluates
`while (queue_is_empty(tp))` next, so one definition serves both. -/
def dequeue_task (self : Nat) (tp : os_threadpool_t) :
    Option (os_threadpool_t × DequeueResult) :=
  match pthread_mutex_lock self tp with
  | none => none
  | some tp1 =>
    match tp1.head with
    | [] =>
      if tp1.stop then some (pthread_mutex_unlock tp1, DequeueResult.null)
      else some (pthread_cond_wait tp1, DequeueResult.wait)
    | t :: rest =>
      some (pthread_mutex_unlock { tp1 with head := rest }, DequeueResult.task t)

/-- Successive calls of `dequeue_task` by one thread, stopping at the first
call that does not return a task. -/
def dequeue_tasks (self : Nat) : Nat → os_threadpool_t → List os_task_t × os_threadpool_t
  | 0, tp => ([], tp)
  | n + 1, tp =>
    match dequeue_task self tp with
    | some (tp1, DequeueResult.task t) =>
      let r := dequeue_tasks self n tp1
      (t :: r.1, r.2)
    | _ => ([], tp)

/-- Successive calls of `enqueue_task` by one thread. -/
def enqueue_tasks (self : Nat) : List os_task_t → os_threadpool_t → Option os_threadpool_t
  | [], tp => some tp
  | t :: ts, tp =>
    match enqueue_task self tp t with
    | none => none
    | some (tp1, _) => enqueue_tasks self ts tp1

/-- How the locked part of `wait_for_completion` ends: asleep in
`pthread_cond_wait(&tp->stop_cond, ...)`, or on its way to the join loop. -/
inductive WfcResult where
  | wait
  | join
deriving DecidableEq

/-- The locked part of `wait_for_completion` run by thread `self`, from the
acquisition of the mutex (on entry or after a wake-up) to its release. -/
def wait_for_completion_locked (self : Nat) (tp : os_threadpool_t) :
    Option (os_threadpool_t × WfcResult × List Sig) :=
  match pthread_mutex_lock self tp with
  | none => none
  | some tp1 =>
    if !tp1.stop || !queue_is_empty tp1 then
      if queue_is_empty tp1 then
        some (pthread_mutex_unlock { tp1 with stop := true }, WfcResult.join,
          [Sig.broadcast_cond, Sig.broadcast_cond])
      else
        some (pthread_cond_wait tp1, WfcResult.wait, [])
    else
      some (pthread_mutex_unlock tp1, WfcResult.join, [Sig.broadcast_cond])

/-- What the environment answers to `create_threadpool`: whether each
`malloc` succeeds and the value each `pthread_create` returns (`0` on
success, a positive error number such as `EAGAIN = 11` on failure). -/
structure CreateEnv where
  malloc_tp : Bool
  malloc_threads : Bool
  pthread_create : Nat → Int

/-- The loop of `create_threadpool` that starts the workers, from index `i`
for `k` more iterations. -/
def create_threads (env : CreateEnv) : Nat → Nat → List (Option Nat) →
    Except String (List (Option Nat))
  | 0, _, acc => Except.ok acc
  | k + 1, i, acc =>
    let rc := env.pthread_create i
    match DIE (decide (rc < 0)) "pthread_create" with
    | Except.error e => Except.error e
    | Except.ok _ =>
      create_threads env k (i + 1) (acc ++ [if rc = 0 then some i else none])

/-- Function `create_threadpool`. -/
def create_threadpool (env : CreateEnv) (num_threads : Nat) : Except String os_threadpool_t :=
  match DIE (!env.malloc_tp) "malloc" with
  | Except.error e => Except.error e
  | Except.ok _ =>
    match DIE (!env.malloc_threads) "malloc" with
    | Except.error e => Except.error e
    | Except.ok _ =>
      match create_threads env num_threads 0 [] with
      | Except.error e => Except.error e
      | Except.ok hs =>
        Except.ok { head := [], stop := false, mutex := none,
                    num_threads := num_threads, threads := hs }

/-- The `list_for_each_safe` loop of `destroy_threadpool`: every node is
unlinked and passed to `destroy_task`.  The result is the calls made and the
queue left. -/
def destroy_queue : List os_task_t → List Effect × List os_task_t
  | [] => ([], [])
  | n :: rest =>
    let r := destroy_queue rest
    (destroy_task n ++ r.1, r.2)

/-- Function `destroy_threadpool`: the calls made, in order, and the queue
left behind. -/
def destroy_threadpool (tp : os_threadpool_t) : List Effect × List os_task_t :=
  let r := destroy_queue tp.head
  ([Effect.mutex_destroy, Effect.cond_destroy, Effect.stop_cond_destroy] ++ r.1
    ++ [Effect.free_threads, Effect.free_pool], r.2)

/-- The tasks handed to `destroy_task` in a sequence of calls. -/
def freed_tasks : List Effect → List os_task_t
  | [] => []
  | Effect.free_task t :: es => t :: freed_tasks es
  | _ :: es => freed_tasks es

/-- The `destroy_arg` calls in a sequence of calls, as (function, argument). -/
def destroy_arg_calls : List Effect → List (Nat × Nat)
  | [] => []
  | Effect.call_destroy_arg fn arg :: es => (fn, arg) :: destroy_arg_calls es
  | _ :: es => destroy_arg_calls es

/-- The `action` calls in a sequence of calls. -/
def action_calls : List Effect → List (Nat × Nat)
  | [] => []
  | Effect.call_action fn arg :: es => (fn, arg) :: action_calls es
  | _ :: es => action_calls es

/-- The `destroy_arg` calls the queue order prescribes: one per task whose
`destroy_arg` is not NULL. -/
def expected_destroy_calls : List os_task_t → List (Nat × Nat)
  | [] => []
  | t :: ts =>
    match t.destroy_arg with
    | some fn => (fn, t.argument) :: expected_destroy_calls ts
    | none => expected_destroy_calls ts

/-! ## Part 2: the threads of the pool -/

/-- One atomic step of a running action: it calls `enqueue_task` with a new
task, does something else to its own and the consumer's shared data, or
returns. -/
inductive ActOut (L G : Type) where
  | enqueue (t : os_task_t) (l : L) (g : G)
  | internal (l : L) (g : G)
  | ret (g : G)

/-- The consumer of the pool: what `t->action(t->argument)` does.  `L` is the
private state of a running action, `G` the data shared by all actions. -/
structure Workload (L G : Type) where
  start : os_task_t → L
  next : L → G → ActOut L G

/-- Where a worker stands in `thread_loop_function`.

* `ready`: about to take the mutex in `dequeue_task` (on entry, or after a
  wake-up from `pthread_cond_wait`);
* `waiting`: asleep in `pthread_cond_wait(&tp->cond, &tp->mutex)`;
* `dequeued t`: `dequeue_task` returned `t`, the action is not yet called;
* `running t l`: inside `t->action(t->argument)`;
* `finished t`: the action returned; `destroy_task(t)` and
  `signal_stop_condition_if_needed(tp)` come next;
* `exited`: `dequeue_task` returned NULL and the loop was left. -/
inductive WorkerPc (L : Type) where
  | ready
  | waiting
  | dequeued (t : os_task_t)
  | running (t : os_task_t) (l : L)
  | finished (t : os_task_t)
  | exited

/-- Where the orchestrator stands.

* `submitting todo`: before `wait_for_completion`, with `todo` still to be
  passed to `enqueue_task`;
* `wfc_entry`: in `wait_for_completion`, about to take the mutex (on entry,
  or after a wake-up from `pthread_cond_wait`);
* `wfc_waiting`: asleep in `pthread_cond_wait(&tp->stop_cond, &tp->mutex)`;
* `joining i`: in the join loop, at index `i`;
* `returned`: `wait_for_completion` has returned. -/
inductive MainPc where
  | submitting (todo : List os_task_t)
  | wfc_entry
  | wfc_waiting
  | joining (i : Nat)
  | returned
deriving DecidableEq

/-- State of the whole program.  `submitted`, `invoked` and `destroyed` are
histories: the tasks passed to `enqueue_task`, the tasks whose action was
called, and the tasks passed to `destroy_task` by a worker, each in order. -/
structure State (L G : Type) where
  tp : os_threadpool_t
  workers : List (WorkerPc L)
  main : MainPc
  shared : G
  submitted : List os_task_t
  invoked : List os_task_t
  destroyed : List os_task_t

/-- Who moves.  `wake` names the sleeping worker that a `pthread_cond_signal`
issued by the step wakes up (it is ignored when the step issues none or
nobody sleeps).  The two `spurious` labels are the wake-ups POSIX allows
without any signal. -/
inductive Label where
  | main (wake : Nat)
  | worker (i : Nat) (wake : Nat)
  | spurious_worker (i : Nat)
  | spurious_main
deriving DecidableEq

/-- Thread identifier of the orchestrator. -/
def tid_main : Nat := 0

/-- Thread identifier of worker `i`. -/
def tid_worker (i : Nat) : Nat := i + 1

/-- Is the worker asleep on `tp->cond`? -/
def WorkerPc.isWaiting {L : Type} : WorkerPc L → Bool
  | WorkerPc.waiting => true
  | _ => false

/-- Effect of `pthread_cond_signal(&tp->cond)`: if some worker sleeps, the
chosen one must be a sleeper and is woken. -/
def wake_one {L : Type} (w : Nat) (ws : List (WorkerPc L)) : Option (List (WorkerPc L)) :=
  if ws.any WorkerPc.isWaiting then
    match ws[w]? with
    | some WorkerPc.waiting => some (ws.set w WorkerPc.ready)
    | _ => none
  else some ws

/-- A worker after `pthread_cond_broadcast(&tp->cond)`. -/
def WorkerPc.woken {L : Type} : WorkerPc L → WorkerPc L
  | WorkerPc.waiting => WorkerPc.ready
  | p => p

/-- Effect of `pthread_cond_broadcast(&tp->cond)`: every sleeper is woken. -/
def wake_all {L : Type} (ws : List (WorkerPc L)) : List (WorkerPc L) :=
  ws.map WorkerPc.woken

/-- Effect of `pthread_cond_signal(&tp->stop_cond)` on the orchestrator, the
only thread that ever sleeps on `stop_cond`. -/
def wake_main : MainPc → MainPc
  | MainPc.wfc_waiting => MainPc.wfc_entry
  | m => m

/-- Delivery of the notifications of one critical section. -/
def deliver {L : Type} (w : Nat) : List Sig → List (WorkerPc L) × MainPc →
    Option (List (WorkerPc L) × MainPc)
  | [], x => some x
  | Sig.signal_cond :: r, (ws, m) =>
    match wake_one w ws with
    | none => none
    | some ws1 => deliver w r (ws1, m)
  | Sig.broadcast_cond :: r, (ws, m) => deliver w r (wake_all ws, m)
  | Sig.signal_stop_cond :: r, (ws, m) => deliver w r (ws, wake_main m)

/-- One step of the orchestrator: `main` of `parallel.c` after
`create_threadpool`, i.e. the submissions and then `wait_for_completion`. -/
def step_main {L G : Type} (w : Nat) (s : State L G) : Option (State L G) :=
  match s.main with
  | MainPc.submitting [] => some { s with main := MainPc.wfc_entry }
  | MainPc.submitting (t :: todo) =>
    match enqueue_task tid_main s.tp t with
    | none => none
    | some (tp1, sigs) =>
      match deliver w sigs (s.workers, MainPc.submitting todo) with
      | none => none
      | some (ws, m) =>
        some { s with tp := tp1, workers := ws, main := m, submitted := s.submitted ++ [t] }
  | MainPc.wfc_entry =>
    match wait_for_completion_locked tid_main s.tp with
    | none => none
    | some (tp1, WfcResult.wait, sigs) =>
      match deliver w sigs (s.workers, MainPc.wfc_waiting) with
      | none => none
      | some (ws, m) => some { s with tp := tp1, workers := ws, main := m }
    | some (tp1, WfcResult.join, sigs) =>
      match deliver w sigs (s.workers, MainPc.joining 0) with
      | none => none
      | some (ws, m) => some { s with tp := tp1, workers := ws, main := m }
  | MainPc.wfc_waiting => none
  | MainPc.joining i =>
    if i < s.tp.num_threads then
      match s.workers[i]? with
      | some WorkerPc.exited => some { s with main := MainPc.joining (i + 1) }
      | _ => none
    else some { s with main := MainPc.returned }
  | MainPc.returned => none

/-- One step of worker `i`: `thread_loop_function`. -/
def step_worker {L G : Type} (W : Workload L G) (i w : Nat) (s : State L G) :
    Option (State L G) :=
  match s.workers[i]? with
  | none => none
  | some WorkerPc.ready =>
    match dequeue_task (tid_worker i) s.tp with
    | none => none
    | some (tp1, DequeueResult.task t) =>
      some { s with tp := tp1, workers := s.workers.set i (WorkerPc.dequeued t) }
    | some (tp1, DequeueResult.null) =>
      some { s with tp := tp1, workers := s.workers.set i WorkerPc.exited }
    | some (tp1, DequeueResult.wait) =>
      some { s with tp := tp1, workers := s.workers.set i WorkerPc.waiting }
  | some WorkerPc.waiting => none
  | some (WorkerPc.dequeued t) =>
    some { s with workers := s.workers.set i (WorkerPc.running t (W.start t)),
                  invoked := s.invoked ++ [t] }
  | some (WorkerPc.running t l) =>
    match W.next l s.shared with
    | ActOut.enqueue u l1 g1 =>
      match enqueue_task (tid_worker i) s.tp u with
      | none => none
      | some (tp1, sigs) =>
        match deliver w sigs (s.workers.set i (WorkerPc.running t l1), s.main) with
        | none => none
        | some (ws, m) =>
          some { s with tp := tp1, workers := ws, main := m, shared := g1,
                        submitted := s.submitted ++ [u] }
    | ActOut.internal l1 g1 =>
      some { s with workers := s.workers.set i (WorkerPc.running t l1), shared := g1 }
    | ActOut.ret g1 =>
      some { s with workers := s.workers.set i (WorkerPc.finished t), shared := g1 }
  | some (WorkerPc.finished t) =>
    match signal_stop_condition_if_needed (tid_worker i) s.tp with
    | none => none
    | some (tp1, sigs) =>
      match deliver w sigs (s.workers.set i WorkerPc.ready, s.main) with
      | none => none
      | some (ws, m) =>
        some { s with tp := tp1, workers := ws, main := m,
                      destroyed := s.destroyed ++ [t] }
  | some WorkerPc.exited => none

/-- One step of the program under label `lbl`; `none` when the labelled
thread cannot move. -/
def step {L G : Type} (W : Workload L G) (lbl : Label) (s : State L G) :
    Option (State L G) :=
  match lbl with
  | Label.main w => step_main w s
  | Label.worker i w => step_worker W i w s
  | Label.spurious_worker i =>
    match s.workers[i]? with
    | some WorkerPc.waiting => some { s with workers := s.workers.set i WorkerPc.ready }
    | _ => none
  | Label.spurious_main =>
    match s.main with
    | MainPc.wfc_waiting => some { s with main := MainPc.wfc_entry }
    | _ => none

/-- Execution of a schedule, one label after the other. -/
def run {L G : Type} (W : Workload L G) : List Label → State L G → Option (State L G)
  | [], s => some s
  | lbl :: ls, s =>
    match step W lbl s with
    | none => none
    | some s1 => run W ls s1

/-- The pool `create_threadpool` returns when every allocation and every
`pthread_create` succeeds. -/
def created_pool (n : Nat) : os_threadpool_t :=
  { head := [], stop := false, mutex := none, num_threads := n,
    threads := (List.range n).map some }

/-- State right after `create_threadpool(n)`: `n` workers at the top of
their loop, the orchestrator about to submit `todo`. -/
def init {L G : Type} (n : Nat) (todo : List os_task_t) (g : G) : State L G :=
  { tp := created_pool n, workers := List.replicate n WorkerPc.ready,
    main := MainPc.submitting todo, shared := g,
    submitted := [], invoked := [], destroyed := [] }

/-- States some schedule leads to from the initial state. -/
def Reachable {L G : Type} (W : Workload L G) (n : Nat) (todo : List os_task_t) (g : G)
    (s : State L G) : Prop :=
  ∃ ls, run W ls (init n todo g) = some s

/-- Is the worker between the return of `dequeue_task` with a task and the
end of `signal_stop_condition_if_needed` for it? -/
def WorkerPc.isBusy {L : Type} : WorkerPc L → Bool
  | WorkerPc.dequeued _ => true
  | WorkerPc.running _ _ => true
  | WorkerPc.finished _ => true
  | _ => false

/-- Is the worker inside `t->action(t->argument)`? -/
def WorkerPc.isRunning {L : Type} : WorkerPc L → Bool
  | WorkerPc.running _ _ => true
  | _ => false

/-- Has the worker left its loop? -/
def WorkerPc.isExited {L : Type} : WorkerPc L → Bool
  | WorkerPc.exited => true
  | _ => false

/-- Can the worker move on its own (neither asleep nor gone)? -/
def WorkerPc.isActive {L : Type} : WorkerPc L → Bool
  | WorkerPc.waiting => false
  | WorkerPc.exited => false
  | _ => true

/-- Sum of a weight over the workers. -/
def wsum {L : Type} (f : WorkerPc L → Nat) (ws : List (WorkerPc L)) : Nat :=
  (ws.map f).sum

/-- Weight one on a worker that holds `t` dequeued but not yet invoked. -/
def holds_dequeued {L : Type} (t : os_task_t) : WorkerPc L → Nat
  | WorkerPc.dequeued u => if u = t then 1 else 0
  | _ => 0

/-- Weight one on a worker whose action on `t` is called and not yet
destroyed. -/
def holds_invoked {L : Type} (t : os_task_t) : WorkerPc L → Nat
  | WorkerPc.running u _ => if u = t then 1 else 0
  | WorkerPc.finished u => if u = t then 1 else 0
  | _ => 0

/-- Weight one where the predicate holds. -/
def ind {L : Type} (p : WorkerPc L → Bool) (x : WorkerPc L) : Nat :=
  if p x then 1 else 0

/-- Number of workers asleep on `tp->cond`. -/
def sleepers {L : Type} (ws : List (WorkerPc L)) : Nat :=
  wsum (ind WorkerPc.isWaiting) ws

/-- Relation between the workers before and after a
`pthread_cond_signal(&tp->cond)`: nothing changes when nobody sleeps,
otherwise one sleeper is woken. -/
def SignalCond {L : Type} (ws ws1 : List (WorkerPc L)) : Prop :=
  (sleepers ws = 0 ∧ ws1 = ws) ∨
  (∃ w : Nat, ws[w]? = some WorkerPc.waiting ∧ ws1 = ws.set w WorkerPc.ready)

/-- Relation between the workers before and after an `enqueue_task` on a
queue `q`: the signal is sent only when the queue was empty. -/
def EnqueueWake {L : Type} (q : List os_task_t) (ws ws1 : List (WorkerPc L)) : Prop :=
  (q = [] ∧ SignalCond ws ws1) ∨ (q ≠ [] ∧ ws1 = ws)

/-- The steps of the program, case by case, as a relation: what `step` does
on a state whose mutex is free. -/
inductive Trans {L G : Type} (W : Workload L G) : Label → State L G → State L G → Prop where
  | call_wfc (s : State L G) (w : Nat) :
      s.main = MainPc.submitting [] →
      Trans W (Label.main w) s { s with main := MainPc.wfc_entry }
  | submit (s : State L G) (w : Nat) (t : os_task_t) (todo : List os_task_t)
      (ws : List (WorkerPc L)) :
      s.main = MainPc.submitting (t :: todo) →
      EnqueueWake s.tp.head s.workers ws →
      Trans W (Label.main w) s
        { s with tp := { s.tp with head := s.tp.head ++ [t] }, workers := ws,
                 main := MainPc.submitting todo, submitted := s.submitted ++ [t] }
  | wfc_stop (s : State L G) (w : Nat) :
      s.main = MainPc.wfc_entry → s.tp.head = [] → s.tp.stop = false →
      Trans W (Label.main w) s
        { s with tp := { s.tp with stop := true }, workers := wake_all s.workers,
                 main := MainPc.joining 0 }
  | wfc_leave (s : State L G) (w : Nat) :
      s.main = MainPc.wfc_entry → s.tp.head = [] → s.tp.stop = true →
      Trans W (Label.main w) s
        { s with workers := wake_all s.workers, main := MainPc.joining 0 }
  | wfc_wait (s : State L G) (w : Nat) :
      s.main = MainPc.wfc_entry → s.tp.head ≠ [] →
      Trans W (Label.main w) s { s with main := MainPc.wfc_waiting }
  | join_next (s : State L G) (w i : Nat) :
      s.main = MainPc.joining i → i < s.tp.num_threads →
      s.workers[i]? = some WorkerPc.exited →
      Trans W (Label.main w) s { s with main := MainPc.joining (i + 1) }
  | join_done (s : State L G) (w i : Nat) :
      s.main = MainPc.joining i → ¬ i < s.tp.num_threads →
      Trans W (Label.main w) s { s with main := MainPc.returned }
  | deq_task (s : State L G) (i w : Nat) (t : os_task_t) (rest : List os_task_t) :
      s.workers[i]? = some WorkerPc.ready → s.tp.head = t :: rest →
      Trans W (Label.worker i w) s
        { s with tp := { s.tp with head := rest },
                 workers := s.workers.set i (WorkerPc.dequeued t) }
  | deq_null (s : State L G) (i w : Nat) :
      s.workers[i]? = some WorkerPc.ready → s.tp.head = [] → s.tp.stop = true →
      Trans W (Label.worker i w) s
        { s with workers := s.workers.set i WorkerPc.exited }
  | deq_wait (s : State L G) (i w : Nat) :
      s.workers[i]? = some WorkerPc.ready → s.tp.head = [] → s.tp.stop = false →
      Trans W (Label.worker i w) s
        { s with workers := s.workers.set i WorkerPc.waiting }
  | invoke (s : State L G) (i w : Nat) (t : os_task_t) :
      s.workers[i]? = some (WorkerPc.dequeued t) →
      Trans W (Label.worker i w) s
        { s with workers := s.workers.set i (WorkerPc.running t (W.start t)),
                 invoked := s.invoked ++ [t] }
  | act_enqueue (s : State L G) (i w : Nat) (t u : os_task_t) (l l1 : L) (g1 : G)
      (ws : List (WorkerPc L)) :
      s.workers[i]? = some (WorkerPc.running t l) →
      W.next l s.shared = ActOut.enqueue u l1 g1 →
      EnqueueWake s.tp.head (s.workers.set i (WorkerPc.running t l1)) ws →
      Trans W (Label.worker i w) s
        { s with tp := { s.tp with head := s.tp.head ++ [u] }, workers := ws,
                 shared := g1, submitted := s.submitted ++ [u] }
  | act_internal (s : State L G) (i w : Nat) (t : os_task_t) (l l1 : L) (g1 : G) :
      s.workers[i]? = some (WorkerPc.running t l) →
      W.next l s.shared = ActOut.internal l1 g1 →
      Trans W (Label.worker i w) s
        { s with workers := s.workers.set i (WorkerPc.running t l1), shared := g1 }
  | act_ret (s : State L G) (i w : Nat) (t : os_task_t) (l : L) (g1 : G) :
      s.workers[i]? = some (WorkerPc.running t l) →
      W.next l s.shared = ActOut.ret g1 →
      Trans W (Label.worker i w) s
        { s with workers := s.workers.set i (WorkerPc.finished t), shared := g1 }
  | finish (s : State L G) (i w : Nat) (t : os_task_t) :
      s.workers[i]? = some (WorkerPc.finished t) →
      Trans W (Label.worker i w) s
        { s with workers := s.workers.set i WorkerPc.ready, main := wake_main s.main,
                 destroyed := s.destroyed ++ [t] }
  | spurious_worker (s : State L G) (i : Nat) :
      s.workers[i]? = some WorkerPc.waiting →
      Trans W (Label.spurious_worker i) s
        { s with workers := s.workers.set i WorkerPc.ready }
  | spurious_main (s : State L G) :
      s.main = MainPc.wfc_waiting →
      Trans W Label.spurious_main s { s with main := MainPc.wfc_entry }

/-- Is the orchestrator past the locked part of `wait_for_completion`? -/
def MainPc.past_stop : MainPc → Bool
  | MainPc.joining _ => true
  | MainPc.returned => true
  | _ => false

/-- Has the orchestrator called `wait_for_completion`? -/
def MainPc.in_wfc : MainPc → Bool
  | MainPc.submitting _ => false
  | _ => true

/-- Workers the join loop has already joined. -/
def MainPc.joined : MainPc → Nat → Nat
  | MainPc.joining i, _ => i
  | MainPc.returned, n => n
  | _, _ => 0

/-- Facts that hold in every reachable state (proved below).

* the mutex is free between steps;
* the worker list has `num_threads` entries;
* `stop` is set exactly when the orchestrator is past the locked part of
  `wait_for_completion`;
* no worker has exited while `stop` is clear, none sleeps once it is set;
* once `stop` is set, a non-empty queue comes with a worker that will look
  at it;
* the workers already joined have exited;
* every submitted task is invoked, queued, or held dequeued by a worker, and
  every invoked task is destroyed or still held by its worker. -/
structure Inv {L G : Type} (s : State L G) : Prop where
  mutex_free : s.tp.mutex = none
  size : s.workers.length = s.tp.num_threads
  stop_main : s.tp.stop = s.main.past_stop
  no_exit : s.tp.stop = false → wsum (ind WorkerPc.isExited) s.workers = 0
  no_sleep : s.tp.stop = true → sleepers s.workers = 0
  served : s.tp.stop = true → s.tp.head ≠ [] → 0 < wsum (ind WorkerPc.isActive) s.workers
  joined : ∀ j, j < s.main.joined s.tp.num_threads → j < s.tp.num_threads →
    s.workers[j]? = some WorkerPc.exited
  submitted_eq : ∀ t, s.submitted.count t =
    s.invoked.count t + s.tp.head.count t + wsum (holds_dequeued t) s.workers
  invoked_eq : ∀ t, s.invoked.count t =
    s.destroyed.count t + wsum (holds_invoked t) s.workers

/-! ## Part 3a: the fan-out workload -/

/-- A fan-out task of the given depth (the depth is the task argument). -/
def fanout_task (depth : Nat) : os_task_t :=
  { action := 0, argument := depth, destroy_arg := none }

/-- The fan-out workload: the action of a task of depth less than `d` calls
`enqueue_task` `k` times, each time with a task one level deeper, and
returns; a task of depth `d` or more returns at once.  The private state is
the depth and the number of children still to enqueue. -/
def fanout (k d : Nat) : Workload (Nat × Nat) Unit where
  start t := (t.argument, if t.argument < d then k else 0)
  next l g :=
    match l.2 with
    | 0 => ActOut.ret g
    | j + 1 => ActOut.enqueue (fanout_task (l.1 + 1)) (l.1, j) g

/-- The sum `1 + k + ... + k^r`. -/
def geom (k : Nat) : Nat → Nat
  | 0 => 1
  | r + 1 => 1 + k * geom k r

/-- A complete schedule of the fan-out workload with `k = 2`, `d = 1` on two
workers. -/
def demo_schedule : List Label :=
  [Label.worker 0 0, Label.worker 1 0, Label.main 0, Label.worker 0 0, Label.worker 0 0,
   Label.worker 0 1, Label.worker 0 0, Label.worker 0 0, Label.worker 0 0, Label.worker 0 0,
   Label.worker 0 0, Label.worker 0 0, Label.worker 0 0, Label.worker 0 0, Label.worker 0 0,
   Label.worker 0 0, Label.worker 0 0, Label.worker 0 0, Label.worker 1 0, Label.main 0,
   Label.main 0, Label.worker 0 0, Label.worker 1 0, Label.main 0, Label.main 0, Label.main 0]

/-- Initial state of the demonstration run. -/
def demo_init : State (Nat × Nat) Unit :=
  init 2 [fanout_task 0] ()

/-- State the demonstration run ends in. -/
def demo_final : State (Nat × Nat) Unit :=
  (run (fanout 2 1) demo_schedule demo_init).getD demo_init

/-- State of the demonstration run after its first six steps: worker 0 is
inside the action of the root task. -/
def demo_middle : State (Nat × Nat) Unit :=
  (run (fanout 2 1) (demo_schedule.take 6) demo_init).getD demo_init

/-- Initial state of the early-stop scenario: two workers, one task whose
action enqueues one child. -/
def early_init : State (Nat × Nat) Unit :=
  init 2 [fanout_task 0] ()

/-- A schedule on which `wait_for_completion` sets `stop` while worker 0 is
inside the action of the root task: the orchestrator submits the root and
calls `wait_for_completion`; worker 0 dequeues the root and calls its action;
the orchestrator finds the queue empty and sets `stop`. -/
def early_schedule : List Label :=
  [Label.main 0, Label.main 0, Label.worker 0 0, Label.worker 0 0, Label.main 0]

/-- State at the end of `early_schedule`. -/
def early_stop_state : State (Nat × Nat) Unit :=
  (run (fanout 1 1) early_schedule early_init).getD early_init

/-- State two steps later: worker 1 has got NULL from `dequeue_task` and left,
and the action of the root task has enqueued its child. -/
def early_after_state : State (Nat × Nat) Unit :=
  (run (fanout 1 1) (early_schedule ++ [Label.worker 1 0, Label.worker 0 0]) early_init).getD
    early_init

/-- An environment in which both allocations succeed and every
`pthread_create` fails with `EAGAIN` (error number 11). -/
def eagain_env : CreateEnv :=
  { malloc_tp := true, malloc_threads := true, pthread_create := fun _ => 11 }

/-- A pool with one queued task and `stop` set, its mutex free. -/
def sample_pool : os_threadpool_t :=
  { head := [⟨1, 7, some 2⟩], stop := true, mutex := none, num_threads := 2,
    threads := [some 0, some 1] }

/-- An empty pool as `create_threadpool` makes it. -/
def empty_pool : os_threadpool_t :=
  created_pool 2

/-! ## Progress and termination measures -/

/-- Is the label one of the wake-ups without a signal? -/
def Label.isSpurious : Label → Bool
  | Label.spurious_worker _ => true
  | Label.spurious_main => true
  | _ => false

/-- Facts about liveness that hold in every reachable state of a pool with
at least one worker (proved below): a non-empty queue comes with a worker
that is neither asleep nor gone, and while the orchestrator sleeps in
`wait_for_completion` the queue is non-empty or some worker still has to call
`signal_stop_condition_if_needed`. -/
structure Live {L G : Type} (s : State L G) : Prop where
  has_worker : 1 ≤ s.tp.num_threads
  attended : s.tp.head ≠ [] → 0 < wsum (ind WorkerPc.isActive) s.workers
  awaited : s.main = MainPc.wfc_waiting →
    s.tp.head ≠ [] ∨ 0 < wsum (ind WorkerPc.isBusy) s.workers

/-- A bound on the work a workload can still cause: a rank for a task not yet
run, for a running action and for the shared data. -/
structure Rank (L G : Type) where
  task : os_task_t → Nat
  loc : L → Nat
  glob : G → Nat

/-- The rank fits the workload: every step of an action pays for what it
does. -/
structure Ranked {L G : Type} (W : Workload L G) (R : Rank L G) : Prop where
  start_le : ∀ t, R.loc (W.start t) ≤ R.task t
  enqueue_lt : ∀ l g u l1 g1, W.next l g = ActOut.enqueue u l1 g1 →
    R.loc l1 + R.glob g1 + R.task u + 7 ≤ R.loc l + R.glob g
  internal_lt : ∀ l g l1 g1, W.next l g = ActOut.internal l1 g1 →
    R.loc l1 + R.glob g1 + 1 ≤ R.loc l + R.glob g
  ret_le : ∀ l g g1, W.next l g = ActOut.ret g1 → R.glob g1 ≤ R.loc l + R.glob g

/-- Number of steps a worker in the given place can still take or cause. -/
def worker_rank {L G : Type} (R : Rank L G) : WorkerPc L → Nat
  | WorkerPc.ready => 1
  | WorkerPc.waiting => 0
  | WorkerPc.dequeued t => R.task t + 5
  | WorkerPc.running _ l => R.loc l + 4
  | WorkerPc.finished _ => 3
  | WorkerPc.exited => 0

/-- Rank of the tasks in a queue. -/
def queue_rank {L G : Type} (R : Rank L G) (q : List os_task_t) : Nat :=
  (q.map (fun t => R.task t + 5)).sum

/-- Rank of the tasks the orchestrator has still to submit. -/
def todo_rank {L G : Type} (R : Rank L G) (q : List os_task_t) : Nat :=
  (q.map (fun t => R.task t + 7)).sum

/-- Number of steps the orchestrator can still take or cause, for `n`
workers. -/
def main_rank {L G : Type} (R : Rank L G) (n : Nat) : MainPc → Nat
  | MainPc.submitting todo => 2 * n + 4 + todo_rank R todo
  | MainPc.wfc_entry => 2 * n + 3
  | MainPc.wfc_waiting => 2 * n + 2
  | MainPc.joining i => (n - i) + 1
  | MainPc.returned => 0

/-- The termination measure: an upper bound on the number of steps (spurious
wake-ups apart) the program can still take. -/
def potential {L G : Type} (R : Rank L G) (s : State L G) : Nat :=
  main_rank R s.tp.num_threads s.main + queue_rank R s.tp.head
    + wsum (worker_rank R) s.workers + R.glob s.shared

/-- Rank of a fan-out task with `r` levels below it. -/
def fan_cost (k : Nat) : Nat → Nat
  | 0 => 0
  | r + 1 => k * (fan_cost k r + 7)

/-- Number of tasks in the subtree of a fan-out task of the given depth. -/
def subtree (k d depth : Nat) : Nat :=
  geom k (d - depth)

/-- Tasks still to come from a worker in the fan-out workload: the subtree
of a task dequeued and not yet invoked, and the subtrees of the children a
running action has still to enqueue. -/
def fan_pending (k d : Nat) : WorkerPc (Nat × Nat) → Nat
  | WorkerPc.dequeued t => subtree k d t.argument
  | WorkerPc.running _ l => l.2 * subtree k d (l.1 + 1)
  | _ => 0

/-- Tasks still to come from the tasks of a list. -/
def fan_queued (k d : Nat) (q : List os_task_t) : Nat :=
  (q.map (fun t => subtree k d t.argument)).sum

/-- Tasks still to come from the orchestrator. -/
def fan_todo (k d : Nat) : MainPc → Nat
  | MainPc.submitting todo => fan_queued k d todo
  | _ => 0

/-- The steps a schedule of the fan-out workload on `n` workers can take at
most, spurious wake-ups apart. -/
def fanout_bound (k d n : Nat) : Nat :=
  3 * n + fan_cost k d + 11

/-- A complete schedule of the fan-out workload with `k = 1`, `d = 1` on one
worker. -/
def unary_schedule : List Label :=
  [Label.main 0, Label.main 0, Label.worker 0 0, Label.worker 0 0, Label.worker 0 0,
   Label.worker 0 0, Label.worker 0 0, Label.worker 0 0, Label.worker 0 0, Label.worker 0 0,
   Label.worker 0 0, Label.main 0, Label.worker 0 0, Label.main 0, Label.main 0]

/-- State the run of `unary_schedule` ends in. -/
def unary_final : State (Nat × Nat) Unit :=
  (run (fanout 1 1) unary_schedule (init 1 [fanout_task 0] ())).getD (init 1 [fanout_task 0] ())

/-- The rank of the fan-out workload: a task with `r` levels below it costs
`fan_cost k r`, and an action that has still `j` children to enqueue costs
`j` times the price of a child. -/
def fanout_rank (k d : Nat) : Rank (Nat × Nat) Unit where
  task t := fan_cost k (d - t.argument)
  loc l := l.2 * (fan_cost k (d - (l.1 + 1)) + 7)
  glob _ := 0

/-! ## Part 3b: the graph traversal (`parallel.c`, `serial.c`) -/

/-- Visit marks: `NOT_VISITED` (0), `PROCESSING` (1) and `DONE` (2). -/
inductive Mark where
  | NOT_VISITED
  | PROCESSING
  | DONE
deriving DecidableEq

/-- Modelled from the spec: the node type `os_node_t` of `os_graph.h` (not
part of the sources), with the fields the sources read: the value `info` and
the neighbour array (`num_neighbours` is its length). -/
structure os_node_t where
  info : Int
  neighbours : List Nat

/-- Node `graph->nodes[idx]`.  An index outside the array is undefined
behaviour in C; here it reads as a node without value and neighbours. -/
def node_at (nodes : List os_node_t) (idx : Nat) : os_node_t :=
  nodes.getD idx { info := 0, neighbours := [] }

/-- Mark `graph->visited[idx]`.  An index outside the array is undefined
behaviour in C; here it reads as `DONE`. -/
def mark_at (visited : List Mark) (idx : Nat) : Mark :=
  visited.getD idx Mark.DONE

/-- Addition on the C type `int` (32 bits, two's complement, wrapping). -/
def wrap32 (x : Int) : Int :=
  (x + 2147483648) % 4294967296 - 2147483648

/-- Do all neighbour indices name a node? -/
def valid_graph (nodes : List os_node_t) : Bool :=
  nodes.all (fun nd => nd.neighbours.all (fun v => decide (v < nodes.length)))

/-- Node `v` is reachable from node `r` along the edges of the graph. -/
inductive Reach (nodes : List os_node_t) (r : Nat) : Nat → Prop where
  | root : Reach nodes r r
  | edge (u v : Nat) : Reach nodes r u → v ∈ (node_at nodes u).neighbours → Reach nodes r v

/-- Sum of the values of the listed nodes. -/
def info_sum (nodes : List os_node_t) (vs : List Nat) : Int :=
  (vs.map (fun v => (node_at nodes v).info)).sum

/-- The data shared by the actions of `parallel.c`: the marks
`graph->visited`, the accumulator `sum`, and the history of the nodes whose
value was added to `sum`. -/
structure GraphShared where
  visited : List Mark
  sum : Int
  log : List Nat

/-- Where a running `neighbour` action stands: before its first critical
section, in its loop at index `i`, or before its last critical section. -/
inductive NeighbourPc where
  | entry (idx : Nat)
  | loop (idx i : Nat)
  | mark_done (idx : Nat)
deriving DecidableEq

/-- The task `create_task(neighbour, arg, free)` with `*arg = idx`; `neighbour`
is function 1 and `free` function 0. -/
def neighbour_task (idx : Nat) : os_task_t :=
  { action := 1, argument := idx, destroy_arg := some 0 }

/-- The action `neighbour` of `parallel.c`, one critical section per step.

* `entry`: under `graph_mutex`, return if the node is already marked, else
  mark it `PROCESSING`;
* `loop`: under `graph_mutex`, enqueue a task for neighbour `i` if that
  neighbour is `NOT_VISITED`; past the last neighbour, add the value of the
  node to `sum` under `sum_mutex`;
* `mark_done`: under `graph_mutex`, mark the node `DONE`, and return. -/
def parallel_graph (nodes : List os_node_t) : Workload NeighbourPc GraphShared where
  start t := NeighbourPc.entry t.argument
  next l g :=
    match l with
    | NeighbourPc.entry idx =>
      if mark_at g.visited idx = Mark.NOT_VISITED then
        ActOut.internal (NeighbourPc.loop idx 0)
          { g with visited := g.visited.set idx Mark.PROCESSING }
      else ActOut.ret g
    | NeighbourPc.loop idx i =>
      match (node_at nodes idx).neighbours[i]? with
      | some nb =>
        if mark_at g.visited nb = Mark.NOT_VISITED then
          ActOut.enqueue (neighbour_task nb) (NeighbourPc.loop idx (i + 1)) g
        else ActOut.internal (NeighbourPc.loop idx (i + 1)) g
      | none =>
        ActOut.internal (NeighbourPc.mark_done idx)
          { g with sum := wrap32 (g.sum + (node_at nodes idx).info), log := g.log ++ [idx] }
    | NeighbourPc.mark_done idx =>
      ActOut.ret { g with visited := g.visited.set idx Mark.DONE }

/-- The shared data when `main` of `parallel.c` starts the traversal. -/
def graph_init (nodes : List os_node_t) : GraphShared :=
  { visited := List.replicate nodes.length Mark.NOT_VISITED, sum := 0, log := [] }

/-- The globals of `serial.c`: the marks, `sum`, `num_nodes`, and the history
of the nodes processed. -/
structure SerialState where
  visited : List Mark
  sum : Int
  num_nodes : Nat
  log : List Nat

/-- The loop of `process_node` in `serial.c` over the neighbours still to
look at; `call` is the recursive call. -/
def serial_loop (call : Nat → SerialState → Option SerialState) :
    List Nat → SerialState → Option SerialState
  | [], st => some st
  | nb :: rest, st =>
    if mark_at st.visited nb = Mark.NOT_VISITED then
      match call nb st with
      | none => none
      | some st1 => serial_loop call rest st1
    else serial_loop call rest st

/-- Function `process_node` of `serial.c`, with a bound on the depth of the
recursion (`none` when the bound is hit). -/
def serial_process_node (nodes : List os_node_t) : Nat → Nat → SerialState → Option SerialState
  | 0, _, _ => none
  | fuel + 1, idx, st =>
    serial_loop (serial_process_node nodes fuel) (node_at nodes idx).neighbours
      { visited := st.visited.set idx Mark.DONE,
        sum := wrap32 (st.sum + (node_at nodes idx).info),
        num_nodes := st.num_nodes + 1,
        log := st.log ++ [idx] }

/-- The globals when `main` of `serial.c` calls `process_node(0)`. -/
def serial_init (nodes : List os_node_t) : SerialState :=
  { visited := List.replicate nodes.length Mark.NOT_VISITED, sum := 0, num_nodes := 0, log := [] }

/-- The graph of the end-to-end scenario: edges 0→{1,2}, 1→{3}, 2→{3},
values 10, 20, 30, 40. -/
def diamond : List os_node_t :=
  [{ info := 10, neighbours := [1, 2] }, { info := 20, neighbours := [3] },
   { info := 30, neighbours := [3] }, { info := 40, neighbours := [] }]

/-- Weight one on a worker that holds a task for node `v` whose action has not
yet passed its first critical section. -/
def gpend (v : Nat) : WorkerPc NeighbourPc → Nat
  | WorkerPc.dequeued t => if t.argument = v then 1 else 0
  | WorkerPc.running _ (NeighbourPc.entry u) => if u = v then 1 else 0
  | _ => 0

/-- Weight one on a worker in the neighbour loop of node `v`. -/
def gproc (v : Nat) : WorkerPc NeighbourPc → Nat
  | WorkerPc.running _ (NeighbourPc.loop u _) => if u = v then 1 else 0
  | _ => 0

/-- Weight one on a worker that has added the value of node `v` and not yet
marked it `DONE`. -/
def gsummed (v : Nat) : WorkerPc NeighbourPc → Nat
  | WorkerPc.running _ (NeighbourPc.mark_done u) => if u = v then 1 else 0
  | _ => 0

/-- Number of tasks for node `v` in a list of tasks. -/
def task_count (v : Nat) (q : List os_task_t) : Nat :=
  (q.map (fun t => if t.argument = v then 1 else 0)).sum

/-- Number of tasks for node `v` the orchestrator has still to submit. -/
def todo_count (v : Nat) : MainPc → Nat
  | MainPc.submitting todo => task_count v todo
  | _ => 0

/-- Number of tasks for node `v` that have not yet looked at its mark. -/
def pend (v : Nat) (s : State NeighbourPc GraphShared) : Nat :=
  todo_count v s.main + task_count v s.tp.head + wsum (gpend v) s.workers

/-- Node `v` is taken care of: it is marked, or a task for it is on its way. -/
def Covered (s : State NeighbourPc GraphShared) (v : Nat) : Prop :=
  mark_at s.shared.visited v ≠ Mark.NOT_VISITED ∨ 0 < pend v s

/-- What holds of a worker of the traversal: the node it works on is reachable
from node 0, and the neighbours it has already looked at are taken care of. -/
def WOk (nodes : List os_node_t) (s : State NeighbourPc GraphShared) :
    WorkerPc NeighbourPc → Prop
  | WorkerPc.dequeued t => Reach nodes 0 t.argument
  | WorkerPc.running _ (NeighbourPc.entry v) => Reach nodes 0 v
  | WorkerPc.running _ (NeighbourPc.loop v j) =>
    Reach nodes 0 v ∧
      ∀ (m u : Nat), m < j → (node_at nodes v).neighbours[m]? = some u → Covered s u
  | WorkerPc.running _ (NeighbourPc.mark_done v) =>
    Reach nodes 0 v ∧ ∀ u, u ∈ (node_at nodes v).neighbours → Covered s u
  | _ => True

/-- Indicator of node `v` carrying mark `m`. -/
def has_mark (visited : List Mark) (v : Nat) (m : Mark) : Nat :=
  if visited[v]? = some m then 1 else 0

/-- Facts that hold in every reachable state of the traversal (proved
below). -/
structure GInv (nodes : List os_node_t) (s : State NeighbourPc GraphShared) : Prop where
  len : s.shared.visited.length = nodes.length
  marks : ∀ v, wsum (gproc v) s.workers + wsum (gsummed v) s.workers
    = has_mark s.shared.visited v Mark.PROCESSING
  logged : ∀ v, s.shared.log.count v
    = wsum (gsummed v) s.workers + has_mark s.shared.visited v Mark.DONE
  sum_eq : s.shared.sum = wrap32 (info_sum nodes s.shared.log)
  reach_queue : ∀ t, t ∈ s.tp.head → Reach nodes 0 t.argument
  reach_todo : ∀ todo, s.main = MainPc.submitting todo → ∀ t, t ∈ todo → Reach nodes 0 t.argument
  reach_log : ∀ v, v ∈ s.shared.log → Reach nodes 0 v
  workers_ok : ∀ (i : Nat) (p : WorkerPc NeighbourPc), s.workers[i]? = some p → WOk nodes s p
  cover_done : ∀ v, s.shared.visited[v]? = some Mark.DONE →
    ∀ u, u ∈ (node_at nodes v).neighbours → Covered s u
  cover_root : Covered s 0

/-- Number of neighbours of node `v`. -/
def degree (nodes : List os_node_t) (v : Nat) : Nat :=
  (node_at nodes v).neighbours.length

/-- Rank of the marks from index `v` on: nine per neighbour of every node
still `NOT_VISITED`. -/
def unvisited_rank (nodes : List os_node_t) : Nat → List Mark → Nat
  | _, [] => 0
  | v, m :: ms =>
    (if m = Mark.NOT_VISITED then degree nodes v * 9 else 0) + unvisited_rank nodes (v + 1) ms

/-- The rank of the traversal: two for a task, nine per neighbour still to
look at for an action in its loop, nine per neighbour of every node still
`NOT_VISITED` for the shared data. -/
def graph_rank (nodes : List os_node_t) : Rank NeighbourPc GraphShared where
  task _ := 2
  loc l :=
    match l with
    | NeighbourPc.entry _ => 2
    | NeighbourPc.loop v i => 1 + (degree nodes v - i) * 9
    | NeighbourPc.mark_done _ => 0
  glob g := unvisited_rank nodes 0 g.visited

/-- Number of `NOT_VISITED` marks. -/
def unvisited (visited : List Mark) : Nat :=
  (visited.map (fun m => if m = Mark.NOT_VISITED then 1 else 0)).sum

/-- What a call of `process_node` (or a run of its loop) of `serial.c` does
to the globals: it marks new nodes, each exactly once and each reachable from
one of the `roots`, every new node has all its neighbours marked afterwards,
and `sum`, `num_nodes` and the history grow by the new nodes. -/
structure SerialPost (nodes : List os_node_t) (roots : List Nat) (st st1 : SerialState) :
    Prop where
  len : st1.visited.length = st.visited.length
  fewer : unvisited st1.visited ≤ unvisited st.visited
  mono : ∀ v, mark_at st.visited v ≠ Mark.NOT_VISITED → mark_at st1.visited v = mark_at st.visited v
  marks : ∀ v, mark_at st1.visited v = Mark.NOT_VISITED ∨ mark_at st1.visited v = Mark.DONE ∨
    mark_at st1.visited v = mark_at st.visited v
  news : ∃ new : List Nat, st1.log = st.log ++ new ∧ new.Nodup ∧
    (∀ v, v ∈ new ↔ (mark_at st.visited v = Mark.NOT_VISITED ∧
      mark_at st1.visited v = Mark.DONE)) ∧
    (∀ v, v ∈ new → ∃ r, r ∈ roots ∧ Reach nodes r v) ∧
    (∀ v, v ∈ new → ∀ u, u ∈ (node_at nodes v).neighbours → mark_at st1.visited u = Mark.DONE) ∧
    wrap32 st1.sum = wrap32 (st.sum + info_sum nodes new) ∧
    (wrap32 st.sum = st.sum → wrap32 st1.sum = st1.sum) ∧
    st1.num_nodes = st.num_nodes + new.length

/-- A complete schedule of the traversal of `diamond` on four workers.  The
orchestrator submits the task for node 0 and worker 0 runs it up to the
second neighbour; workers 1 and 2 then process nodes 1 and 2 in lock step, so
that both find node 3 `NOT_VISITED` and both enqueue a task for it.  Worker 3
runs the first of these tasks to its end, and worker 0 later finds node 3
marked and returns from the second at once. -/
def diamond_schedule : List Label :=
  [Label.main 0,
   Label.worker 0 0, Label.worker 0 0, Label.worker 0 0, Label.worker 0 0, Label.worker 0 0,
   Label.worker 1 0, Label.worker 2 0, Label.worker 1 0, Label.worker 2 0,
   Label.worker 1 0, Label.worker 2 0, Label.worker 1 0, Label.worker 2 0,
   Label.worker 3 0, Label.worker 3 0, Label.worker 3 0, Label.worker 3 0, Label.worker 3 0,
   Label.worker 3 0,
   Label.worker 0 0, Label.worker 0 0, Label.worker 0 0,
   Label.worker 1 0, Label.worker 1 0, Label.worker 1 0,
   Label.worker 2 0, Label.worker 2 0, Label.worker 2 0,
   Label.worker 0 0, Label.worker 0 0, Label.worker 0 0, Label.worker 0 0,
   Label.main 0, Label.main 0,
   Label.worker 0 0, Label.worker 1 0, Label.worker 2 0, Label.worker 3 0,
   Label.main 0, Label.main 0, Label.main 0, Label.main 0, Label.main 0]

/-- Initial state of the traversal of `diamond` on four workers. -/
def diamond_init : State NeighbourPc GraphShared :=
  init 4 [neighbour_task 0] (graph_init diamond)

/-- State the run of `diamond_schedule` ends in. -/
def diamond_final : State NeighbourPc GraphShared :=
  (run (parallel_graph diamond) diamond_schedule diamond_init).getD diamond_init

/-! ## Theorems on the pool operations -/

theorem lock_free (self : Nat) (tp : os_threadpool_t) (h : tp.mutex = none) :
    pthread_mutex_lock self tp = some { tp with mutex := some self } := by
  simp [pthread_mutex_lock, h]

theorem enqueue_task_free (self : Nat) (tp : os_threadpool_t) (t : os_task_t)
    (h : tp.mutex = none) :
    enqueue_task self tp t =
      some ({ tp with head := tp.head ++ [t] },
            if tp.head = [] then [Sig.signal_cond] else []) := by
  cases tp with
  | mk hd st mu n th =>
    simp only at h
    subst h
    cases hd <;>
      simp [enqueue_task, pthread_mutex_lock, pthread_mutex_unlock, list_empty, list_add_tail]

theorem signal_stop_free (self : Nat) (tp : os_threadpool_t) (h : tp.mutex = none) :
    signal_stop_condition_if_needed self tp = some (tp, [Sig.signal_stop_cond]) := by
  cases tp with
  | mk hd st mu n th =>
    simp only at h
    subst h
    simp [signal_stop_condition_if_needed, pthread_mutex_lock, pthread_mutex_unlock]

theorem dequeue_task_free_cons (self : Nat) (tp : os_threadpool_t) (t : os_task_t)
    (rest : List os_task_t) (h : tp.mutex = none) (hq : tp.head = t :: rest) :
    dequeue_task self tp = some ({ tp with head := rest }, DequeueResult.task t) := by
  cases tp with
  | mk hd st mu n th =>
    simp only at h hq
    subst h hq
    simp [dequeue_task, pthread_mutex_lock, pthread_mutex_unlock]

theorem dequeue_task_free_nil (self : Nat) (tp : os_threadpool_t)
    (h : tp.mutex = none) (hq : tp.head = []) :
    dequeue_task self tp =
      some (tp, if tp.stop then DequeueResult.null else DequeueResult.wait) := by
  cases tp with
  | mk hd st mu n th =>
    simp only at h hq
    subst h hq
    cases st <;>
      simp [dequeue_task, pthread_mutex_lock, pthread_mutex_unlock, pthread_cond_wait]

theorem wfc_locked_free (self : Nat) (tp : os_threadpool_t) (h : tp.mutex = none) :
    wait_for_completion_locked self tp =
      some (if tp.head = [] then
              (if tp.stop then (tp, WfcResult.join, [Sig.broadcast_cond])
               else ({ tp with stop := true }, WfcResult.join,
                     [Sig.broadcast_cond, Sig.broadcast_cond]))
            else (tp, WfcResult.wait, [])) := by
  cases tp with
  | mk hd st mu n th =>
    simp only at h
    subst h
    cases hd <;> cases st <;>
      simp [wait_for_completion_locked, pthread_mutex_lock, pthread_mutex_unlock,
        pthread_cond_wait, queue_is_empty, list_empty]

/-- C4 (dequeue_task contract).  On a pool whose mutex can be taken:
a non-empty queue makes `dequeue_task` return the head and remove exactly
that task, whatever `stop` is; the NULL sentinel is returned exactly when the
queue is empty and `stop` is set, and then the pool is unchanged; with an
empty queue and `stop` clear the call does not return but sleeps on the
non-empty condition, the pool unchanged. -/
theorem dequeue_task_contract (self : Nat) (tp : os_threadpool_t) (hfree : tp.mutex = none) :
    (∀ t rest, tp.head = t :: rest →
      dequeue_task self tp = some ({ tp with head := rest }, DequeueResult.task t)) ∧
    (∀ tp1, dequeue_task self tp = some (tp1, DequeueResult.null) →
      tp.head = [] ∧ tp.stop = true ∧ tp1 = tp) ∧
    (tp.head = [] → tp.stop = true →
      dequeue_task self tp = some (tp, DequeueResult.null)) ∧
    (tp.head = [] → tp.stop = false →
      dequeue_task self tp = some (tp, DequeueResult.wait)) := by
  refine ⟨fun t rest hq => dequeue_task_free_cons self tp t rest hfree hq, ?_, ?_, ?_⟩
  · intro tp1 h
    cases hq : tp.head with
    | nil =>
      rw [dequeue_task_free_nil self tp hfree hq] at h
      cases hs : tp.stop with
      | false => simp [hs] at h
      | true =>
        simp [hs] at h
        exact ⟨rfl, rfl, h.symm⟩
    | cons t rest =>
      rw [dequeue_task_free_cons self tp t rest hfree hq] at h
      simp at h
  · intro hq hs
    rw [dequeue_task_free_nil self tp hfree hq, hs]
    rfl
  · intro hq hs
    rw [dequeue_task_free_nil self tp hfree hq, hs]
    rfl

theorem enqueue_tasks_free (self : Nat) (ts : List os_task_t) :
    ∀ tp : os_threadpool_t, tp.mutex = none →
      enqueue_tasks self ts tp = some { tp with head := tp.head ++ ts } := by
  induction ts with
  | nil => intro tp _; simp [enqueue_tasks]
  | cons t ts ih =>
    intro tp h
    simp only [enqueue_tasks, enqueue_task_free self tp t h]
    have h2 := ih { tp with head := tp.head ++ [t] } h
    rw [h2]
    simp

theorem dequeue_tasks_free (self : Nat) (ts : List os_task_t) :
    ∀ tp : os_threadpool_t, tp.mutex = none → tp.head = ts →
      dequeue_tasks self ts.length tp = (ts, { tp with head := [] }) := by
  induction ts with
  | nil =>
    intro tp _ hq
    cases tp
    simp only at hq
    subst hq
    simp [dequeue_tasks]
  | cons t ts ih =>
    intro tp h hq
    simp only [List.length_cons, dequeue_tasks, dequeue_task_free_cons self tp t ts h hq]
    have h2 := ih { tp with head := ts } h rfl
    rw [h2]

/-- C5 (FIFO order).  `enqueue_task` puts the task at the tail and keeps the
tasks already queued in their order; and when `t1..tn` are enqueued into an
empty queue, `n` successive `dequeue_task` calls return `t1..tn` in that order
and leave the queue empty. -/
theorem fifo_order (producer consumer : Nat) (tp : os_threadpool_t) (ts : List os_task_t)
    (hfree : tp.mutex = none) :
    (∀ t, ∃ sigs, enqueue_task producer tp t =
        some ({ tp with head := tp.head ++ [t] }, sigs)) ∧
    (tp.head = [] →
      ∃ tp1, enqueue_tasks producer ts tp = some tp1 ∧ tp1.head = ts ∧
        (dequeue_tasks consumer ts.length tp1).1 = ts ∧
        (dequeue_tasks consumer ts.length tp1).2.head = []) := by
  constructor
  · intro t
    exact ⟨_, enqueue_task_free producer tp t hfree⟩
  · intro hq
    have h2 := dequeue_tasks_free consumer ts { tp with head := tp.head ++ ts } hfree
      (by simp [hq])
    exact ⟨_, enqueue_tasks_free producer ts tp hfree, by simp [hq], by rw [h2], by rw [h2]⟩

theorem freed_tasks_append (a b : List Effect) :
    freed_tasks (a ++ b) = freed_tasks a ++ freed_tasks b := by
  induction a with
  | nil => rfl
  | cons e a ih => cases e <;> simp [freed_tasks, ih]

theorem destroy_arg_calls_append (a b : List Effect) :
    destroy_arg_calls (a ++ b) = destroy_arg_calls a ++ destroy_arg_calls b := by
  induction a with
  | nil => rfl
  | cons e a ih => cases e <;> simp [destroy_arg_calls, ih]

theorem action_calls_append (a b : List Effect) :
    action_calls (a ++ b) = action_calls a ++ action_calls b := by
  induction a with
  | nil => rfl
  | cons e a ih => cases e <;> simp [action_calls, ih]

theorem destroy_queue_spec (q : List os_task_t) :
    freed_tasks (destroy_queue q).1 = q ∧
    destroy_arg_calls (destroy_queue q).1 = expected_destroy_calls q ∧
    action_calls (destroy_queue q).1 = [] ∧
    (destroy_queue q).2 = [] := by
  induction q with
  | nil => simp [destroy_queue, freed_tasks, destroy_arg_calls, action_calls,
      expected_destroy_calls]
  | cons t q ih =>
    obtain ⟨h1, h2, h3, h4⟩ := ih
    simp only [destroy_queue, freed_tasks_append, destroy_arg_calls_append,
      action_calls_append, h1, h2, h3, h4, expected_destroy_calls]
    cases hd : t.destroy_arg <;>
      simp [destroy_task, hd, freed_tasks, destroy_arg_calls, action_calls]

theorem destroy_threadpool_spec (tp : os_threadpool_t) :
    freed_tasks (destroy_threadpool tp).1 = tp.head ∧
    destroy_arg_calls (destroy_threadpool tp).1 = expected_destroy_calls tp.head ∧
    action_calls (destroy_threadpool tp).1 = [] ∧
    (destroy_threadpool tp).2 = [] := by
  obtain ⟨h1, h2, h3, h4⟩ := destroy_queue_spec tp.head
  simp [destroy_threadpool, freed_tasks_append, destroy_arg_calls_append,
    action_calls_append, h1, h2, h3, h4, freed_tasks, destroy_arg_calls, action_calls]

/-! ## Sums over the workers -/

theorem wsum_nil {L : Type} (f : WorkerPc L → Nat) : wsum f [] = 0 := rfl

theorem wsum_cons {L : Type} (f : WorkerPc L → Nat) (p : WorkerPc L) (ws : List (WorkerPc L)) :
    wsum f (p :: ws) = f p + wsum f ws := by
  simp [wsum]

theorem wsum_set {L : Type} (f : WorkerPc L → Nat) :
    ∀ (ws : List (WorkerPc L)) (i : Nat) (p q : WorkerPc L), ws[i]? = some p →
      wsum f (ws.set i q) + f p = wsum f ws + f q := by
  intro ws
  induction ws with
  | nil => intro i p q h; simp at h
  | cons a ws ih =>
    intro i p q h
    cases i with
    | zero =>
      simp at h
      subst h
      simp only [List.set_cons_zero, wsum_cons]
      omega
    | succ i =>
      simp at h
      have h2 := ih i p q h
      simp only [List.set_cons_succ, wsum_cons]
      omega

theorem wsum_get_le {L : Type} (f : WorkerPc L → Nat) :
    ∀ (ws : List (WorkerPc L)) (i : Nat) (p : WorkerPc L), ws[i]? = some p →
      f p ≤ wsum f ws := by
  intro ws
  induction ws with
  | nil => intro i p h; simp at h
  | cons a ws ih =>
    intro i p h
    cases i with
    | zero =>
      simp at h
      subst h
      simp only [wsum_cons]
      omega
    | succ i =>
      simp at h
      have h2 := ih i p h
      simp only [wsum_cons]
      omega

theorem wsum_eq_zero {L : Type} (f : WorkerPc L → Nat) (ws : List (WorkerPc L)) :
    wsum f ws = 0 ↔ ∀ (i : Nat) (p : WorkerPc L), ws[i]? = some p → f p = 0 := by
  constructor
  · intro h i p hp
    have h2 := wsum_get_le f ws i p hp
    omega
  · intro h
    induction ws with
    | nil => rfl
    | cons a ws ih =>
      have h0 : f a = 0 := h 0 a (by simp)
      have h1 : wsum f ws = 0 := ih (fun i p hp => h (i + 1) p (by simpa using hp))
      simp only [wsum_cons]
      omega

theorem wsum_pos {L : Type} (f : WorkerPc L → Nat) (ws : List (WorkerPc L))
    (h : 0 < wsum f ws) : ∃ (i : Nat) (p : WorkerPc L), ws[i]? = some p ∧ 0 < f p := by
  by_contra hc
  have h2 : wsum f ws = 0 := by
    rw [wsum_eq_zero]
    intro i p hp
    by_contra h3
    exact hc ⟨i, p, hp, by omega⟩
  omega

theorem wsum_le_of_le {L : Type} (f g : WorkerPc L → Nat) (h : ∀ p, f p ≤ g p)
    (ws : List (WorkerPc L)) : wsum f ws ≤ wsum g ws := by
  induction ws with
  | nil => simp [wsum_nil]
  | cons a ws ih =>
    have := h a
    simp only [wsum_cons]
    omega

theorem wsum_partition {L : Type} (ws : List (WorkerPc L)) :
    sleepers ws + wsum (ind WorkerPc.isExited) ws + wsum (ind WorkerPc.isActive) ws
      = ws.length := by
  induction ws with
  | nil => rfl
  | cons a ws ih =>
    simp only [sleepers, wsum_cons, List.length_cons] at ih ⊢
    cases a <;> simp [ind, WorkerPc.isWaiting, WorkerPc.isExited, WorkerPc.isActive] <;> omega

theorem wsum_wake_all {L : Type} (f : WorkerPc L → Nat) (ws : List (WorkerPc L)) :
    wsum f (wake_all ws) + sleepers ws * f WorkerPc.waiting
      = wsum f ws + sleepers ws * f WorkerPc.ready := by
  induction ws with
  | nil => simp [wake_all, wsum_nil, sleepers]
  | cons a ws ih =>
    simp only [wake_all, sleepers, List.map_cons, wsum_cons] at ih ⊢
    cases a <;>
      simp only [ind, WorkerPc.isWaiting, WorkerPc.woken, if_true, if_false,
        Bool.false_eq_true] <;>
      nlinarith [ih]

theorem wsum_wake_all_eq {L : Type} (f : WorkerPc L → Nat)
    (hf : f WorkerPc.waiting = f WorkerPc.ready) (ws : List (WorkerPc L)) :
    wsum f (wake_all ws) = wsum f ws := by
  have h := wsum_wake_all f ws
  rw [hf] at h
  omega

theorem sleepers_wake_all {L : Type} (ws : List (WorkerPc L)) :
    sleepers (wake_all ws) = 0 := by
  induction ws with
  | nil => rfl
  | cons a ws ih =>
    simp only [wake_all, sleepers, List.map_cons, wsum_cons] at ih ⊢
    cases a <;> simp [ind, WorkerPc.isWaiting, WorkerPc.woken, ih]

theorem wake_all_length {L : Type} (ws : List (WorkerPc L)) :
    (wake_all ws).length = ws.length := by
  simp [wake_all]

theorem wake_all_idem {L : Type} (ws : List (WorkerPc L)) :
    wake_all (wake_all ws) = wake_all ws := by
  induction ws with
  | nil => rfl
  | cons a ws ih =>
    simp only [wake_all, List.map_cons] at ih ⊢
    rw [ih]
    cases a <;> rfl

theorem wake_all_get {L : Type} (ws : List (WorkerPc L)) (i : Nat) :
    (wake_all ws)[i]? = (ws[i]?).map WorkerPc.woken := by
  simp [wake_all]

theorem sleepers_le_length {L : Type} (ws : List (WorkerPc L)) : sleepers ws ≤ ws.length := by
  have := wsum_partition ws
  omega

theorem any_waiting_false {L : Type} (ws : List (WorkerPc L))
    (h : ws.any WorkerPc.isWaiting = false) : sleepers ws = 0 := by
  induction ws with
  | nil => rfl
  | cons a ws ih =>
    simp only [List.any_cons, Bool.or_eq_false_iff] at h
    simp only [sleepers, wsum_cons, ind, h.1] at ih ⊢
    simp [ih h.2]

theorem any_waiting_true {L : Type} (ws : List (WorkerPc L))
    (h : ws.any WorkerPc.isWaiting = true) : ∃ w : Nat, ws[w]? = some WorkerPc.waiting := by
  induction ws with
  | nil => simp at h
  | cons a ws ih =>
    simp only [List.any_cons, Bool.or_eq_true] at h
    rcases h with h | h
    · refine ⟨0, ?_⟩
      cases a <;> simp_all [WorkerPc.isWaiting]
    · obtain ⟨w, hw⟩ := ih h
      exact ⟨w + 1, by simpa using hw⟩

theorem wake_one_sound {L : Type} (w : Nat) (ws ws1 : List (WorkerPc L))
    (h : wake_one w ws = some ws1) : SignalCond ws ws1 := by
  unfold wake_one at h
  by_cases ha : ws.any WorkerPc.isWaiting = true
  · rw [if_pos ha] at h
    right
    refine ⟨w, ?_⟩
    cases hw : ws[w]? with
    | none => simp [hw] at h
    | some p =>
      cases p <;> simp [hw] at h
      exact ⟨rfl, h.symm⟩
  · rw [if_neg ha] at h
    left
    simp at h
    exact ⟨any_waiting_false ws (by simpa using ha), h.symm⟩

/-! ## The step function and the step relation agree -/

theorem deliver_enqueue {L : Type} (w : Nat) (q : List os_task_t) (ws ws1 : List (WorkerPc L))
    (m m1 : MainPc)
    (h : deliver w (if q = [] then [Sig.signal_cond] else []) (ws, m) = some (ws1, m1)) :
    EnqueueWake q ws ws1 ∧ m1 = m := by
  by_cases hq : q = []
  · rw [if_pos hq] at h
    simp only [deliver] at h
    cases hw : wake_one w ws with
    | none => simp [hw] at h
    | some ws2 =>
      simp [hw] at h
      obtain ⟨h1, h2⟩ := h
      subst h1
      exact ⟨Or.inl ⟨hq, wake_one_sound w ws ws2 hw⟩, h2.symm⟩
  · rw [if_neg hq] at h
    simp only [deliver, Option.some.injEq, Prod.mk.injEq] at h
    exact ⟨Or.inr ⟨hq, h.1.symm⟩, h.2.symm⟩

theorem step_main_sound {L G : Type} (W : Workload L G) (w : Nat) (s s1 : State L G)
    (hm : s.tp.mutex = none) (h : step_main w s = some s1) : Trans W (Label.main w) s s1 := by
  unfold step_main at h
  cases hmain : s.main with
  | submitting todo =>
    cases todo with
    | nil =>
      simp only [hmain, Option.some.injEq] at h
      subst h
      exact Trans.call_wfc s w hmain
    | cons t todo =>
      simp only [hmain, enqueue_task_free tid_main s.tp t hm] at h
      cases hd : deliver w (if s.tp.head = [] then [Sig.signal_cond] else [])
          (s.workers, MainPc.submitting todo) with
      | none => simp [hd] at h
      | some r =>
        obtain ⟨ws, m⟩ := r
        simp only [hd, Option.some.injEq] at h
        obtain ⟨h1, h2⟩ := deliver_enqueue w _ _ _ _ _ hd
        subst h h2
        exact Trans.submit s w t todo ws hmain h1
  | wfc_entry =>
    simp only [hmain, wfc_locked_free tid_main s.tp hm] at h
    by_cases hq : s.tp.head = []
    · cases hs : s.tp.stop with
      | true =>
        simp only [hq, hs, deliver, if_true, Option.some.injEq] at h
        subst h
        have h2 : Trans W (Label.main w) s _ := Trans.wfc_leave s w hmain hq hs
        cases s
        simpa using h2
      | false =>
        rw [if_pos hq] at h
        simp only [hs, deliver, wake_all_idem, Bool.false_eq_true, if_false,
          Option.some.injEq] at h
        subst h
        exact Trans.wfc_stop s w hmain hq hs
    · simp [hq, deliver] at h
      subst h
      have h2 : Trans W (Label.main w) s _ := Trans.wfc_wait s w hmain hq
      cases s
      simpa using h2
  | wfc_waiting => simp [hmain] at h
  | joining i =>
    simp only [hmain] at h
    by_cases hi : i < s.tp.num_threads
    · rw [if_pos hi] at h
      cases hw : s.workers[i]? with
      | none => simp [hw] at h
      | some p =>
        cases p <;> simp [hw] at h
        subst h
        exact Trans.join_next s w i hmain hi hw
    · rw [if_neg hi] at h
      simp only [Option.some.injEq] at h
      subst h
      exact Trans.join_done s w i hmain hi
  | returned => simp [hmain] at h

theorem step_worker_sound {L G : Type} (W : Workload L G) (i w : Nat) (s s1 : State L G)
    (hm : s.tp.mutex = none) (h : step_worker W i w s = some s1) :
    Trans W (Label.worker i w) s s1 := by
  unfold step_worker at h
  cases hw : s.workers[i]? with
  | none => simp [hw] at h
  | some p =>
    cases p with
    | ready =>
      simp only [hw] at h
      cases hq : s.tp.head with
      | nil =>
        rw [dequeue_task_free_nil _ s.tp hm hq] at h
        cases hs : s.tp.stop with
        | true =>
          simp [hs] at h
          subst h
          have h2 : Trans W (Label.worker i w) s _ := Trans.deq_null s i w hw hq hs
          cases s
          simpa using h2
        | false =>
          simp [hs] at h
          subst h
          have h2 : Trans W (Label.worker i w) s _ := Trans.deq_wait s i w hw hq hs
          cases s
          simpa using h2
      | cons t rest =>
        rw [dequeue_task_free_cons _ s.tp t rest hm hq] at h
        simp only [Option.some.injEq] at h
        subst h
        exact Trans.deq_task s i w t rest hw hq
    | waiting => simp [hw] at h
    | dequeued t =>
      simp only [hw, Option.some.injEq] at h
      subst h
      exact Trans.invoke s i w t hw
    | running t l =>
      simp only [hw] at h
      cases hn : W.next l s.shared with
      | enqueue u l1 g1 =>
        simp only [hn, enqueue_task_free _ s.tp u hm] at h
        cases hd : deliver w (if s.tp.head = [] then [Sig.signal_cond] else [])
            (s.workers.set i (WorkerPc.running t l1), s.main) with
        | none => simp [hd] at h
        | some r =>
          obtain ⟨ws, m⟩ := r
          simp only [hd, Option.some.injEq] at h
          obtain ⟨h1, h2⟩ := deliver_enqueue w _ _ _ _ _ hd
          subst h h2
          have h3 := Trans.act_enqueue s i w t u l l1 g1 ws hw hn h1
          cases s
          simpa using h3
      | internal l1 g1 =>
        simp only [hn, Option.some.injEq] at h
        subst h
        exact Trans.act_internal s i w t l l1 g1 hw hn
      | ret g1 =>
        simp only [hn, Option.some.injEq] at h
        subst h
        exact Trans.act_ret s i w t l g1 hw hn
    | finished t =>
      simp only [hw, signal_stop_free _ s.tp hm, deliver, Option.some.injEq] at h
      subst h
      have h3 : Trans W (Label.worker i w) s _ := Trans.finish s i w t hw
      cases s
      simpa using h3
    | exited => simp [hw] at h

theorem step_sound {L G : Type} (W : Workload L G) (lbl : Label) (s s1 : State L G)
    (hm : s.tp.mutex = none) (h : step W lbl s = some s1) : Trans W lbl s s1 := by
  cases lbl with
  | main w => exact step_main_sound W w s s1 hm h
  | worker i w => exact step_worker_sound W i w s s1 hm h
  | spurious_worker i =>
    simp only [step] at h
    cases hw : s.workers[i]? with
    | none => simp [hw] at h
    | some p =>
      cases p <;> simp [hw] at h
      subst h
      exact Trans.spurious_worker s i hw
  | spurious_main =>
    simp only [step] at h
    cases hmain : s.main <;> simp [hmain] at h
    subst h
    exact Trans.spurious_main s hmain

/-! ## Invariants of the pool -/

theorem set_keeps_exited {L : Type} (ws : List (WorkerPc L)) (i j : Nat) (p q : WorkerPc L)
    (hp : ws[i]? = some p) (hne : p ≠ WorkerPc.exited)
    (hj : ws[j]? = some WorkerPc.exited) : (ws.set i q)[j]? = some WorkerPc.exited := by
  have hij : i ≠ j := by
    intro e
    subst e
    rw [hp] at hj
    exact hne (Option.some.inj hj)
  rw [List.getElem?_set_ne hij]
  exact hj

theorem signal_wsum {L : Type} (f : WorkerPc L → Nat) (ws ws1 : List (WorkerPc L))
    (h : SignalCond ws ws1) :
    (sleepers ws = 0 ∧ ws1 = ws) ∨
    (0 < sleepers ws ∧ wsum f ws1 + f WorkerPc.waiting = wsum f ws + f WorkerPc.ready) := by
  rcases h with h | ⟨w, hw, e⟩
  · exact Or.inl h
  · right
    subst e
    have h1 := wsum_get_le (ind WorkerPc.isWaiting) ws w _ hw
    have h2 := wsum_set f ws w _ WorkerPc.ready hw
    simp only [ind, WorkerPc.isWaiting, if_true] at h1
    exact ⟨h1, h2⟩

theorem enqueue_wake_wsum {L : Type} (f : WorkerPc L → Nat) (q : List os_task_t)
    (ws ws1 : List (WorkerPc L)) (h : EnqueueWake q ws ws1) :
    ws1 = ws ∨
    (q = [] ∧ 0 < sleepers ws ∧
      wsum f ws1 + f WorkerPc.waiting = wsum f ws + f WorkerPc.ready) := by
  rcases h with ⟨hq, h⟩ | ⟨_, h⟩
  · rcases signal_wsum f ws ws1 h with h | h
    · exact Or.inl h.2
    · exact Or.inr ⟨hq, h⟩
  · exact Or.inl h

theorem enqueue_wake_wsum_eq {L : Type} (f : WorkerPc L → Nat)
    (hf : f WorkerPc.waiting = f WorkerPc.ready) (q : List os_task_t)
    (ws ws1 : List (WorkerPc L)) (h : EnqueueWake q ws ws1) : wsum f ws1 = wsum f ws := by
  rcases enqueue_wake_wsum f q ws ws1 h with h | ⟨_, _, h⟩
  · rw [h]
  · omega

theorem enqueue_wake_length {L : Type} (q : List os_task_t)
    (ws ws1 : List (WorkerPc L)) (h : EnqueueWake q ws ws1) : ws1.length = ws.length := by
  rcases h with ⟨_, h | ⟨w, _, e⟩⟩ | ⟨_, h⟩
  · rw [h.2]
  · rw [e, List.length_set]
  · rw [h]

theorem enqueue_wake_exited {L : Type} (q : List os_task_t)
    (ws ws1 : List (WorkerPc L)) (h : EnqueueWake q ws ws1) (j : Nat)
    (hj : ws[j]? = some WorkerPc.exited) : ws1[j]? = some WorkerPc.exited := by
  rcases h with ⟨_, h | ⟨w, hw, e⟩⟩ | ⟨_, h⟩
  · rw [h.2]; exact hj
  · rw [e]
    exact set_keeps_exited ws w j _ _ hw (by simp) hj
  · rw [h]; exact hj

theorem wake_all_exited {L : Type} (ws : List (WorkerPc L)) (j : Nat)
    (hj : ws[j]? = some WorkerPc.exited) : (wake_all ws)[j]? = some WorkerPc.exited := by
  rw [wake_all_get, hj]
  rfl

theorem enqueue_wake_sleepers {L : Type} (q : List os_task_t)
    (ws ws1 : List (WorkerPc L)) (h : EnqueueWake q ws ws1) : sleepers ws1 ≤ sleepers ws := by
  rcases enqueue_wake_wsum (ind WorkerPc.isWaiting) q ws ws1 h with h | ⟨_, _, h⟩
  · rw [h]
  · simp only [ind, WorkerPc.isWaiting, if_true, Bool.false_eq_true, if_false] at h
    unfold sleepers
    omega

theorem enqueue_wake_active {L : Type} (q : List os_task_t)
    (ws ws1 : List (WorkerPc L)) (h : EnqueueWake q ws ws1) :
    wsum (ind WorkerPc.isActive) ws ≤ wsum (ind WorkerPc.isActive) ws1 := by
  rcases enqueue_wake_wsum (ind WorkerPc.isActive) q ws ws1 h with h | ⟨_, _, h⟩
  · rw [h]
  · simp only [ind, WorkerPc.isActive, if_true, Bool.false_eq_true, if_false] at h
    omega

theorem count_snoc (l : List os_task_t) (a t : os_task_t) :
    (l ++ [a]).count t = l.count t + (if a = t then 1 else 0) := by
  rw [List.count_append, List.count_singleton]
  simp only [beq_iff_eq]

theorem count_cons_task (l : List os_task_t) (a t : os_task_t) :
    (a :: l).count t = l.count t + (if a = t then 1 else 0) := by
  rw [List.count_cons]
  simp only [beq_iff_eq]

theorem inv_init {L G : Type} (n : Nat) (todo : List os_task_t) (g : G) :
    Inv (init n todo g : State L G) := by
  have hz : ∀ f : WorkerPc L → Nat, f WorkerPc.ready = 0 →
      wsum f (List.replicate n WorkerPc.ready) = 0 := by
    intro f hf
    rw [wsum_eq_zero]
    intro i p hp
    rw [List.getElem?_replicate] at hp
    split at hp
    · cases hp; exact hf
    · cases hp
  constructor
  · rfl
  · simp [init, created_pool]
  · rfl
  · intro _
    exact hz _ rfl
  · intro h
    simp [init, created_pool] at h
  · intro h
    simp [init, created_pool] at h
  · intro j hj
    simp [init, MainPc.joined] at hj
  · intro t
    simp only [init, created_pool, List.count_nil, Nat.zero_add]
    exact (hz _ rfl).symm
  · intro t
    simp only [init, created_pool, List.count_nil, Nat.zero_add]
    exact (hz _ rfl).symm

theorem set_counts {L : Type} (ws : List (WorkerPc L)) (i : Nat) (p q : WorkerPc L)
    (hw : ws[i]? = some p) :
    (∀ f : WorkerPc L → Nat, wsum f (ws.set i q) + f p = wsum f ws + f q) ∧
    (∀ f : WorkerPc L → Nat, f p ≤ wsum f ws) ∧
    (∀ f : WorkerPc L → Nat, f q ≤ wsum f (ws.set i q)) ∧
    (ws.set i q).length = ws.length := by
  refine ⟨fun f => wsum_set f ws i p q hw, fun f => wsum_get_le f ws i p hw, ?_,
    List.length_set ws i q⟩
  intro f
  have hlt : i < ws.length := by
    by_contra hc
    rw [List.getElem?_eq_none (by omega)] at hw
    cases hw
  exact wsum_get_le f _ i q (by simp [List.getElem?_set_self, hlt])

theorem past_stop_wake_main (m : MainPc) : (wake_main m).past_stop = m.past_stop := by
  cases m <;> rfl

theorem joined_wake_main (m : MainPc) (n : Nat) : (wake_main m).joined n = m.joined n := by
  cases m <;> rfl

theorem inv_step_main {L G : Type} (W : Workload L G) (w : Nat) (s s1 : State L G)
    (hi : Inv s) (h : Trans W (Label.main w) s s1) : Inv s1 := by
  obtain ⟨hmf, hsz, hsm, hne, hns, hsv, hjn, hsub, hinv⟩ := hi
  cases h with
  | call_wfc _ _ hmain =>
    refine ⟨hmf, hsz, ?_, hne, hns, hsv, ?_, hsub, hinv⟩
    · rw [hsm, hmain]; rfl
    · intro j h1
      simp [MainPc.joined] at h1
  | submit _ _ t todo ws hmain hwake =>
    have hs : s.tp.stop = false := by rw [hsm, hmain]; rfl
    refine ⟨hmf, ?_, ?_, ?_, ?_, ?_, ?_, ?_, ?_⟩
    · simpa [enqueue_wake_length _ _ _ hwake] using hsz
    · simp only [hs]; rfl
    · intro _
      rw [enqueue_wake_wsum_eq (ind WorkerPc.isExited) rfl _ _ _ hwake]
      exact hne hs
    · intro h2
      simp only [hs] at h2
      cases h2
    · intro h2
      simp only [hs] at h2
      cases h2
    · intro j h1
      simp [MainPc.joined] at h1
    · intro u
      have := hsub u
      have k := enqueue_wake_wsum_eq (holds_dequeued u) rfl _ _ _ hwake
      simp only [count_snoc] at this k ⊢
      omega
    · intro u
      have := hinv u
      have k := enqueue_wake_wsum_eq (holds_invoked u) rfl _ _ _ hwake
      simp only at this k ⊢
      omega
  | wfc_stop _ _ hmain hq hs =>
    refine ⟨hmf, ?_, rfl, ?_, ?_, ?_, ?_, ?_, ?_⟩
    · simpa [wake_all_length] using hsz
    · intro h2
      cases h2
    · intro _
      exact sleepers_wake_all _
    · intro _ h2
      exact absurd hq h2
    · intro j h1
      simp [MainPc.joined] at h1
    · intro u
      have := hsub u
      have k := wsum_wake_all_eq (holds_dequeued u) rfl s.workers
      simp only at this k ⊢
      omega
    · intro u
      have := hinv u
      have k := wsum_wake_all_eq (holds_invoked u) rfl s.workers
      simp only at this k ⊢
      omega
  | wfc_leave _ _ hmain hq hs =>
    refine ⟨hmf, ?_, ?_, ?_, ?_, ?_, ?_, ?_, ?_⟩
    · simpa [wake_all_length] using hsz
    · exact hs
    · intro h2
      simp only [hs] at h2
      cases h2
    · intro _
      exact sleepers_wake_all _
    · intro _ h2
      exact absurd hq h2
    · intro j h1
      simp [MainPc.joined] at h1
    · intro u
      have := hsub u
      have k := wsum_wake_all_eq (holds_dequeued u) rfl s.workers
      simp only at this k ⊢
      omega
    · intro u
      have := hinv u
      have k := wsum_wake_all_eq (holds_invoked u) rfl s.workers
      simp only at this k ⊢
      omega
  | wfc_wait _ _ hmain hq =>
    refine ⟨hmf, hsz, ?_, hne, hns, hsv, ?_, hsub, hinv⟩
    · rw [hsm, hmain]; rfl
    · intro j h1
      simp [MainPc.joined] at h1
  | join_next _ _ i hmain hlt hw =>
    refine ⟨hmf, hsz, ?_, hne, hns, hsv, ?_, hsub, hinv⟩
    · rw [hsm, hmain]; rfl
    · intro j h1 h2
      simp only [MainPc.joined] at h1
      by_cases hji : j = i
      · rw [hji]; exact hw
      · exact hjn j (by rw [hmain]; simp only [MainPc.joined]; omega) h2
  | join_done _ _ i hmain hlt =>
    refine ⟨hmf, hsz, ?_, hne, hns, hsv, ?_, hsub, hinv⟩
    · rw [hsm, hmain]; rfl
    · intro j h1 h2
      simp only [MainPc.joined] at h1 h2
      exact hjn j (by rw [hmain]; simp only [MainPc.joined]; omega) h2

theorem inv_step_worker {L G : Type} (W : Workload L G) (i w : Nat) (s s1 : State L G)
    (hi : Inv s) (h : Trans W (Label.worker i w) s s1) : Inv s1 := by
  obtain ⟨hmf, hsz, hsm, hne, hns, hsv, hjn, hsub, hinv⟩ := hi
  cases h with
  | deq_task _ _ _ t rest hw hq =>
    obtain ⟨e, le1, le2, len⟩ := set_counts s.workers i _ (WorkerPc.dequeued t) hw
    have e1 := e (ind WorkerPc.isExited)
    have e2 := e (ind WorkerPc.isWaiting)
    have e3 := le2 (ind WorkerPc.isActive)
    simp only [ind, WorkerPc.isExited, WorkerPc.isWaiting, WorkerPc.isActive, if_true,
      Bool.false_eq_true, if_false] at e1 e2 e3
    refine ⟨hmf, ?_, hsm, ?_, ?_, ?_, ?_, ?_, ?_⟩
    · simpa [len] using hsz
    · intro hs
      have := hne hs
      simp only at *
      omega
    · intro hs
      have := hns hs
      simp only [sleepers] at *
      omega
    · intro _ _
      exact e3
    · intro j h1 h2
      exact set_keeps_exited _ _ _ _ _ hw (by simp) (hjn j h1 h2)
    · intro u
      have e4 := e (holds_dequeued u)
      have := hsub u
      simp only [holds_dequeued, hq, count_cons_task] at e4 this ⊢
      omega
    · intro u
      have e4 := e (holds_invoked u)
      have := hinv u
      simp only [holds_invoked] at e4 this ⊢
      omega
  | deq_null _ _ _ hw hq hs =>
    obtain ⟨e, le1, le2, len⟩ := set_counts s.workers i _ WorkerPc.exited hw
    have e2 := e (ind WorkerPc.isWaiting)
    simp only [ind, WorkerPc.isExited, WorkerPc.isWaiting, WorkerPc.isActive, if_true,
      Bool.false_eq_true, if_false] at e2
    refine ⟨hmf, ?_, hsm, ?_, ?_, ?_, ?_, ?_, ?_⟩
    · simpa [len] using hsz
    · intro h2
      simp only [hs] at h2
      cases h2
    · intro hs
      have := hns hs
      simp only [sleepers] at *
      omega
    · intro _ h2
      exact absurd hq h2
    · intro j h1 h2
      exact set_keeps_exited _ _ _ _ _ hw (by simp) (hjn j h1 h2)
    · intro u
      have e4 := e (holds_dequeued u)
      have := hsub u
      simp only [holds_dequeued] at e4 this ⊢
      omega
    · intro u
      have e4 := e (holds_invoked u)
      have := hinv u
      simp only [holds_invoked] at e4 this ⊢
      omega
  | deq_wait _ _ _ hw hq hs =>
    obtain ⟨e, le1, le2, len⟩ := set_counts s.workers i _ WorkerPc.waiting hw
    have e1 := e (ind WorkerPc.isExited)
    simp only [ind, WorkerPc.isExited, WorkerPc.isWaiting, WorkerPc.isActive, if_true,
      Bool.false_eq_true, if_false] at e1
    refine ⟨hmf, ?_, hsm, ?_, ?_, ?_, ?_, ?_, ?_⟩
    · simpa [len] using hsz
    · intro hs
      have := hne hs
      simp only at *
      omega
    · intro h2
      simp only [hs] at h2
      cases h2
    · intro _ h2
      exact absurd hq h2
    · intro j h1 h2
      exact set_keeps_exited _ _ _ _ _ hw (by simp) (hjn j h1 h2)
    · intro u
      have e4 := e (holds_dequeued u)
      have := hsub u
      simp only [holds_dequeued] at e4 this ⊢
      omega
    · intro u
      have e4 := e (holds_invoked u)
      have := hinv u
      simp only [holds_invoked] at e4 this ⊢
      omega
  | invoke _ _ _ t hw =>
    obtain ⟨e, le1, le2, len⟩ := set_counts s.workers i _ (WorkerPc.running t (W.start t)) hw
    have e1 := e (ind WorkerPc.isExited)
    have e2 := e (ind WorkerPc.isWaiting)
    have e3 := le2 (ind WorkerPc.isActive)
    simp only [ind, WorkerPc.isExited, WorkerPc.isWaiting, WorkerPc.isActive, if_true,
      Bool.false_eq_true, if_false] at e1 e2 e3
    refine ⟨hmf, ?_, hsm, ?_, ?_, ?_, ?_, ?_, ?_⟩
    · simpa [len] using hsz
    · intro hs
      have := hne hs
      simp only at *
      omega
    · intro hs
      have := hns hs
      simp only [sleepers] at *
      omega
    · intro _ _
      exact e3
    · intro j h1 h2
      exact set_keeps_exited _ _ _ _ _ hw (by simp) (hjn j h1 h2)
    · intro u
      have e4 := e (holds_dequeued u)
      have := hsub u
      simp only [holds_dequeued, count_snoc] at e4 this ⊢
      omega
    · intro u
      have e4 := e (holds_invoked u)
      have := hinv u
      simp only [holds_invoked, count_snoc] at e4 this ⊢
      omega
  | act_enqueue _ _ _ t u l l1 g1 ws hw hn hwake =>
    obtain ⟨e, le1, le2, len⟩ := set_counts s.workers i _ (WorkerPc.running t l1) hw
    have e1 := e (ind WorkerPc.isExited)
    have e2 := e (ind WorkerPc.isWaiting)
    have e3 := le2 (ind WorkerPc.isActive)
    have k1 := enqueue_wake_wsum_eq (ind WorkerPc.isExited) rfl _ _ _ hwake
    have k2 := enqueue_wake_sleepers _ _ _ hwake
    have k3 := enqueue_wake_active _ _ _ hwake
    simp only [ind, WorkerPc.isExited, WorkerPc.isWaiting, WorkerPc.isActive, if_true,
      Bool.false_eq_true, if_false] at e1 e2 e3 k1
    refine ⟨hmf, ?_, hsm, ?_, ?_, ?_, ?_, ?_, ?_⟩
    · simpa [enqueue_wake_length _ _ _ hwake, len] using hsz
    · intro hs
      have := hne hs
      simp only [ind, WorkerPc.isExited] at *
      omega
    · intro hs
      have := hns hs
      simp only [sleepers, ind] at *
      omega
    · intro _ _
      simp only [ind] at *
      omega
    · intro j h1 h2
      exact enqueue_wake_exited _ _ _ hwake j
        (set_keeps_exited _ _ _ _ _ hw (by simp) (hjn j h1 h2))
    · intro v
      have e4 := e (holds_dequeued v)
      have k4 := enqueue_wake_wsum_eq (holds_dequeued v) rfl _ _ _ hwake
      have := hsub v
      simp only [holds_dequeued, count_snoc] at e4 k4 this ⊢
      omega
    · intro v
      have e4 := e (holds_invoked v)
      have k4 := enqueue_wake_wsum_eq (holds_invoked v) rfl _ _ _ hwake
      have := hinv v
      simp only [holds_invoked] at e4 k4 this ⊢
      omega
  | act_internal _ _ _ t l l1 g1 hw hn =>
    obtain ⟨e, le1, le2, len⟩ := set_counts s.workers i _ (WorkerPc.running t l1) hw
    have e1 := e (ind WorkerPc.isExited)
    have e2 := e (ind WorkerPc.isWaiting)
    have e3 := le2 (ind WorkerPc.isActive)
    simp only [ind, WorkerPc.isExited, WorkerPc.isWaiting, WorkerPc.isActive, if_true,
      Bool.false_eq_true, if_false] at e1 e2 e3
    refine ⟨hmf, ?_, hsm, ?_, ?_, ?_, ?_, ?_, ?_⟩
    · simpa [len] using hsz
    · intro hs
      have := hne hs
      simp only at *
      omega
    · intro hs
      have := hns hs
      simp only [sleepers] at *
      omega
    · intro _ _
      exact e3
    · intro j h1 h2
      exact set_keeps_exited _ _ _ _ _ hw (by simp) (hjn j h1 h2)
    · intro u
      have e4 := e (holds_dequeued u)
      have := hsub u
      simp only [holds_dequeued] at e4 this ⊢
      omega
    · intro u
      have e4 := e (holds_invoked u)
      have := hinv u
      simp only [holds_invoked] at e4 this ⊢
      omega
  | act_ret _ _ _ t l g1 hw hn =>
    obtain ⟨e, le1, le2, len⟩ := set_counts s.workers i _ (WorkerPc.finished t) hw
    have e1 := e (ind WorkerPc.isExited)
    have e2 := e (ind WorkerPc.isWaiting)
    have e3 := le2 (ind WorkerPc.isActive)
    simp only [ind, WorkerPc.isExited, WorkerPc.isWaiting, WorkerPc.isActive, if_true,
      Bool.false_eq_true, if_false] at e1 e2 e3
    refine ⟨hmf, ?_, hsm, ?_, ?_, ?_, ?_, ?_, ?_⟩
    · simpa [len] using hsz
    · intro hs
      have := hne hs
      simp only at *
      omega
    · intro hs
      have := hns hs
      simp only [sleepers] at *
      omega
    · intro _ _
      exact e3
    · intro j h1 h2
      exact set_keeps_exited _ _ _ _ _ hw (by simp) (hjn j h1 h2)
    · intro u
      have e4 := e (holds_dequeued u)
      have := hsub u
      simp only [holds_dequeued] at e4 this ⊢
      omega
    · intro u
      have e4 := e (holds_invoked u)
      have := hinv u
      simp only [holds_invoked] at e4 this ⊢
      omega
  | finish _ _ _ t hw =>
    obtain ⟨e, le1, le2, len⟩ := set_counts s.workers i _ WorkerPc.ready hw
    have e1 := e (ind WorkerPc.isExited)
    have e2 := e (ind WorkerPc.isWaiting)
    have e3 := le2 (ind WorkerPc.isActive)
    simp only [ind, WorkerPc.isExited, WorkerPc.isWaiting, WorkerPc.isActive, if_true,
      Bool.false_eq_true, if_false] at e1 e2 e3
    refine ⟨hmf, ?_, ?_, ?_, ?_, ?_, ?_, ?_, ?_⟩
    · simpa [len] using hsz
    · simpa [past_stop_wake_main] using hsm
    · intro hs
      have := hne hs
      simp only at *
      omega
    · intro hs
      have := hns hs
      simp only [sleepers] at *
      omega
    · intro _ _
      exact e3
    · intro j h1 h2
      simp only [joined_wake_main] at h1
      exact set_keeps_exited _ _ _ _ _ hw (by simp) (hjn j h1 h2)
    · intro u
      have e4 := e (holds_dequeued u)
      have := hsub u
      simp only [holds_dequeued] at e4 this ⊢
      omega
    · intro u
      have e4 := e (holds_invoked u)
      have := hinv u
      simp only [holds_invoked, count_snoc] at e4 this ⊢
      omega

theorem inv_step {L G : Type} (W : Workload L G) (lbl : Label) (s s1 : State L G)
    (hi : Inv s) (h : Trans W lbl s s1) : Inv s1 := by
  cases lbl with
  | main w => exact inv_step_main W w s s1 hi h
  | worker i w => exact inv_step_worker W i w s s1 hi h
  | spurious_worker i =>
    obtain ⟨hmf, hsz, hsm, hne, hns, hsv, hjn, hsub, hinv⟩ := hi
    cases h with
    | spurious_worker _ _ hw =>
      obtain ⟨e, le1, le2, len⟩ := set_counts s.workers i _ WorkerPc.ready hw
      have e1 := e (ind WorkerPc.isExited)
      have e2 := e (ind WorkerPc.isWaiting)
      have e3 := le2 (ind WorkerPc.isActive)
      simp only [ind, WorkerPc.isExited, WorkerPc.isWaiting, WorkerPc.isActive, if_true,
        Bool.false_eq_true, if_false] at e1 e2 e3
      refine ⟨hmf, ?_, hsm, ?_, ?_, ?_, ?_, ?_, ?_⟩
      · simpa [len] using hsz
      · intro hs
        have := hne hs
        simp only at *
        omega
      · intro hs
        have := hns hs
        simp only [sleepers] at *
        omega
      · intro _ _
        exact e3
      · intro j h1 h2
        exact set_keeps_exited _ _ _ _ _ hw (by simp) (hjn j h1 h2)
      · intro u
        have e4 := e (holds_dequeued u)
        have := hsub u
        simp only [holds_dequeued] at e4 this ⊢
        omega
      · intro u
        have e4 := e (holds_invoked u)
        have := hinv u
        simp only [holds_invoked] at e4 this ⊢
        omega
  | spurious_main =>
    obtain ⟨hmf, hsz, hsm, hne, hns, hsv, hjn, hsub, hinv⟩ := hi
    cases h with
    | spurious_main _ hmain =>
      refine ⟨hmf, hsz, ?_, hne, hns, hsv, ?_, hsub, hinv⟩
      · rw [hsm, hmain]; rfl
      · intro j h1
        simp [MainPc.joined] at h1

theorem inv_run {L G : Type} (W : Workload L G) (ls : List Label) :
    ∀ s s1 : State L G, Inv s → run W ls s = some s1 → Inv s1 := by
  induction ls with
  | nil =>
    intro s s1 hi h
    simp only [run, Option.some.injEq] at h
    rw [← h]; exact hi
  | cons lbl ls ih =>
    intro s s1 hi h
    simp only [run] at h
    cases hs : step W lbl s with
    | none => simp [hs] at h
    | some s2 =>
      simp only [hs] at h
      exact ih s2 s1 (inv_step W lbl s s2 hi (step_sound W lbl s s2 hi.mutex_free hs)) h

theorem inv_reachable {L G : Type} (W : Workload L G) (n : Nat) (todo : List os_task_t) (g : G)
    (s : State L G) (h : Reachable W n todo g s) : Inv s := by
  obtain ⟨ls, hls⟩ := h
  exact inv_run W ls _ s (inv_init n todo g) hls

/-! ## What holds once `wait_for_completion` has returned -/

theorem returned_all_exited {L G : Type} (s : State L G) (hi : Inv s)
    (hret : s.main = MainPc.returned) :
    ∀ (i : Nat) (p : WorkerPc L), s.workers[i]? = some p → p = WorkerPc.exited := by
  intro i p hp
  have hlt : i < s.workers.length := by
    by_contra hc
    rw [List.getElem?_eq_none (by omega)] at hp
    cases hp
  have h := hi.joined i (by rw [hret]; simp only [MainPc.joined]; rw [← hi.size]; exact hlt)
    (by rw [← hi.size]; exact hlt)
  rw [hp] at h
  exact Option.some.inj h

theorem returned_wsum_zero {L G : Type} (s : State L G) (hi : Inv s)
    (hret : s.main = MainPc.returned) (f : WorkerPc L → Nat) (hf : f WorkerPc.exited = 0) :
    wsum f s.workers = 0 := by
  rw [wsum_eq_zero]
  intro i p hp
  rw [returned_all_exited s hi hret i p hp]
  exact hf

theorem returned_queue_empty {L G : Type} (s : State L G) (hi : Inv s)
    (hret : s.main = MainPc.returned) : s.tp.head = [] := by
  by_contra hq
  have hs : s.tp.stop = true := by rw [hi.stop_main, hret]; rfl
  have h1 := hi.served hs hq
  have h2 := returned_wsum_zero s hi hret (ind WorkerPc.isActive) rfl
  omega

theorem demo_run : run (fanout 2 1) demo_schedule demo_init = some demo_final := by
  rfl

theorem demo_reachable : Reachable (fanout 2 1) 2 [fanout_task 0] () demo_final :=
  ⟨demo_schedule, demo_run⟩

theorem demo_middle_reachable : Reachable (fanout 2 1) 2 [fanout_task 0] () demo_middle :=
  ⟨demo_schedule.take 6, rfl⟩

/-- C1 (no task loss).  In every state of every run of the pool (any number
of workers, any tasks submitted by the orchestrator before
`wait_for_completion`, any tasks submitted by running actions, any
interleaving, spurious wake-ups included) in which `wait_for_completion` has
returned, every task has been invoked exactly as many times as it was
submitted: the history of invoked tasks is a rearrangement of the history of
submitted tasks. -/
theorem no_task_loss {L G : Type} (W : Workload L G) (n : Nat) (todo : List os_task_t) (g : G)
    (s : State L G) (hr : Reachable W n todo g s) (hret : s.main = MainPc.returned) :
    s.invoked.Perm s.submitted ∧ ∀ t, s.invoked.count t = s.submitted.count t := by
  have hi := inv_reachable W n todo g s hr
  have hq := returned_queue_empty s hi hret
  have hc : ∀ t, s.invoked.count t = s.submitted.count t := by
    intro t
    have h1 := hi.submitted_eq t
    have h2 := returned_wsum_zero s hi hret (holds_dequeued t) rfl
    rw [hq] at h1
    simp only [List.count_nil] at h1
    omega
  exact ⟨List.perm_iff_count.mpr hc, hc⟩

/-- Witness for C1: the demonstration run ends with `wait_for_completion`
returned and its three tasks invoked once each. -/
theorem no_task_loss_witness :
    demo_final.main = MainPc.returned ∧
    demo_final.submitted = [fanout_task 0, fanout_task 1, fanout_task 1] ∧
    demo_final.invoked.Perm demo_final.submitted ∧
    ∀ t, demo_final.invoked.count t = demo_final.submitted.count t :=
  ⟨rfl, rfl, no_task_loss (fanout 2 1) 2 [fanout_task 0] () demo_final demo_reachable rfl⟩

/-- C2 (quiescence).  In every reachable state in which `wait_for_completion`
has returned, the queue is empty and no worker is between the return of
`dequeue_task` with a task and the end of `signal_stop_condition_if_needed`
for it: every worker has left its loop. -/
theorem quiescence {L G : Type} (W : Workload L G) (n : Nat) (todo : List os_task_t) (g : G)
    (s : State L G) (hr : Reachable W n todo g s) (hret : s.main = MainPc.returned) :
    s.tp.head = [] ∧
    (∀ (i : Nat) (p : WorkerPc L), s.workers[i]? = some p → p.isBusy = false) ∧
    (∀ (i : Nat) (p : WorkerPc L), s.workers[i]? = some p → p = WorkerPc.exited) := by
  have hi := inv_reachable W n todo g s hr
  refine ⟨returned_queue_empty s hi hret, ?_, returned_all_exited s hi hret⟩
  intro i p hp
  rw [returned_all_exited s hi hret i p hp]
  rfl

/-- Witness for C2 on the demonstration run. -/
theorem quiescence_witness :
    demo_final.main = MainPc.returned ∧ demo_final.workers.length = 2 ∧
    demo_final.tp.head = [] ∧
    (∀ (i : Nat) (p : WorkerPc (Nat × Nat)),
      demo_final.workers[i]? = some p → p.isBusy = false) ∧
    (∀ (i : Nat) (p : WorkerPc (Nat × Nat)),
      demo_final.workers[i]? = some p → p = WorkerPc.exited) :=
  ⟨rfl, rfl, quiescence (fanout 2 1) 2 [fanout_task 0] () demo_final demo_reachable rfl⟩

/-- C3, evaluated on the code.  On `early_schedule` the orchestrator sets
`stop` while worker 0 is inside the action of the root task; afterwards
worker 1 gets NULL from `dequeue_task` and leaves its loop, and the running
action enqueues its child although `stop` is already set. -/
theorem stop_set_while_action_runs :
    run (fanout 1 1) early_schedule early_init = some early_stop_state ∧
    early_stop_state.tp.stop = true ∧
    early_stop_state.tp.head = [] ∧
    early_stop_state.workers =
      [WorkerPc.running (fanout_task 0) (0, 1), WorkerPc.ready] ∧
    run (fanout 1 1) [Label.worker 1 0, Label.worker 0 0] early_stop_state
      = some early_after_state ∧
    early_after_state.tp.stop = true ∧
    early_after_state.tp.head = [fanout_task 1] ∧
    early_after_state.workers =
      [WorkerPc.running (fanout_task 0) (0, 0), WorkerPc.exited] :=
  ⟨rfl, rfl, rfl, rfl, rfl, rfl, rfl, rfl⟩

/-- C6 (teardown).  `destroy_threadpool` hands every task still queued to
`destroy_task`, once and in queue order, so the `destroy_arg` calls are those
of the queued tasks with a non-NULL `destroy_arg`, on their arguments, in
queue order; it calls no action and leaves no task queued.  In a state in
which `wait_for_completion` has returned the queue is empty, so
`destroy_threadpool` destroys no task at all, in particular none that a
worker destroyed. -/
theorem teardown {L G : Type} (tp : os_threadpool_t) :
    freed_tasks (destroy_threadpool tp).1 = tp.head ∧
    destroy_arg_calls (destroy_threadpool tp).1 = expected_destroy_calls tp.head ∧
    action_calls (destroy_threadpool tp).1 = [] ∧
    (destroy_threadpool tp).2 = [] ∧
    (∀ (W : Workload L G) (n : Nat) (todo : List os_task_t) (g : G) (s : State L G),
      Reachable W n todo g s → s.main = MainPc.returned →
        freed_tasks (destroy_threadpool s.tp).1 = [] ∧
        destroy_arg_calls (destroy_threadpool s.tp).1 = [] ∧
        ∀ t, t ∈ s.destroyed → t ∉ freed_tasks (destroy_threadpool s.tp).1) := by
  obtain ⟨h1, h2, h3, h4⟩ := destroy_threadpool_spec tp
  refine ⟨h1, h2, h3, h4, ?_⟩
  intro W n todo g s hr hret
  have hq := returned_queue_empty s (inv_reachable W n todo g s hr) hret
  obtain ⟨k1, k2, _, _⟩ := destroy_threadpool_spec s.tp
  rw [hq] at k1 k2
  refine ⟨k1, k2, ?_⟩
  intro t _
  rw [k1]
  simp

/-- The pool used to illustrate teardown: two tasks never run, the first with
a `destroy_arg`, the second without. -/
theorem teardown_witness :
    destroy_arg_calls (destroy_threadpool
      { head := [⟨1, 7, some 2⟩, ⟨1, 8, none⟩], stop := true, mutex := none,
        num_threads := 0, threads := [] }).1 = [(2, 7)] ∧
    demo_final.main = MainPc.returned ∧
    freed_tasks (destroy_threadpool demo_final.tp).1 = [] ∧
    destroy_arg_calls (destroy_threadpool demo_final.tp).1 = [] ∧
    ∀ t, t ∈ demo_final.destroyed → t ∉ freed_tasks (destroy_threadpool demo_final.tp).1 :=
  ⟨rfl, rfl,
    (teardown (created_pool 0)).2.2.2.2 (fanout 2 1) 2 [fanout_task 0] () demo_final
      demo_reachable rfl⟩

/-- C10 (the mutex around an action).  `enqueue_task`, `dequeue_task` (with a
task, with NULL, and when it goes to sleep) and
`signal_stop_condition_if_needed` all leave the mutex released; hence in every
reachable state the mutex is free, so a worker inside an action does not hold
it, and an `enqueue_task` called by that action takes the mutex at once. -/
theorem mutex_released_around_action {L G : Type} :
    (∀ self tp t r, enqueue_task self tp t = some r → r.1.mutex = none) ∧
    (∀ self tp r, dequeue_task self tp = some r → r.1.mutex = none) ∧
    (∀ self tp r, signal_stop_condition_if_needed self tp = some r → r.1.mutex = none) ∧
    (∀ (W : Workload L G) (n : Nat) (todo : List os_task_t) (g : G) (s : State L G),
      Reachable W n todo g s →
        ∀ (i : Nat) (t : os_task_t) (l : L), s.workers[i]? = some (WorkerPc.running t l) →
          s.tp.mutex ≠ some (tid_worker i) ∧
          ∀ u, ∃ r, enqueue_task (tid_worker i) s.tp u = some r ∧ r.1.mutex = none) := by
  refine ⟨?_, ?_, ?_, ?_⟩
  · intro self tp t r h
    unfold enqueue_task at h
    cases hl : pthread_mutex_lock self tp with
    | none => simp [hl] at h
    | some tp1 =>
      simp only [hl, Option.some.injEq] at h
      rw [← h]
      rfl
  · intro self tp r h
    unfold dequeue_task at h
    cases hl : pthread_mutex_lock self tp with
    | none => simp [hl] at h
    | some tp1 =>
      simp only [hl] at h
      cases hq : tp1.head with
      | nil =>
        simp only [hq] at h
        cases hs : tp1.stop with
        | true =>
          simp only [hs, if_true, Option.some.injEq] at h
          rw [← h]; rfl
        | false =>
          simp only [hs, Bool.false_eq_true, if_false, Option.some.injEq] at h
          rw [← h]; rfl
      | cons t rest =>
        simp only [hq, Option.some.injEq] at h
        rw [← h]; rfl
  · intro self tp r h
    unfold signal_stop_condition_if_needed at h
    cases hl : pthread_mutex_lock self tp with
    | none => simp [hl] at h
    | some tp1 =>
      simp only [hl, Option.some.injEq] at h
      rw [← h]; rfl
  · intro W n todo g s hr i t l _
    have hm := (inv_reachable W n todo g s hr).mutex_free
    refine ⟨by rw [hm]; simp, ?_⟩
    intro u
    exact ⟨_, enqueue_task_free (tid_worker i) s.tp u hm, hm⟩

/-- Witness for C10: in the middle of the demonstration run worker 0 is
inside the action of the root task, does not hold the mutex, and its
`enqueue_task` goes through. -/
theorem mutex_released_witness :
    demo_middle.workers[0]? = some (WorkerPc.running (fanout_task 0) (0, 1)) ∧
    demo_middle.tp.mutex ≠ some (tid_worker 0) ∧
    ∀ u, ∃ r, enqueue_task (tid_worker 0) demo_middle.tp u = some r ∧ r.1.mutex = none :=
  ⟨rfl, (@mutex_released_around_action (Nat × Nat) Unit).2.2.2 (fanout 2 1) 2
    [fanout_task 0] () demo_middle demo_middle_reachable 0 (fanout_task 0) (0, 1) rfl⟩

/-- Witness for C4: on a pool with `stop` set and one task queued the task is
returned; on an empty pool with `stop` clear the call sleeps. -/
theorem dequeue_task_contract_witness :
    sample_pool.mutex = none ∧
    dequeue_task 1 sample_pool =
      some ({ sample_pool with head := [] }, DequeueResult.task ⟨1, 7, some 2⟩) ∧
    dequeue_task 1 { sample_pool with head := [] } =
      some ({ sample_pool with head := [] }, DequeueResult.null) ∧
    dequeue_task 1 empty_pool = some (empty_pool, DequeueResult.wait) :=
  ⟨rfl, (dequeue_task_contract 1 sample_pool rfl).1 _ _ rfl,
    (dequeue_task_contract 1 { sample_pool with head := [] } rfl).2.2.1 rfl rfl,
    (dequeue_task_contract 1 empty_pool rfl).2.2.2 rfl rfl⟩

/-- Witness for C5: three tasks through an empty pool, produced by thread 0
and consumed by thread 1. -/
theorem fifo_order_witness :
    empty_pool.mutex = none ∧ empty_pool.head = [] ∧
    ∃ tp1, enqueue_tasks 0 [fanout_task 3, fanout_task 1, fanout_task 2] empty_pool = some tp1 ∧
      tp1.head = [fanout_task 3, fanout_task 1, fanout_task 2] ∧
      (dequeue_tasks 1 3 tp1).1 = [fanout_task 3, fanout_task 1, fanout_task 2] ∧
      (dequeue_tasks 1 3 tp1).2.head = [] :=
  ⟨rfl, rfl,
    (fifo_order 0 1 empty_pool [fanout_task 3, fanout_task 1, fanout_task 2] rfl).2 rfl⟩

theorem create_threads_ok (env : CreateEnv) (h : ∀ i, 0 ≤ env.pthread_create i) :
    ∀ (k i : Nat) (acc : List (Option Nat)),
      ∃ hs, create_threads env k i acc = Except.ok hs ∧ hs.length = acc.length + k := by
  intro k
  induction k with
  | zero => intro i acc; exact ⟨acc, rfl, rfl⟩
  | succ k ih =>
    intro i acc
    have h1 : ¬ env.pthread_create i < 0 := not_lt.mpr (h i)
    obtain ⟨hs, e1, e2⟩ := ih (i + 1)
      (acc ++ [if env.pthread_create i = 0 then some i else none])
    refine ⟨hs, ?_, ?_⟩
    · simp only [create_threads, DIE, h1, decide_False, Bool.false_eq_true, if_false]
      exact e1
    · rw [e2]
      simp only [List.length_append, List.length_singleton]
      omega

/-- What `create_threadpool` does with the return values of
`pthread_create`: when both allocations succeed and no return value is
negative, a pool is returned, whatever the return values are. -/
theorem create_threadpool_returns (env : CreateEnv) (n : Nat)
    (h1 : env.malloc_tp = true) (h2 : env.malloc_threads = true)
    (h3 : ∀ i, 0 ≤ env.pthread_create i) :
    ∃ tp, create_threadpool env n = Except.ok tp ∧ tp.stop = false ∧ tp.head = [] := by
  obtain ⟨hs, e1, _⟩ := create_threads_ok env h3 n 0 []
  refine ⟨{ head := [], stop := false, mutex := none, num_threads := n, threads := hs },
    ?_, rfl, rfl⟩
  simp only [create_threadpool, DIE, h1, h2, Bool.not_true, Bool.false_eq_true, if_false, e1]

/-- What `create_threadpool` does when an allocation fails: it aborts. -/
theorem create_threadpool_malloc_failure (env : CreateEnv) (n : Nat)
    (h : env.malloc_tp = false ∨ env.malloc_threads = false) :
    create_threadpool env n = Except.error "malloc" := by
  cases h1 : env.malloc_tp with
  | false => simp [create_threadpool, DIE, h1]
  | true =>
    rcases h with h | h
    · rw [h1] at h; cases h
    · simp [create_threadpool, DIE, h1, h]

/-- C7, evaluated on the code.  With both allocations successful and
`pthread_create` failing with `EAGAIN` (return value 11), `create_threadpool`
does not abort: it returns a pool of one thread whose handle slot was never
filled. -/
theorem create_threadpool_misses_thread_failure :
    create_threadpool eagain_env 1 =
      Except.ok { head := [], stop := false, mutex := none, num_threads := 1,
                  threads := [none] } := by
  rfl

/-! ## No deadlock -/

theorem wake_main_ne_waiting (m : MainPc) : wake_main m ≠ MainPc.wfc_waiting := by
  cases m <;> simp [wake_main]

theorem live_init {L G : Type} (n : Nat) (todo : List os_task_t) (g : G) (hn : 1 ≤ n) :
    Live (init n todo g : State L G) := by
  refine ⟨hn, ?_, ?_⟩
  · intro h
    exact absurd rfl h
  · intro h
    cases h

theorem live_step_main {L G : Type} (W : Workload L G) (w : Nat) (s s1 : State L G)
    (hi : Inv s) (hl : Live s) (h : Trans W (Label.main w) s s1) : Live s1 := by
  obtain ⟨hw1, hat, haw⟩ := hl
  cases h with
  | call_wfc _ _ hmain =>
    exact ⟨hw1, hat, fun h => by cases h⟩
  | submit _ _ t todo ws hmain hwake =>
    refine ⟨hw1, ?_, fun h => by cases h⟩
    intro _
    have hs : s.tp.stop = false := by rw [hi.stop_main, hmain]; rfl
    rcases hwake with ⟨hq, ⟨hsl, e⟩ | ⟨v, hv, e⟩⟩ | ⟨hq, e⟩
    · have h1 := wsum_partition s.workers
      have h2 := hi.no_exit hs
      have h3 := hi.size
      simp only [e]
      omega
    · obtain ⟨_, _, le2, _⟩ := set_counts s.workers v _ WorkerPc.ready hv
      have e3 := le2 (ind WorkerPc.isActive)
      simp only [ind, WorkerPc.isActive, if_true] at e3
      simp only [e]
      exact e3
    · simp only [e]
      exact hat hq
  | wfc_stop _ _ hmain hq hs =>
    exact ⟨hw1, fun h => absurd hq h, fun h => by cases h⟩
  | wfc_leave _ _ hmain hq hs =>
    exact ⟨hw1, fun h => absurd hq h, fun h => by cases h⟩
  | wfc_wait _ _ hmain hq =>
    exact ⟨hw1, hat, fun _ => Or.inl hq⟩
  | join_next _ _ i hmain hlt hw =>
    exact ⟨hw1, hat, fun h => by cases h⟩
  | join_done _ _ i hmain hlt =>
    exact ⟨hw1, hat, fun h => by cases h⟩

theorem live_step_worker {L G : Type} (W : Workload L G) (i w : Nat) (s s1 : State L G)
    (hl : Live s) (h : Trans W (Label.worker i w) s s1) : Live s1 := by
  obtain ⟨hw1, hat, haw⟩ := hl
  cases h with
  | deq_task _ _ _ t rest hw hq =>
    obtain ⟨e, _, le2, _⟩ := set_counts s.workers i _ (WorkerPc.dequeued t) hw
    have e3 := le2 (ind WorkerPc.isActive)
    have e4 := le2 (ind WorkerPc.isBusy)
    simp only [ind, WorkerPc.isActive, WorkerPc.isBusy, if_true] at e3 e4
    exact ⟨hw1, fun _ => e3, fun _ => Or.inr e4⟩
  | deq_null _ _ _ hw hq hs =>
    obtain ⟨e, _, le2, _⟩ := set_counts s.workers i _ WorkerPc.exited hw
    have e4 := e (ind WorkerPc.isBusy)
    simp only [ind, WorkerPc.isBusy, Bool.false_eq_true, if_false] at e4
    refine ⟨hw1, fun h => absurd hq h, ?_⟩
    intro hm
    rcases haw hm with h | h
    · exact absurd hq h
    · right
      simp only at *
      omega
  | deq_wait _ _ _ hw hq hs =>
    obtain ⟨e, _, le2, _⟩ := set_counts s.workers i _ WorkerPc.waiting hw
    have e4 := e (ind WorkerPc.isBusy)
    simp only [ind, WorkerPc.isBusy, Bool.false_eq_true, if_false] at e4
    refine ⟨hw1, fun h => absurd hq h, ?_⟩
    intro hm
    rcases haw hm with h | h
    · exact absurd hq h
    · right
      simp only at *
      omega
  | invoke _ _ _ t hw =>
    obtain ⟨e, _, le2, _⟩ := set_counts s.workers i _ (WorkerPc.running t (W.start t)) hw
    have e3 := le2 (ind WorkerPc.isActive)
    have e4 := le2 (ind WorkerPc.isBusy)
    simp only [ind, WorkerPc.isActive, WorkerPc.isBusy, if_true] at e3 e4
    exact ⟨hw1, fun _ => e3, fun _ => Or.inr e4⟩
  | act_enqueue _ _ _ t u l l1 g1 ws hw hn hwake =>
    obtain ⟨e, _, le2, _⟩ := set_counts s.workers i _ (WorkerPc.running t l1) hw
    have e3 := le2 (ind WorkerPc.isActive)
    have e4 := le2 (ind WorkerPc.isBusy)
    have k3 := enqueue_wake_active _ _ _ hwake
    have k4 := enqueue_wake_wsum_eq (ind WorkerPc.isBusy) rfl _ _ _ hwake
    simp only [ind, WorkerPc.isActive, WorkerPc.isBusy, if_true] at e3 e4 k3 k4
    refine ⟨hw1, fun _ => ?_, fun _ => Or.inr ?_⟩
    · simp only [ind] at *
      omega
    · simp only [ind] at *
      omega
  | act_internal _ _ _ t l l1 g1 hw hn =>
    obtain ⟨e, _, le2, _⟩ := set_counts s.workers i _ (WorkerPc.running t l1) hw
    have e3 := le2 (ind WorkerPc.isActive)
    have e4 := le2 (ind WorkerPc.isBusy)
    simp only [ind, WorkerPc.isActive, WorkerPc.isBusy, if_true] at e3 e4
    exact ⟨hw1, fun _ => e3, fun _ => Or.inr e4⟩
  | act_ret _ _ _ t l g1 hw hn =>
    obtain ⟨e, _, le2, _⟩ := set_counts s.workers i _ (WorkerPc.finished t) hw
    have e3 := le2 (ind WorkerPc.isActive)
    have e4 := le2 (ind WorkerPc.isBusy)
    simp only [ind, WorkerPc.isActive, WorkerPc.isBusy, if_true] at e3 e4
    exact ⟨hw1, fun _ => e3, fun _ => Or.inr e4⟩
  | finish _ _ _ t hw =>
    obtain ⟨e, _, le2, _⟩ := set_counts s.workers i _ WorkerPc.ready hw
    have e3 := le2 (ind WorkerPc.isActive)
    simp only [ind, WorkerPc.isActive, if_true] at e3
    exact ⟨hw1, fun _ => e3, fun h => absurd h (wake_main_ne_waiting _)⟩

theorem live_step {L G : Type} (W : Workload L G) (lbl : Label) (s s1 : State L G)
    (hi : Inv s) (hl : Live s) (h : Trans W lbl s s1) : Live s1 := by
  cases lbl with
  | main w => exact live_step_main W w s s1 hi hl h
  | worker i w => exact live_step_worker W i w s s1 hl h
  | spurious_worker i =>
    obtain ⟨hw1, hat, haw⟩ := hl
    cases h with
    | spurious_worker _ _ hw =>
      obtain ⟨e, _, le2, _⟩ := set_counts s.workers i _ WorkerPc.ready hw
      have e3 := le2 (ind WorkerPc.isActive)
      have e4 := e (ind WorkerPc.isBusy)
      simp only [ind, WorkerPc.isActive, WorkerPc.isBusy, if_true, Bool.false_eq_true,
        if_false] at e3 e4
      refine ⟨hw1, fun _ => e3, ?_⟩
      intro hm
      rcases haw hm with h | h
      · exact Or.inl h
      · right
        simp only at *
        omega
  | spurious_main =>
    obtain ⟨hw1, hat, haw⟩ := hl
    cases h with
    | spurious_main _ hmain =>
      exact ⟨hw1, hat, fun h => by cases h⟩

theorem live_run {L G : Type} (W : Workload L G) (ls : List Label) :
    ∀ s s1 : State L G, Inv s → Live s → run W ls s = some s1 → Live s1 := by
  induction ls with
  | nil =>
    intro s s1 _ hl h
    simp only [run, Option.some.injEq] at h
    rw [← h]; exact hl
  | cons lbl ls ih =>
    intro s s1 hi hl h
    simp only [run] at h
    cases hs : step W lbl s with
    | none => simp [hs] at h
    | some s2 =>
      simp only [hs] at h
      have ht := step_sound W lbl s s2 hi.mutex_free hs
      exact ih s2 s1 (inv_step W lbl s s2 hi ht) (live_step W lbl s s2 hi hl ht) h

theorem live_reachable {L G : Type} (W : Workload L G) (n : Nat) (todo : List os_task_t) (g : G)
    (s : State L G) (hn : 1 ≤ n) (h : Reachable W n todo g s) : Live s := by
  obtain ⟨ls, hls⟩ := h
  exact live_run W ls _ s (inv_init n todo g) (live_init n todo g hn) hls

theorem wake_one_enabled {L : Type} (ws : List (WorkerPc L)) :
    ∃ w ws1, wake_one w ws = some ws1 := by
  by_cases ha : ws.any WorkerPc.isWaiting = true
  · obtain ⟨w, hw⟩ := any_waiting_true ws ha
    exact ⟨w, ws.set w WorkerPc.ready, by simp [wake_one, ha, hw]⟩
  · exact ⟨0, ws, by simp only [wake_one, ha, Bool.false_eq_true, if_false]⟩

theorem deliver_enqueue_enabled {L : Type} (q : List os_task_t) (ws : List (WorkerPc L))
    (m : MainPc) :
    ∃ w r, deliver w (if q = [] then [Sig.signal_cond] else []) (ws, m) = some r := by
  by_cases hq : q = []
  · obtain ⟨w, ws1, hw⟩ := wake_one_enabled ws
    exact ⟨w, (ws1, m), by simp [hq, deliver, hw]⟩
  · exact ⟨0, (ws, m), by simp [hq, deliver]⟩

theorem active_worker_steps {L G : Type} (W : Workload L G) (s : State L G)
    (hm : s.tp.mutex = none) (i : Nat) (p : WorkerPc L) (hp : s.workers[i]? = some p)
    (ha : p.isActive = true) : ∃ w, (step_worker W i w s).isSome = true := by
  cases p with
  | ready =>
    cases hq : s.tp.head with
    | nil =>
      cases hs : s.tp.stop with
      | true =>
        exact ⟨0, by simp [step_worker, hp, dequeue_task_free_nil _ s.tp hm hq, hs]⟩
      | false =>
        exact ⟨0, by simp [step_worker, hp, dequeue_task_free_nil _ s.tp hm hq, hs]⟩
    | cons t rest =>
      exact ⟨0, by simp [step_worker, hp, dequeue_task_free_cons _ s.tp t rest hm hq]⟩
  | waiting => cases ha
  | dequeued t => exact ⟨0, by simp [step_worker, hp]⟩
  | running t l =>
    cases hn : W.next l s.shared with
    | enqueue u l1 g1 =>
      obtain ⟨w, r, hr⟩ := deliver_enqueue_enabled s.tp.head
        (s.workers.set i (WorkerPc.running t l1)) s.main
      exact ⟨w, by simp [step_worker, hp, hn, enqueue_task_free _ s.tp u hm, hr]⟩
    | internal l1 g1 => exact ⟨0, by simp [step_worker, hp, hn]⟩
    | ret g1 => exact ⟨0, by simp [step_worker, hp, hn]⟩
  | finished t =>
    exact ⟨0, by simp [step_worker, hp, signal_stop_free _ s.tp hm, deliver]⟩
  | exited => cases ha

theorem some_active_worker {L : Type} (ws : List (WorkerPc L))
    (h : 0 < wsum (ind WorkerPc.isActive) ws) :
    ∃ (i : Nat) (p : WorkerPc L), ws[i]? = some p ∧ p.isActive = true := by
  obtain ⟨i, p, hp, hpos⟩ := wsum_pos _ ws h
  refine ⟨i, p, hp, ?_⟩
  by_contra hc
  simp [ind, hc] at hpos

theorem busy_le_active {L : Type} (ws : List (WorkerPc L)) :
    wsum (ind WorkerPc.isBusy) ws ≤ wsum (ind WorkerPc.isActive) ws := by
  apply wsum_le_of_le
  intro p
  cases p <;> simp [ind, WorkerPc.isBusy, WorkerPc.isActive]

/-- No deadlock: in a reachable state of a pool with at least one worker in
which `wait_for_completion` has not returned, some thread can take a step
that is not a spurious wake-up. -/
theorem progress {L G : Type} (W : Workload L G) (s : State L G) (hi : Inv s) (hl : Live s)
    (hne : s.main ≠ MainPc.returned) :
    ∃ lbl, lbl.isSpurious = false ∧ (step W lbl s).isSome = true := by
  have hm := hi.mutex_free
  have worker_case : 0 < wsum (ind WorkerPc.isActive) s.workers →
      ∃ lbl, lbl.isSpurious = false ∧ (step W lbl s).isSome = true := by
    intro h
    obtain ⟨i, p, hp, ha⟩ := some_active_worker s.workers h
    obtain ⟨w, h1⟩ := active_worker_steps W s hm i p hp ha
    exact ⟨Label.worker i w, rfl, h1⟩
  cases hmain : s.main with
  | submitting todo =>
    cases todo with
    | nil => exact ⟨Label.main 0, rfl, by simp [step, step_main, hmain]⟩
    | cons t todo =>
      obtain ⟨w, r, hr⟩ := deliver_enqueue_enabled s.tp.head s.workers (MainPc.submitting todo)
      exact ⟨Label.main w, rfl,
        by simp [step, step_main, hmain, enqueue_task_free _ s.tp t hm, hr]⟩
  | wfc_entry =>
    by_cases hq : s.tp.head = []
    · cases hs : s.tp.stop with
      | true =>
        exact ⟨Label.main 0, rfl,
          by simp [step, step_main, hmain, wfc_locked_free _ s.tp hm, hq, hs, deliver]⟩
      | false =>
        exact ⟨Label.main 0, rfl,
          by simp [step, step_main, hmain, wfc_locked_free _ s.tp hm, hq, hs, deliver]⟩
    · exact ⟨Label.main 0, rfl,
        by simp [step, step_main, hmain, wfc_locked_free _ s.tp hm, hq, deliver]⟩
  | wfc_waiting =>
    rcases hl.awaited hmain with h | h
    · exact worker_case (hl.attended h)
    · exact worker_case (lt_of_lt_of_le h (busy_le_active s.workers))
  | joining i =>
    by_cases hlt : i < s.tp.num_threads
    · have hlen : i < s.workers.length := by rw [hi.size]; exact hlt
      have hp : s.workers[i]? = some s.workers[i] := List.getElem?_eq_getElem hlen
      cases hpc : s.workers[i] with
      | exited =>
        rw [hpc] at hp
        exact ⟨Label.main 0, rfl, by simp [step, step_main, hmain, hlt, hp]⟩
      | waiting =>
        rw [hpc] at hp
        have hs : s.tp.stop = true := by rw [hi.stop_main, hmain]; rfl
        have h1 := hi.no_sleep hs
        have h2 := wsum_get_le (ind WorkerPc.isWaiting) s.workers i _ hp
        simp only [ind, WorkerPc.isWaiting, if_true, sleepers] at h1 h2
        omega
      | ready =>
        rw [hpc] at hp
        obtain ⟨w, h1⟩ := active_worker_steps W s hm i _ hp rfl
        exact ⟨Label.worker i w, rfl, h1⟩
      | dequeued t =>
        rw [hpc] at hp
        obtain ⟨w, h1⟩ := active_worker_steps W s hm i _ hp rfl
        exact ⟨Label.worker i w, rfl, h1⟩
      | running t l =>
        rw [hpc] at hp
        obtain ⟨w, h1⟩ := active_worker_steps W s hm i _ hp rfl
        exact ⟨Label.worker i w, rfl, h1⟩
      | finished t =>
        rw [hpc] at hp
        obtain ⟨w, h1⟩ := active_worker_steps W s hm i _ hp rfl
        exact ⟨Label.worker i w, rfl, h1⟩
    · exact ⟨Label.main 0, rfl, by simp [step, step_main, hmain, hlt]⟩
  | returned => exact absurd hmain hne

/-! ## Termination: every step pays -/

theorem queue_rank_snoc {L G : Type} (R : Rank L G) (q : List os_task_t)
    (t : os_task_t) : queue_rank R (q ++ [t]) = queue_rank R q + (R.task t + 5) := by
  simp [queue_rank]

theorem queue_rank_cons {L G : Type} (R : Rank L G) (q : List os_task_t)
    (t : os_task_t) : queue_rank R (t :: q) = (R.task t + 5) + queue_rank R q := by
  simp [queue_rank]

theorem enqueue_wake_rank {L G : Type} (R : Rank L G) (q : List os_task_t)
    (ws ws1 : List (WorkerPc L)) (h : EnqueueWake q ws ws1) :
    wsum (worker_rank R) ws1 ≤ wsum (worker_rank R) ws + 1 := by
  rcases enqueue_wake_wsum (worker_rank R) q ws ws1 h with h | ⟨_, _, h⟩
  · rw [h]; omega
  · simp only [worker_rank] at h
    omega

theorem wake_all_rank {L G : Type} (R : Rank L G) (ws : List (WorkerPc L)) :
    wsum (worker_rank R) (wake_all ws) ≤ wsum (worker_rank R) ws + ws.length := by
  have h1 := wsum_wake_all (worker_rank R) ws
  have h2 := sleepers_le_length ws
  simp only [worker_rank, Nat.mul_zero, Nat.mul_one, Nat.add_zero] at h1
  omega

theorem wake_main_rank {L G : Type} (R : Rank L G) (n : Nat) (m : MainPc) :
    main_rank R n (wake_main m) ≤ main_rank R n m + 1 := by
  cases m <;> simp [wake_main, main_rank]

theorem potential_step_main {L G : Type} {W : Workload L G} (R : Rank L G) (w : Nat)
    (s s1 : State L G) (hi : Inv s) (h : Trans W (Label.main w) s s1) :
    potential R s1 < potential R s := by
  cases h with
  | call_wfc _ _ hmain =>
    simp only [potential, hmain, main_rank, todo_rank, List.map_nil, List.sum_nil]
    omega
  | submit _ _ t todo ws hmain hwake =>
    have k := enqueue_wake_rank R _ _ _ hwake
    simp only [potential, hmain, main_rank, todo_rank, List.map_cons, List.sum_cons,
      queue_rank_snoc]
    omega
  | wfc_stop _ _ hmain hq hs =>
    have k := wake_all_rank R s.workers
    have hsz := hi.size
    simp only [potential, hmain, main_rank]
    omega
  | wfc_leave _ _ hmain hq hs =>
    have k := wake_all_rank R s.workers
    have hsz := hi.size
    simp only [potential, hmain, main_rank]
    omega
  | wfc_wait _ _ hmain hq =>
    simp only [potential, hmain, main_rank]
    omega
  | join_next _ _ i hmain hlt hw =>
    simp only [potential, hmain, main_rank]
    omega
  | join_done _ _ i hmain hlt =>
    simp only [potential, hmain, main_rank]
    omega

theorem potential_step_worker {L G : Type} {W : Workload L G} (R : Rank L G)
    (hR : Ranked W R) (i w : Nat) (s s1 : State L G) (h : Trans W (Label.worker i w) s s1) :
    potential R s1 < potential R s := by
  cases h with
  | deq_task _ _ _ t rest hw hq =>
    have e := wsum_set (worker_rank R) s.workers i _ (WorkerPc.dequeued t) hw
    simp only [worker_rank] at e
    simp only [potential, hq, queue_rank_cons]
    omega
  | deq_null _ _ _ hw hq hs =>
    have e := wsum_set (worker_rank R) s.workers i _ WorkerPc.exited hw
    simp only [worker_rank] at e
    simp only [potential]
    omega
  | deq_wait _ _ _ hw hq hs =>
    have e := wsum_set (worker_rank R) s.workers i _ WorkerPc.waiting hw
    simp only [worker_rank] at e
    simp only [potential]
    omega
  | invoke _ _ _ t hw =>
    have e := wsum_set (worker_rank R) s.workers i _ (WorkerPc.running t (W.start t)) hw
    have k := hR.start_le t
    simp only [worker_rank] at e
    simp only [potential]
    omega
  | act_enqueue _ _ _ t u l l1 g1 ws hw hn hwake =>
    have e := wsum_set (worker_rank R) s.workers i _ (WorkerPc.running t l1) hw
    have k := hR.enqueue_lt l s.shared u l1 g1 hn
    have k2 := enqueue_wake_rank R _ _ _ hwake
    simp only [worker_rank] at e
    simp only [potential, queue_rank_snoc]
    omega
  | act_internal _ _ _ t l l1 g1 hw hn =>
    have e := wsum_set (worker_rank R) s.workers i _ (WorkerPc.running t l1) hw
    have k := hR.internal_lt l s.shared l1 g1 hn
    simp only [worker_rank] at e
    simp only [potential]
    omega
  | act_ret _ _ _ t l g1 hw hn =>
    have e := wsum_set (worker_rank R) s.workers i _ (WorkerPc.finished t) hw
    have k := hR.ret_le l s.shared g1 hn
    simp only [worker_rank] at e
    simp only [potential]
    omega
  | finish _ _ _ t hw =>
    have e := wsum_set (worker_rank R) s.workers i _ WorkerPc.ready hw
    have k := wake_main_rank R s.tp.num_threads s.main
    simp only [worker_rank] at e
    simp only [potential]
    omega

theorem potential_step {L G : Type} {W : Workload L G} (R : Rank L G) (hR : Ranked W R)
    (lbl : Label) (s s1 : State L G) (hi : Inv s) (hns : lbl.isSpurious = false)
    (h : step W lbl s = some s1) : potential R s1 < potential R s := by
  have ht := step_sound W lbl s s1 hi.mutex_free h
  cases lbl with
  | main w => exact potential_step_main R w s s1 hi ht
  | worker i w => exact potential_step_worker R hR i w s s1 ht
  | spurious_worker i => cases hns
  | spurious_main => cases hns

/-- A schedule without spurious wake-ups is no longer than the potential it
uses up. -/
theorem run_length_le {L G : Type} {W : Workload L G} (R : Rank L G) (hR : Ranked W R)
    (ls : List Label) :
    ∀ s s1 : State L G, Inv s → (∀ l ∈ ls, l.isSpurious = false) → run W ls s = some s1 →
      ls.length + potential R s1 ≤ potential R s := by
  induction ls with
  | nil =>
    intro s s1 _ _ h
    simp only [run, Option.some.injEq] at h
    rw [← h]
    simp
  | cons lbl ls ih =>
    intro s s1 hi hns h
    simp only [run] at h
    cases hs : step W lbl s with
    | none => simp [hs] at h
    | some s2 =>
      simp only [hs] at h
      have h1 := potential_step R hR lbl s s2 hi (hns lbl (List.mem_cons_self _ _)) hs
      have h2 := ih s2 s1 (inv_step W lbl s s2 hi (step_sound W lbl s s2 hi.mutex_free hs))
        (fun l hl => hns l (List.mem_cons_of_mem _ hl)) h
      simp only [List.length_cons]
      omega

theorem run_append {L G : Type} (W : Workload L G) (l1 l2 : List Label) :
    ∀ s s1 s2 : State L G, run W l1 s = some s1 → run W l2 s1 = some s2 →
      run W (l1 ++ l2) s = some s2 := by
  induction l1 with
  | nil =>
    intro s s1 s2 h1 h2
    simp only [run, Option.some.injEq] at h1
    rw [h1]
    exact h2
  | cons lbl l1 ih =>
    intro s s1 s2 h1 h2
    simp only [run, List.cons_append] at h1 ⊢
    cases hs : step W lbl s with
    | none => simp [hs] at h1
    | some s3 =>
      simp only [hs] at h1 ⊢
      exact ih s3 s1 s2 h1 h2

/-- From every state satisfying the invariants the program can run to the
return of `wait_for_completion`, without any spurious wake-up. -/
theorem completes_from {L G : Type} {W : Workload L G} (R : Rank L G) (hR : Ranked W R) :
    ∀ (b : Nat) (s : State L G), potential R s ≤ b → Inv s → Live s →
      ∃ ls s1, (∀ l ∈ ls, l.isSpurious = false) ∧ run W ls s = some s1 ∧
        s1.main = MainPc.returned := by
  intro b
  induction b with
  | zero =>
    intro s hb hi hl
    by_cases hret : s.main = MainPc.returned
    · exact ⟨[], s, by simp, rfl, hret⟩
    · obtain ⟨lbl, hns, hsome⟩ := progress W s hi hl hret
      obtain ⟨s2, hs2⟩ := Option.isSome_iff_exists.mp hsome
      have := potential_step R hR lbl s s2 hi hns hs2
      omega
  | succ b ih =>
    intro s hb hi hl
    by_cases hret : s.main = MainPc.returned
    · exact ⟨[], s, by simp, rfl, hret⟩
    · obtain ⟨lbl, hns, hsome⟩ := progress W s hi hl hret
      obtain ⟨s2, hs2⟩ := Option.isSome_iff_exists.mp hsome
      have hlt := potential_step R hR lbl s s2 hi hns hs2
      have ht := step_sound W lbl s s2 hi.mutex_free hs2
      obtain ⟨ls, s1, h1, h2, h3⟩ := ih s2 (by omega) (inv_step W lbl s s2 hi ht)
        (live_step W lbl s s2 hi hl ht)
      refine ⟨lbl :: ls, s1, ?_, ?_, h3⟩
      · intro l hl2
        rcases List.mem_cons.mp hl2 with e | e
        · rw [e]; exact hns
        · exact h1 l e
      · simp only [run, hs2]
        exact h2

/-! ## The fan-out workload runs to completion -/

theorem subtree_unfold (k d m : Nat) :
    subtree k d m = 1 + (if m < d then k else 0) * subtree k d (m + 1) := by
  unfold subtree
  by_cases h : m < d
  · have e : d - m = (d - (m + 1)) + 1 := by omega
    rw [if_pos h, e, geom]
  · have e : d - m = 0 := by omega
    rw [if_neg h, e, geom]
    simp

theorem fan_queued_snoc (k d : Nat) (q : List os_task_t) (t : os_task_t) :
    fan_queued k d (q ++ [t]) = fan_queued k d q + subtree k d t.argument := by
  simp [fan_queued]

theorem fan_queued_cons (k d : Nat) (q : List os_task_t) (t : os_task_t) :
    fan_queued k d (t :: q) = subtree k d t.argument + fan_queued k d q := by
  simp [fan_queued]

/-- Work conservation in the fan-out workload: the actions already invoked
plus the tasks still to come (under queued tasks, under tasks held by the
workers, under the children running actions have still to enqueue, and under
what the orchestrator has still to submit). -/
theorem fan_count_step (k d : Nat) (lbl : Label) (s s1 : State (Nat × Nat) Unit)
    (h : Trans (fanout k d) lbl s s1) :
    s1.invoked.length + fan_queued k d s1.tp.head + wsum (fan_pending k d) s1.workers
        + fan_todo k d s1.main
      = s.invoked.length + fan_queued k d s.tp.head + wsum (fan_pending k d) s.workers
        + fan_todo k d s.main := by
  cases h with
  | call_wfc _ _ hmain =>
    simp only [hmain, fan_todo, fan_queued, List.map_nil, List.sum_nil]
  | submit _ _ t todo ws hmain hwake =>
    have k1 := enqueue_wake_wsum_eq (fan_pending k d) rfl _ _ _ hwake
    simp only [hmain, fan_todo, fan_queued_snoc, fan_queued_cons, k1]
    omega
  | wfc_stop _ _ hmain hq hs =>
    have k1 := wsum_wake_all_eq (fan_pending k d) rfl s.workers
    simp only [hmain, fan_todo, k1]
  | wfc_leave _ _ hmain hq hs =>
    have k1 := wsum_wake_all_eq (fan_pending k d) rfl s.workers
    simp only [hmain, fan_todo, k1]
  | wfc_wait _ _ hmain hq =>
    simp only [hmain, fan_todo]
  | join_next _ _ i hmain hlt hw =>
    simp only [hmain, fan_todo]
  | join_done _ _ i hmain hlt =>
    simp only [hmain, fan_todo]
  | deq_task _ i _ t rest hw hq =>
    have e := wsum_set (fan_pending k d) s.workers i _ (WorkerPc.dequeued t) hw
    simp only [fan_pending] at e
    simp only [hq, fan_queued_cons]
    omega
  | deq_null _ i _ hw hq hs =>
    have e := wsum_set (fan_pending k d) s.workers i _ WorkerPc.exited hw
    simp only [fan_pending] at e
    simp only
    omega
  | deq_wait _ i _ hw hq hs =>
    have e := wsum_set (fan_pending k d) s.workers i _ WorkerPc.waiting hw
    simp only [fan_pending] at e
    simp only
    omega
  | invoke _ i _ t hw =>
    have e := wsum_set (fan_pending k d) s.workers i _
      (WorkerPc.running t ((fanout k d).start t)) hw
    have k1 := subtree_unfold k d t.argument
    have hl1 : ((fanout k d).start t).1 = t.argument := rfl
    have hl2 : ((fanout k d).start t).2 = if t.argument < d then k else 0 := rfl
    simp only [fan_pending] at e
    rw [hl1, hl2] at e
    simp only [List.length_append, List.length_singleton]
    omega
  | act_enqueue _ i _ t u l l1 g1 ws hw hn hwake =>
    have e := wsum_set (fan_pending k d) s.workers i _ (WorkerPc.running t l1) hw
    have k1 := enqueue_wake_wsum_eq (fan_pending k d) rfl _ _ _ hwake
    obtain ⟨m, j⟩ := l
    cases j with
    | zero => simp [fanout] at hn
    | succ j =>
      simp only [fanout, ActOut.enqueue.injEq] at hn
      obtain ⟨hu, hl, _⟩ := hn
      subst hu hl
      have e2 : (j + 1) * subtree k d (m + 1) = j * subtree k d (m + 1) + subtree k d (m + 1) :=
        Nat.succ_mul _ _
      simp only [fan_pending] at e
      simp only [fan_queued_snoc, k1, fanout_task]
      omega
  | act_internal _ i _ t l l1 g1 hw hn =>
    obtain ⟨m, j⟩ := l
    cases j <;> simp [fanout] at hn
  | act_ret _ i _ t l g1 hw hn =>
    have e := wsum_set (fan_pending k d) s.workers i _ (WorkerPc.finished t) hw
    obtain ⟨m, j⟩ := l
    cases j with
    | zero =>
      simp only [fan_pending, Nat.zero_mul] at e
      simp only
      omega
    | succ j => simp [fanout] at hn
  | finish _ i _ t hw =>
    have e := wsum_set (fan_pending k d) s.workers i _ WorkerPc.ready hw
    have k1 : fan_todo k d (wake_main s.main) = fan_todo k d s.main := by
      cases s.main <;> rfl
    simp only [fan_pending] at e
    simp only [k1]
    omega
  | spurious_worker _ i hw =>
    have e := wsum_set (fan_pending k d) s.workers i _ WorkerPc.ready hw
    simp only [fan_pending] at e
    simp only
    omega
  | spurious_main _ hmain =>
    simp only [hmain, fan_todo]

theorem fan_count_run (k d : Nat) (ls : List Label) :
    ∀ s s1 : State (Nat × Nat) Unit, Inv s → run (fanout k d) ls s = some s1 →
      s1.invoked.length + fan_queued k d s1.tp.head + wsum (fan_pending k d) s1.workers
          + fan_todo k d s1.main
        = s.invoked.length + fan_queued k d s.tp.head + wsum (fan_pending k d) s.workers
          + fan_todo k d s.main := by
  induction ls with
  | nil =>
    intro s s1 _ h
    simp only [run, Option.some.injEq] at h
    rw [← h]
  | cons lbl ls ih =>
    intro s s1 hi h
    simp only [run] at h
    cases hs : step (fanout k d) lbl s with
    | none => simp [hs] at h
    | some s2 =>
      simp only [hs] at h
      have ht := step_sound (fanout k d) lbl s s2 hi.mutex_free hs
      rw [ih s2 s1 (inv_step _ lbl s s2 hi ht) h, fan_count_step k d lbl s s2 ht]

theorem wsum_replicate_ready {L : Type} (f : WorkerPc L → Nat) (n : Nat) :
    wsum f (List.replicate n WorkerPc.ready) = n * f WorkerPc.ready := by
  induction n with
  | zero => simp [wsum]
  | succ n ih =>
    rw [List.replicate_succ, wsum_cons, ih, Nat.succ_mul]
    omega

theorem fanout_invoked_count (k d n : Nat) (s : State (Nat × Nat) Unit)
    (hr : Reachable (fanout k d) n [fanout_task 0] () s) (hret : s.main = MainPc.returned) :
    s.invoked.length = geom k d := by
  have hi := inv_reachable _ n _ _ s hr
  obtain ⟨ls, hls⟩ := hr
  have h := fan_count_run k d ls _ s (inv_init n _ ()) hls
  have h1 := returned_queue_empty s hi hret
  have h2 := returned_wsum_zero s hi hret (fan_pending k d) rfl
  have h3 : wsum (fan_pending k d) (List.replicate n WorkerPc.ready) = 0 := by
    rw [wsum_replicate_ready]
    simp [fan_pending]
  simp only [h1, h2, hret, fan_todo, fan_queued, List.map_nil, List.sum_nil, init,
    List.length_nil, created_pool, h3, List.map_cons, List.sum_cons, fanout_task, subtree,
    Nat.sub_zero, Nat.add_zero, Nat.zero_add] at h
  exact h

theorem geom_closed (k : Nat) (d : Nat) :
    ((k : Int) - 1) * (geom k d : Int) = (k : Int) ^ (d + 1) - 1 := by
  induction d with
  | zero => simp [geom]
  | succ d ih =>
    have e : ((geom k (d + 1) : Nat) : Int) = 1 + (k : Int) * (geom k d : Int) := by
      simp [geom]
    rw [e, pow_succ]
    linear_combination (k : Int) * ih

theorem geom_formula (k d : Nat) (hk : k ≠ 1) :
    (geom k d : Int) = ((k : Int) ^ (d + 1) - 1) / ((k : Int) - 1) := by
  have hne : ((k : Int) - 1) ≠ 0 := by
    intro h
    apply hk
    omega
  rw [← geom_closed k d]
  exact (Int.mul_ediv_cancel_left _ hne).symm

theorem geom_one (d : Nat) : geom 1 d = d + 1 := by
  induction d with
  | zero => rfl
  | succ d ih => simp [geom, ih]; omega

theorem fanout_ranked (k d : Nat) : Ranked (fanout k d) (fanout_rank k d) where
  start_le := by
    intro t
    by_cases h : t.argument < d
    · have e : d - t.argument = (d - (t.argument + 1)) + 1 := by omega
      simp only [fanout, fanout_rank, h, if_true]
      rw [e, fan_cost]
    · simp [fanout, fanout_rank, h]
  enqueue_lt := by
    intro l g u l1 g1 h
    obtain ⟨m, j⟩ := l
    cases j with
    | zero => simp [fanout] at h
    | succ j =>
      simp only [fanout, ActOut.enqueue.injEq] at h
      obtain ⟨hu, hl, _⟩ := h
      subst hu hl
      simp only [fanout_rank, fanout_task, Nat.add_zero, Nat.zero_add]
      have e : (j + 1) * (fan_cost k (d - (m + 1)) + 7)
          = j * (fan_cost k (d - (m + 1)) + 7) + (fan_cost k (d - (m + 1)) + 7) :=
        Nat.succ_mul _ _
      omega
  internal_lt := by
    intro l g l1 g1 h
    obtain ⟨m, j⟩ := l
    cases j <;> simp [fanout] at h
  ret_le := by
    intro l g g1 _
    simp [fanout_rank]

theorem fanout_init_potential (k d n : Nat) :
    potential (fanout_rank k d) (init n [fanout_task 0] ()) = fanout_bound k d n := by
  simp only [potential, init, created_pool, main_rank, todo_rank, queue_rank, List.map_cons,
    List.map_nil, List.sum_cons, List.sum_nil, wsum_replicate_ready, worker_rank,
    fanout_rank, fanout_task, fanout_bound, Nat.sub_zero]
  omega

/-- C8 as amended (no deadlock under fan-out).  For all `k` and `d` and every
pool of at least one worker, the workload that submits one task of depth 0 and
in which every task of depth less than `d` enqueues `k` tasks one level deeper

* never deadlocks: while `wait_for_completion` has not returned, some thread
  can take a step that is not a spurious wake-up;
* terminates: a schedule without spurious wake-ups has at most
  `fanout_bound k d n` steps, so every such schedule can be extended to one
  on which `wait_for_completion` returns, and one exists;
* executes exactly `1 + k + ... + k^d` actions, which is
  `(k^(d+1) - 1) / (k - 1)` for `k ≠ 1` and `d + 1` for `k = 1`. -/
theorem fanout_completes (k d n : Nat) (hn : 1 ≤ n) :
    (∀ s, Reachable (fanout k d) n [fanout_task 0] () s → s.main ≠ MainPc.returned →
      ∃ lbl, lbl.isSpurious = false ∧ (step (fanout k d) lbl s).isSome = true) ∧
    (∀ ls s, (∀ l ∈ ls, l.isSpurious = false) →
      run (fanout k d) ls (init n [fanout_task 0] ()) = some s →
        ls.length ≤ fanout_bound k d n ∧
        ∃ ls1 s1, run (fanout k d) (ls ++ ls1) (init n [fanout_task 0] ()) = some s1 ∧
          s1.main = MainPc.returned) ∧
    (∃ ls s, run (fanout k d) ls (init n [fanout_task 0] ()) = some s ∧
      s.main = MainPc.returned) ∧
    (∀ s, Reachable (fanout k d) n [fanout_task 0] () s → s.main = MainPc.returned →
      s.invoked.length = geom k d) ∧
    (k ≠ 1 → (geom k d : Int) = ((k : Int) ^ (d + 1) - 1) / ((k : Int) - 1)) ∧
    (k = 1 → geom k d = d + 1) := by
  have hi0 : Inv (init n [fanout_task 0] () : State (Nat × Nat) Unit) := inv_init n _ ()
  have hl0 : Live (init n [fanout_task 0] () : State (Nat × Nat) Unit) := live_init n _ () hn
  refine ⟨?_, ?_, ?_, ?_, geom_formula k d, ?_⟩
  · intro s hr hne
    exact progress (fanout k d) s (inv_reachable _ n _ _ s hr) (live_reachable _ n _ _ s hn hr)
      hne
  · intro ls s hns hrun
    have h1 := run_length_le (fanout_rank k d) (fanout_ranked k d) ls _ s hi0 hns hrun
    rw [fanout_init_potential] at h1
    refine ⟨by omega, ?_⟩
    obtain ⟨ls1, s1, _, h2, h3⟩ := completes_from (fanout_rank k d) (fanout_ranked k d) _ s
      (le_refl _) (inv_run _ ls _ s hi0 hrun) (live_run _ ls _ s hi0 hl0 hrun)
    exact ⟨ls1, s1, run_append _ ls ls1 _ s s1 hrun h2, h3⟩
  · obtain ⟨ls, s, _, h2, h3⟩ := completes_from (fanout_rank k d) (fanout_ranked k d) _ _
      (le_refl _) hi0 hl0
    exact ⟨ls, s, h2, h3⟩
  · intro s hr hret
    exact fanout_invoked_count k d n s hr hret
  · intro hk
    rw [hk]
    exact geom_one d

/-- Witness for C8: `k = 3`, `d = 5` on four workers; the run completes and
every completed run has executed 364 actions. -/
theorem fanout_completes_witness :
    1 ≤ 4 ∧
    (∃ ls s, run (fanout 3 5) ls (init 4 [fanout_task 0] ()) = some s ∧
      s.main = MainPc.returned) ∧
    (∀ s, Reachable (fanout 3 5) 4 [fanout_task 0] () s → s.main = MainPc.returned →
      s.invoked.length = 364) ∧
    ((3 : Nat) ≠ 1 → (geom 3 5 : Int) = ((3 : Int) ^ (5 + 1) - 1) / ((3 : Int) - 1)) :=
  ⟨by decide, (fanout_completes 3 5 4 (by decide)).2.2.1,
    (fanout_completes 3 5 4 (by decide)).2.2.2.1,
    (fanout_completes 3 5 4 (by decide)).2.2.2.2.1⟩

/-- C8 as stated fails at `k = 1`: with `k = 1`, `d = 1` on one worker the run
of `unary_schedule` completes and has executed two actions, while the
divisor `k - 1` is zero and `(k^(d+1) - 1) / (k - 1)` evaluates to zero. -/
theorem fanout_formula_fails_at_one :
    run (fanout 1 1) unary_schedule (init 1 [fanout_task 0] ()) = some unary_final ∧
    unary_final.main = MainPc.returned ∧
    unary_final.invoked.length = 2 ∧
    ((1 : Nat) : Int) - 1 = 0 ∧
    (unary_final.invoked.length : Int)
      ≠ (((1 : Nat) : Int) ^ (1 + 1) - 1) / (((1 : Nat) : Int) - 1) := by
  refine ⟨rfl, rfl, rfl, by decide, ?_⟩
  have h : unary_final.invoked.length = 2 := rfl
  rw [h]
  decide

/-! ## The traversal: marks and the steps of `neighbour` -/

theorem mark_at_def (vis : List Mark) (v : Nat) :
    mark_at vis v = (vis[v]?).getD Mark.DONE := by
  simp [mark_at, List.getD_eq_getElem?_getD]

theorem mark_at_lt (vis : List Mark) (v : Nat) (h : mark_at vis v ≠ Mark.DONE) :
    v < vis.length := by
  by_contra hc
  apply h
  rw [mark_at_def, List.getElem?_eq_none (Nat.le_of_not_lt hc)]
  rfl

theorem mark_at_get (vis : List Mark) (v : Nat) (m : Mark) (h : vis[v]? = some m) :
    mark_at vis v = m := by
  rw [mark_at_def, h]
  rfl

theorem get_of_mark_at (vis : List Mark) (v : Nat) (m : Mark) (h : mark_at vis v = m)
    (hm : m ≠ Mark.DONE) : vis[v]? = some m := by
  have hlt := mark_at_lt vis v (by rw [h]; exact hm)
  rw [mark_at_def, List.getElem?_eq_getElem hlt] at h
  rw [List.getElem?_eq_getElem hlt]
  exact congrArg some h

theorem mark_at_set_self (vis : List Mark) (v : Nat) (m : Mark) (h : v < vis.length) :
    mark_at (vis.set v m) v = m := by
  rw [mark_at_def]
  simp [List.getElem?_set_self, h]

theorem mark_at_set_ne (vis : List Mark) (u v : Nat) (m : Mark) (h : v ≠ u) :
    mark_at (vis.set v m) u = mark_at vis u := by
  rw [mark_at_def, mark_at_def, List.getElem?_set_ne h]

theorem has_mark_set_self (vis : List Mark) (v : Nat) (m m1 : Mark) (h : v < vis.length) :
    has_mark (vis.set v m) v m1 = if m = m1 then 1 else 0 := by
  simp [has_mark, List.getElem?_set_self, h]

theorem has_mark_set_ne (vis : List Mark) (u v : Nat) (m m1 : Mark) (h : v ≠ u) :
    has_mark (vis.set v m) u m1 = has_mark vis u m1 := by
  simp [has_mark, List.getElem?_set_ne h]

theorem has_mark_of_mark_at (vis : List Mark) (v : Nat) (m : Mark) (h : mark_at vis v = m)
    (hm : m ≠ Mark.DONE) (m1 : Mark) : has_mark vis v m1 = if m = m1 then 1 else 0 := by
  simp [has_mark, get_of_mark_at vis v m h hm]

theorem next_enqueue_inv (nodes : List os_node_t) (l l1 : NeighbourPc) (g g1 : GraphShared)
    (u : os_task_t) (h : (parallel_graph nodes).next l g = ActOut.enqueue u l1 g1) :
    ∃ v j nb, l = NeighbourPc.loop v j ∧ (node_at nodes v).neighbours[j]? = some nb ∧
      mark_at g.visited nb = Mark.NOT_VISITED ∧ u = neighbour_task nb ∧
      l1 = NeighbourPc.loop v (j + 1) ∧ g1 = g := by
  cases l with
  | entry v =>
    simp only [parallel_graph] at h
    split at h <;> cases h
  | loop v j =>
    simp only [parallel_graph] at h
    cases hn : (node_at nodes v).neighbours[j]? with
    | none => simp [hn] at h
    | some nb =>
      simp only [hn] at h
      by_cases hm : mark_at g.visited nb = Mark.NOT_VISITED
      · simp only [hm, if_true, ActOut.enqueue.injEq] at h
        exact ⟨v, j, nb, rfl, hn, hm, h.1.symm, h.2.1.symm, h.2.2.symm⟩
      · simp [hm] at h
  | mark_done v =>
    simp only [parallel_graph] at h
    cases h

theorem next_internal_inv (nodes : List os_node_t) (l l1 : NeighbourPc) (g g1 : GraphShared)
    (h : (parallel_graph nodes).next l g = ActOut.internal l1 g1) :
    (∃ v, l = NeighbourPc.entry v ∧ mark_at g.visited v = Mark.NOT_VISITED ∧
      l1 = NeighbourPc.loop v 0 ∧
      g1 = { g with visited := g.visited.set v Mark.PROCESSING }) ∨
    (∃ v j nb, l = NeighbourPc.loop v j ∧ (node_at nodes v).neighbours[j]? = some nb ∧
      mark_at g.visited nb ≠ Mark.NOT_VISITED ∧ l1 = NeighbourPc.loop v (j + 1) ∧ g1 = g) ∨
    (∃ v j, l = NeighbourPc.loop v j ∧ (node_at nodes v).neighbours[j]? = none ∧
      l1 = NeighbourPc.mark_done v ∧
      g1 = { g with sum := wrap32 (g.sum + (node_at nodes v).info), log := g.log ++ [v] }) := by
  cases l with
  | entry v =>
    simp only [parallel_graph] at h
    by_cases hm : mark_at g.visited v = Mark.NOT_VISITED
    · simp only [hm, if_true, ActOut.internal.injEq] at h
      exact Or.inl ⟨v, rfl, hm, h.1.symm, h.2.symm⟩
    · simp [hm] at h
  | loop v j =>
    simp only [parallel_graph] at h
    cases hn : (node_at nodes v).neighbours[j]? with
    | none =>
      simp only [hn, ActOut.internal.injEq] at h
      exact Or.inr (Or.inr ⟨v, j, rfl, hn, h.1.symm, h.2.symm⟩)
    | some nb =>
      simp only [hn] at h
      by_cases hm : mark_at g.visited nb = Mark.NOT_VISITED
      · simp [hm] at h
      · simp only [hm, if_false, ActOut.internal.injEq] at h
        exact Or.inr (Or.inl ⟨v, j, nb, rfl, hn, hm, h.1.symm, h.2.symm⟩)
  | mark_done v =>
    simp only [parallel_graph] at h
    cases h

theorem next_ret_inv (nodes : List os_node_t) (l : NeighbourPc) (g g1 : GraphShared)
    (h : (parallel_graph nodes).next l g = ActOut.ret g1) :
    (∃ v, l = NeighbourPc.entry v ∧ mark_at g.visited v ≠ Mark.NOT_VISITED ∧ g1 = g) ∨
    (∃ v, l = NeighbourPc.mark_done v ∧
      g1 = { g with visited := g.visited.set v Mark.DONE }) := by
  cases l with
  | entry v =>
    simp only [parallel_graph] at h
    by_cases hm : mark_at g.visited v = Mark.NOT_VISITED
    · simp [hm] at h
    · simp only [hm, if_false, ActOut.ret.injEq] at h
      exact Or.inl ⟨v, rfl, hm, h.symm⟩
  | loop v j =>
    simp only [parallel_graph] at h
    cases hn : (node_at nodes v).neighbours[j]? with
    | none => simp [hn] at h
    | some nb =>
      simp only [hn] at h
      split at h <;> cases h
  | mark_done v =>
    simp only [parallel_graph, ActOut.ret.injEq] at h
    exact Or.inr ⟨v, rfl, h.symm⟩

theorem task_count_snoc (v : Nat) (q : List os_task_t) (t : os_task_t) :
    task_count v (q ++ [t]) = task_count v q + (if t.argument = v then 1 else 0) := by
  simp [task_count]

theorem task_count_cons (v : Nat) (q : List os_task_t) (t : os_task_t) :
    task_count v (t :: q) = (if t.argument = v then 1 else 0) + task_count v q := by
  simp [task_count]

theorem reach_trans (nodes : List os_node_t) (r u v : Nat) (h1 : Reach nodes r u)
    (h2 : Reach nodes u v) : Reach nodes r v := by
  induction h2 with
  | root => exact h1
  | edge a b _ hab ih => exact Reach.edge a b ih hab

theorem mem_of_get {α : Type} (l : List α) (i : Nat) (a : α) (h : l[i]? = some a) : a ∈ l := by
  rw [List.getElem?_eq_some_iff] at h
  obtain ⟨hlt, e⟩ := h
  rw [← e]
  exact List.getElem_mem hlt

theorem covered_of (s s1 : State NeighbourPc GraphShared) (u : Nat)
    (hmark : mark_at s.shared.visited u ≠ Mark.NOT_VISITED →
      mark_at s1.shared.visited u ≠ Mark.NOT_VISITED)
    (hpend : pend u s ≤ pend u s1 ∨ mark_at s1.shared.visited u ≠ Mark.NOT_VISITED)
    (hc : Covered s u) : Covered s1 u := by
  rcases hc with h | h
  · exact Or.inl (hmark h)
  · rcases hpend with h2 | h2
    · exact Or.inr (lt_of_lt_of_le h h2)
    · exact Or.inl h2

theorem mark_set_keeps (vis : List Mark) (u v : Nat) (m : Mark) (hm : m ≠ Mark.NOT_VISITED)
    (h : mark_at vis u ≠ Mark.NOT_VISITED) : mark_at (vis.set v m) u ≠ Mark.NOT_VISITED := by
  by_cases e : v = u
  · subst e
    by_cases hlt : v < vis.length
    · rw [mark_at_set_self vis v m hlt]
      exact hm
    · intro hc
      have := mark_at_lt (vis.set v m) v (by rw [hc]; simp)
      rw [List.length_set] at this
      exact hlt this
  · rw [mark_at_set_ne vis u v m e]
    exact h

theorem todo_count_wake_main (v : Nat) (m : MainPc) :
    todo_count v (wake_main m) = todo_count v m := by
  cases m <;> rfl

/-- A node that is taken care of stays taken care of. -/
theorem covered_step (nodes : List os_node_t) (lbl : Label) (s s1 : State NeighbourPc GraphShared)
    (h : Trans (parallel_graph nodes) lbl s s1) (u : Nat) (hc : Covered s u) :
    Covered s1 u := by
  cases h with
  | call_wfc _ _ hmain =>
    refine covered_of s _ u (fun h => h) (Or.inl ?_) hc
    simp only [pend, hmain, todo_count, task_count, List.map_nil, List.sum_nil]
    omega
  | submit _ _ t todo ws hmain hwake =>
    have k1 := enqueue_wake_wsum_eq (gpend u) rfl _ _ _ hwake
    refine covered_of s _ u (fun h => h) (Or.inl ?_) hc
    simp only [pend, hmain, todo_count, task_count_snoc, task_count_cons, k1]
    omega
  | wfc_stop _ _ hmain hq hs =>
    have k1 := wsum_wake_all_eq (gpend u) rfl s.workers
    refine covered_of s _ u (fun h => h) (Or.inl ?_) hc
    simp only [pend, hmain, todo_count, k1]
    omega
  | wfc_leave _ _ hmain hq hs =>
    have k1 := wsum_wake_all_eq (gpend u) rfl s.workers
    refine covered_of s _ u (fun h => h) (Or.inl ?_) hc
    simp only [pend, hmain, todo_count, k1]
    omega
  | wfc_wait _ _ hmain hq =>
    refine covered_of s _ u (fun h => h) (Or.inl ?_) hc
    simp only [pend, hmain, todo_count]
    omega
  | join_next _ _ i hmain hlt hw =>
    refine covered_of s _ u (fun h => h) (Or.inl ?_) hc
    simp only [pend, hmain, todo_count]
    omega
  | join_done _ _ i hmain hlt =>
    refine covered_of s _ u (fun h => h) (Or.inl ?_) hc
    simp only [pend, hmain, todo_count]
    omega
  | deq_task _ i _ t rest hw hq =>
    have e := wsum_set (gpend u) s.workers i _ (WorkerPc.dequeued t) hw
    refine covered_of s _ u (fun h => h) (Or.inl ?_) hc
    simp only [gpend] at e
    simp only [pend, hq, task_count_cons]
    omega
  | deq_null _ i _ hw hq hs =>
    have e := wsum_set (gpend u) s.workers i _ WorkerPc.exited hw
    refine covered_of s _ u (fun h => h) (Or.inl ?_) hc
    simp only [gpend] at e
    simp only [pend]
    omega
  | deq_wait _ i _ hw hq hs =>
    have e := wsum_set (gpend u) s.workers i _ WorkerPc.waiting hw
    refine covered_of s _ u (fun h => h) (Or.inl ?_) hc
    simp only [gpend] at e
    simp only [pend]
    omega
  | invoke _ i _ t hw =>
    have e := wsum_set (gpend u) s.workers i _
      (WorkerPc.running t (NeighbourPc.entry t.argument)) hw
    refine covered_of s _ u (fun h => h) (Or.inl ?_) hc
    simp only [gpend] at e
    simp only [pend, parallel_graph]
    omega
  | act_enqueue _ i _ t tu l l1 g1 ws hw hn hwake =>
    obtain ⟨v, j, nb, rfl, hnb, hm, rfl, rfl, rfl⟩ := next_enqueue_inv nodes _ _ _ _ _ hn
    have e := wsum_set (gpend u) s.workers i _
      (WorkerPc.running t (NeighbourPc.loop v (j + 1))) hw
    have k1 := enqueue_wake_wsum_eq (gpend u) rfl _ _ _ hwake
    refine covered_of s _ u (fun h => h) (Or.inl ?_) hc
    simp only [gpend] at e
    simp only [pend, task_count_snoc, k1]
    omega
  | act_internal _ i _ t l l1 g1 hw hn =>
    rcases next_internal_inv nodes _ _ _ _ hn with
      ⟨v, rfl, hm, rfl, rfl⟩ | ⟨v, j, nb, rfl, hnb, hm, rfl, rfl⟩ | ⟨v, j, rfl, hnb, rfl, rfl⟩
    · have e := wsum_set (gpend u) s.workers i _
        (WorkerPc.running t (NeighbourPc.loop v 0)) hw
      have hlt := mark_at_lt s.shared.visited v (by rw [hm]; simp)
      refine covered_of s _ u (mark_set_keeps _ u v _ (by simp)) ?_ hc
      by_cases e2 : v = u
      · right
        subst e2
        simp only [mark_at_set_self _ _ _ hlt]
        simp
      · left
        simp only [gpend, e2, if_false] at e
        simp only [pend]
        omega
    · have e := wsum_set (gpend u) s.workers i _
        (WorkerPc.running t (NeighbourPc.loop v (j + 1))) hw
      refine covered_of s _ u (fun h => h) (Or.inl ?_) hc
      simp only [gpend] at e
      simp only [pend]
      omega
    · have e := wsum_set (gpend u) s.workers i _
        (WorkerPc.running t (NeighbourPc.mark_done v)) hw
      refine covered_of s _ u (fun h => h) (Or.inl ?_) hc
      simp only [gpend] at e
      simp only [pend]
      omega
  | act_ret _ i _ t l g1 hw hn =>
    rcases next_ret_inv nodes _ _ _ hn with ⟨v, rfl, hm, rfl⟩ | ⟨v, rfl, rfl⟩
    · have e := wsum_set (gpend u) s.workers i _ (WorkerPc.finished t) hw
      refine covered_of s _ u (fun h => h) ?_ hc
      by_cases e2 : v = u
      · right
        subst e2
        exact hm
      · left
        simp only [gpend, e2, if_false] at e
        simp only [pend]
        omega
    · have e := wsum_set (gpend u) s.workers i _ (WorkerPc.finished t) hw
      refine covered_of s _ u (mark_set_keeps _ u v _ (by simp)) (Or.inl ?_) hc
      simp only [gpend] at e
      simp only [pend]
      omega
  | finish _ i _ t hw =>
    have e := wsum_set (gpend u) s.workers i _ WorkerPc.ready hw
    refine covered_of s _ u (fun h => h) (Or.inl ?_) hc
    simp only [gpend] at e
    simp only [pend, todo_count_wake_main]
    omega
  | spurious_worker _ i hw =>
    have e := wsum_set (gpend u) s.workers i _ WorkerPc.ready hw
    refine covered_of s _ u (fun h => h) (Or.inl ?_) hc
    simp only [gpend] at e
    simp only [pend]
    omega
  | spurious_main _ hmain =>
    refine covered_of s _ u (fun h => h) (Or.inl ?_) hc
    simp only [pend, hmain, todo_count]
    omega

theorem wok_mono (nodes : List os_node_t) (s s1 : State NeighbourPc GraphShared)
    (hcov : ∀ u, Covered s u → Covered s1 u) (p : WorkerPc NeighbourPc) (h : WOk nodes s p) :
    WOk nodes s1 p := by
  cases p with
  | running t l =>
    cases l with
    | entry v => exact h
    | loop v j => exact ⟨h.1, fun m u hm hu => hcov u (h.2 m u hm hu)⟩
    | mark_done v => exact ⟨h.1, fun u hu => hcov u (h.2 u hu)⟩
  | ready => trivial
  | waiting => trivial
  | dequeued t => exact h
  | finished t => trivial
  | exited => trivial

theorem forall_set {L : Type} (P : WorkerPc L → Prop) (ws : List (WorkerPc L)) (i : Nat)
    (q : WorkerPc L) (h : ∀ (j : Nat) (p : WorkerPc L), ws[j]? = some p → P p) (hq : P q) :
    ∀ (j : Nat) (p : WorkerPc L), (ws.set i q)[j]? = some p → P p := by
  intro j p hp
  by_cases e : i = j
  · subst e
    by_cases hlt : i < ws.length
    · rw [List.getElem?_set_self hlt] at hp
      cases hp
      exact hq
    · rw [List.getElem?_eq_none (by rw [List.length_set]; omega)] at hp
      cases hp
  · rw [List.getElem?_set_ne e] at hp
    exact h j p hp

theorem forall_enqueue_wake {L : Type} (P : WorkerPc L → Prop) (q : List os_task_t)
    (ws ws1 : List (WorkerPc L)) (hw : EnqueueWake q ws ws1)
    (h : ∀ (j : Nat) (p : WorkerPc L), ws[j]? = some p → P p) (hr : P WorkerPc.ready) :
    ∀ (j : Nat) (p : WorkerPc L), ws1[j]? = some p → P p := by
  rcases hw with ⟨_, ⟨_, e⟩ | ⟨w, _, e⟩⟩ | ⟨_, e⟩
  · rw [e]; exact h
  · rw [e]; exact forall_set P ws w _ h hr
  · rw [e]; exact h

theorem forall_wake_all {L : Type} (P : WorkerPc L → Prop) (ws : List (WorkerPc L))
    (h : ∀ (j : Nat) (p : WorkerPc L), ws[j]? = some p → P p) (hr : P WorkerPc.ready) :
    ∀ (j : Nat) (p : WorkerPc L), (wake_all ws)[j]? = some p → P p := by
  intro j p hp
  rw [wake_all_get] at hp
  cases hj : ws[j]? with
  | none => simp [hj] at hp
  | some p0 =>
    simp only [hj, Option.map_some', Option.some.injEq] at hp
    have h0 := h j p0 hj
    cases p0 <;> simp only [WorkerPc.woken] at hp <;> rw [← hp] <;> first | exact h0 | exact hr

/-! ## The traversal: invariants -/

theorem wrap32_add (a b : Int) : wrap32 (wrap32 a + b) = wrap32 (a + b) := by
  unfold wrap32
  omega

theorem wrap32_add_right (a b : Int) : wrap32 (a + wrap32 b) = wrap32 (a + b) := by
  unfold wrap32
  omega

theorem info_sum_append (nodes : List os_node_t) (a b : List Nat) :
    info_sum nodes (a ++ b) = info_sum nodes a + info_sum nodes b := by
  simp [info_sum]

theorem info_sum_single (nodes : List os_node_t) (v : Nat) :
    info_sum nodes [v] = (node_at nodes v).info := by
  simp [info_sum]

theorem count_snoc_nat (l : List Nat) (a v : Nat) :
    (l ++ [a]).count v = l.count v + (if a = v then 1 else 0) := by
  rw [List.count_append, List.count_singleton]
  simp only [beq_iff_eq]

theorem wake_main_submitting (m : MainPc) (todo : List os_task_t)
    (h : wake_main m = MainPc.submitting todo) : m = MainPc.submitting todo := by
  cases m <;> simp [wake_main] at h ⊢
  exact h

theorem has_mark_replicate (n v : Nat) (m : Mark) (hm : m ≠ Mark.NOT_VISITED) :
    has_mark (List.replicate n Mark.NOT_VISITED) v m = 0 := by
  unfold has_mark
  rw [List.getElem?_replicate]
  split
  · rw [if_neg]
    intro h
    exact hm (Option.some.inj h).symm
  · simp

theorem ginv_init (nodes : List os_node_t) (n : Nat) :
    GInv nodes (init n [neighbour_task 0] (graph_init nodes)) := by
  have hz : ∀ f : WorkerPc NeighbourPc → Nat, f WorkerPc.ready = 0 →
      wsum f (List.replicate n WorkerPc.ready) = 0 := by
    intro f hf
    rw [wsum_replicate_ready, hf, Nat.mul_zero]
  constructor
  · simp [init, graph_init]
  · intro v
    simp only [init, graph_init, hz (gproc v) rfl, hz (gsummed v) rfl]
    rw [has_mark_replicate _ _ _ (by simp)]
  · intro v
    simp only [init, graph_init, hz (gsummed v) rfl, List.count_nil]
    rw [has_mark_replicate _ _ _ (by simp)]
  · simp [init, graph_init, info_sum, wrap32]
  · intro t ht
    simp [init, created_pool] at ht
  · intro todo h t ht
    simp only [init, MainPc.submitting.injEq] at h
    rw [← h] at ht
    simp only [List.mem_singleton] at ht
    rw [ht]
    exact Reach.root
  · intro v hv
    simp [init, graph_init] at hv
  · intro i p hp
    simp only [init] at hp
    rw [List.getElem?_replicate] at hp
    split at hp
    · cases hp; trivial
    · cases hp
  · intro v hv
    simp only [init, graph_init] at hv
    rw [List.getElem?_replicate] at hv
    split at hv <;> cases hv
  · right
    simp [pend, init, todo_count, task_count, neighbour_task]

theorem ginv_step_main (nodes : List os_node_t) (w : Nat) (s s1 : State NeighbourPc GraphShared)
    (hg : GInv nodes s) (h : Trans (parallel_graph nodes) (Label.main w) s s1) :
    GInv nodes s1 := by
  have hcov := fun u => covered_step nodes _ s s1 h u
  obtain ⟨hlen, hmk, hlg, hsum, hrq, hrt, hrl, hwk, hcd, hcr⟩ := hg
  have hwk1 : ∀ (j : Nat) (p : WorkerPc NeighbourPc), s.workers[j]? = some p → WOk nodes s1 p :=
    fun j p hp => wok_mono nodes s s1 hcov p (hwk j p hp)
  cases h with
  | call_wfc _ _ hmain =>
    exact ⟨hlen, hmk, hlg, hsum, hrq, fun todo h => (by cases h), hrl, hwk1,
      fun v hv u hu => hcov u (hcd v hv u hu), hcov 0 hcr⟩
  | submit _ _ t todo ws hmain hwake =>
    refine ⟨hlen, ?_, ?_, hsum, ?_, ?_, hrl, ?_, fun v hv u hu => hcov u (hcd v hv u hu),
      hcov 0 hcr⟩
    · intro v
      have k1 := enqueue_wake_wsum_eq (gproc v) rfl _ _ _ hwake
      have k2 := enqueue_wake_wsum_eq (gsummed v) rfl _ _ _ hwake
      simp only [k1, k2]
      exact hmk v
    · intro v
      have k2 := enqueue_wake_wsum_eq (gsummed v) rfl _ _ _ hwake
      simp only [k2]
      exact hlg v
    · intro t1 ht1
      rcases List.mem_append.mp ht1 with h1 | h1
      · exact hrq t1 h1
      · rw [List.mem_singleton] at h1
        rw [h1]
        exact hrt _ hmain t (List.mem_cons_self _ _)
    · intro todo1 h1 t1 ht1
      simp only [MainPc.submitting.injEq] at h1
      rw [← h1] at ht1
      exact hrt _ hmain t1 (List.mem_cons_of_mem _ ht1)
    · exact forall_enqueue_wake _ _ _ _ hwake hwk1 trivial
  | wfc_stop _ _ hmain hq hs =>
    refine ⟨hlen, ?_, ?_, hsum, hrq, fun todo h => (by cases h), hrl, ?_,
      fun v hv u hu => hcov u (hcd v hv u hu), hcov 0 hcr⟩
    · intro v
      have k1 := wsum_wake_all_eq (gproc v) rfl s.workers
      have k2 := wsum_wake_all_eq (gsummed v) rfl s.workers
      simp only [k1, k2]
      exact hmk v
    · intro v
      have k2 := wsum_wake_all_eq (gsummed v) rfl s.workers
      simp only [k2]
      exact hlg v
    · exact forall_wake_all _ _ hwk1 trivial
  | wfc_leave _ _ hmain hq hs =>
    refine ⟨hlen, ?_, ?_, hsum, hrq, fun todo h => (by cases h), hrl, ?_,
      fun v hv u hu => hcov u (hcd v hv u hu), hcov 0 hcr⟩
    · intro v
      have k1 := wsum_wake_all_eq (gproc v) rfl s.workers
      have k2 := wsum_wake_all_eq (gsummed v) rfl s.workers
      simp only [k1, k2]
      exact hmk v
    · intro v
      have k2 := wsum_wake_all_eq (gsummed v) rfl s.workers
      simp only [k2]
      exact hlg v
    · exact forall_wake_all _ _ hwk1 trivial
  | wfc_wait _ _ hmain hq =>
    exact ⟨hlen, hmk, hlg, hsum, hrq, fun todo h => (by cases h), hrl, hwk1,
      fun v hv u hu => hcov u (hcd v hv u hu), hcov 0 hcr⟩
  | join_next _ _ i hmain hlt hw =>
    exact ⟨hlen, hmk, hlg, hsum, hrq, fun todo h => (by cases h), hrl, hwk1,
      fun v hv u hu => hcov u (hcd v hv u hu), hcov 0 hcr⟩
  | join_done _ _ i hmain hlt =>
    exact ⟨hlen, hmk, hlg, hsum, hrq, fun todo h => (by cases h), hrl, hwk1,
      fun v hv u hu => hcov u (hcd v hv u hu), hcov 0 hcr⟩

/-- Preservation for the steps of a worker that do not touch the shared
data and move the worker between places outside the loop of an action. -/
theorem ginv_move (nodes : List os_node_t) (s s1 : State NeighbourPc GraphShared)
    (hg : GInv nodes s) (hcov : ∀ u, Covered s u → Covered s1 u)
    (i : Nat) (p q : WorkerPc NeighbourPc) (hw : s.workers[i]? = some p)
    (hws : s1.workers = s.workers.set i q) (hsh : s1.shared = s.shared)
    (hproc : ∀ v, gproc v q = gproc v p) (hsm : ∀ v, gsummed v q = gsummed v p)
    (hq : WOk nodes s1 q)
    (hrq : ∀ t, t ∈ s1.tp.head → Reach nodes 0 t.argument)
    (hrt : ∀ todo, s1.main = MainPc.submitting todo → ∀ t, t ∈ todo → Reach nodes 0 t.argument) :
    GInv nodes s1 := by
  refine ⟨?_, ?_, ?_, ?_, hrq, hrt, ?_, ?_, ?_, hcov 0 hg.cover_root⟩
  · rw [hsh]; exact hg.len
  · intro v
    have e1 := wsum_set (gproc v) s.workers i p q hw
    have e2 := wsum_set (gsummed v) s.workers i p q hw
    have := hg.marks v
    rw [hws, hsh]
    rw [hproc v] at e1
    rw [hsm v] at e2
    omega
  · intro v
    have e2 := wsum_set (gsummed v) s.workers i p q hw
    have := hg.logged v
    rw [hws, hsh]
    rw [hsm v] at e2
    omega
  · rw [hsh]; exact hg.sum_eq
  · rw [hsh]; exact hg.reach_log
  · rw [hws]
    exact forall_set _ _ _ _ (fun j p hp => wok_mono nodes s s1 hcov p (hg.workers_ok j p hp)) hq
  · intro v hv u hu
    rw [hsh] at hv
    exact hcov u (hg.cover_done v hv u hu)

theorem mem_index_lt {α : Type} (l : List α) (a : α) (j : Nat) (ha : a ∈ l)
    (hj : l[j]? = none) : ∃ m, m < j ∧ l[m]? = some a := by
  obtain ⟨m, hm⟩ := List.mem_iff_getElem?.mp ha
  refine ⟨m, ?_, hm⟩
  by_contra hc
  have h1 : l.length ≤ j := List.getElem?_eq_none_iff.mp hj
  have h2 : m < l.length := by
    by_contra hc2
    rw [List.getElem?_eq_none (Nat.le_of_not_lt hc2)] at hm
    cases hm
  omega

theorem ginv_step_worker (nodes : List os_node_t) (i w : Nat)
    (s s1 : State NeighbourPc GraphShared) (hg : GInv nodes s)
    (h : Trans (parallel_graph nodes) (Label.worker i w) s s1) : GInv nodes s1 := by
  have hcov := fun u => covered_step nodes _ s s1 h u
  cases h with
  | deq_task _ _ _ t rest hw hq =>
    refine ginv_move nodes s _ hg hcov i _ (WorkerPc.dequeued t) hw rfl rfl (fun _ => rfl)
      (fun _ => rfl) ?_ ?_ hg.reach_todo
    · exact hg.reach_queue t (by rw [hq]; exact List.mem_cons_self _ _)
    · intro t1 ht1
      exact hg.reach_queue t1 (by rw [hq]; exact List.mem_cons_of_mem _ ht1)
  | deq_null _ _ _ hw hq hs =>
    exact ginv_move nodes s _ hg hcov i _ WorkerPc.exited hw rfl rfl (fun _ => rfl)
      (fun _ => rfl) trivial hg.reach_queue hg.reach_todo
  | deq_wait _ _ _ hw hq hs =>
    exact ginv_move nodes s _ hg hcov i _ WorkerPc.waiting hw rfl rfl (fun _ => rfl)
      (fun _ => rfl) trivial hg.reach_queue hg.reach_todo
  | invoke _ _ _ t hw =>
    exact ginv_move nodes s _ hg hcov i _ (WorkerPc.running t (NeighbourPc.entry t.argument))
      hw rfl rfl (fun _ => rfl) (fun _ => rfl) (hg.workers_ok i _ hw) hg.reach_queue
      hg.reach_todo
  | act_enqueue _ _ _ t tu l l1 g1 ws hw hn hwake =>
    obtain ⟨v, j, nb, rfl, hnb, hm, rfl, rfl, rfl⟩ := next_enqueue_inv nodes _ _ _ _ _ hn
    have hold := hg.workers_ok i _ hw
    have hreach : Reach nodes 0 nb := Reach.edge v nb hold.1 (mem_of_get _ _ _ hnb)
    refine ⟨hg.len, ?_, ?_, hg.sum_eq, ?_, hg.reach_todo, hg.reach_log, ?_,
      fun x hx u hu => hcov u (hg.cover_done x hx u hu), hcov 0 hg.cover_root⟩
    · intro u
      have e1 := wsum_set (gproc u) s.workers i _
        (WorkerPc.running t (NeighbourPc.loop v (j + 1))) hw
      have e2 := wsum_set (gsummed u) s.workers i _
        (WorkerPc.running t (NeighbourPc.loop v (j + 1))) hw
      have k1 := enqueue_wake_wsum_eq (gproc u) rfl _ _ _ hwake
      have k2 := enqueue_wake_wsum_eq (gsummed u) rfl _ _ _ hwake
      have := hg.marks u
      simp only [gproc, gsummed] at e1 e2
      simp only [k1, k2]
      omega
    · intro u
      have e2 := wsum_set (gsummed u) s.workers i _
        (WorkerPc.running t (NeighbourPc.loop v (j + 1))) hw
      have k2 := enqueue_wake_wsum_eq (gsummed u) rfl _ _ _ hwake
      have := hg.logged u
      simp only [gsummed] at e2
      simp only [k2]
      omega
    · intro t1 ht1
      rcases List.mem_append.mp ht1 with h1 | h1
      · exact hg.reach_queue t1 h1
      · rw [List.mem_singleton] at h1
        rw [h1]
        exact hreach
    · refine forall_enqueue_wake _ _ _ _ hwake (forall_set _ _ _ _
        (fun k p hp => wok_mono nodes s _ hcov p (hg.workers_ok k p hp)) ?_) trivial
      refine ⟨hold.1, ?_⟩
      intro m u hmj hu
      by_cases e : m = j
      · subst e
        rw [hnb] at hu
        cases hu
        right
        simp only [pend, task_count_snoc, neighbour_task, if_true]
        omega
      · exact hcov u (hold.2 m u (by omega) hu)
  | act_internal _ _ _ t l l1 g1 hw hn =>
    rcases next_internal_inv nodes _ _ _ _ hn with
      ⟨v, rfl, hm, rfl, rfl⟩ | ⟨v, j, nb, rfl, hnb, hm, rfl, rfl⟩ | ⟨v, j, rfl, hnb, rfl, rfl⟩
    · have hold := hg.workers_ok i _ hw
      have hlt := mark_at_lt s.shared.visited v (by rw [hm]; simp)
      refine ⟨?_, ?_, ?_, hg.sum_eq, hg.reach_queue, hg.reach_todo, hg.reach_log, ?_, ?_,
        hcov 0 hg.cover_root⟩
      · simp only [List.length_set]
        exact hg.len
      · intro u
        have e1 := wsum_set (gproc u) s.workers i _
          (WorkerPc.running t (NeighbourPc.loop v 0)) hw
        have e2 := wsum_set (gsummed u) s.workers i _
          (WorkerPc.running t (NeighbourPc.loop v 0)) hw
        have := hg.marks u
        simp only [gproc, gsummed] at e1 e2
        by_cases e : v = u
        · subst e
          have k := has_mark_of_mark_at _ _ _ hm (by simp) Mark.PROCESSING
          simp only [has_mark_set_self _ _ _ _ hlt, if_true] at e1 ⊢
          simp at k
          omega
        · simp only [has_mark_set_ne _ _ _ _ _ e, e, if_false] at e1 ⊢
          omega
      · intro u
        have e2 := wsum_set (gsummed u) s.workers i _
          (WorkerPc.running t (NeighbourPc.loop v 0)) hw
        have := hg.logged u
        simp only [gsummed] at e2
        by_cases e : v = u
        · subst e
          have k := has_mark_of_mark_at _ _ _ hm (by simp) Mark.DONE
          simp only [has_mark_set_self _ _ _ _ hlt]
          simp at k ⊢
          omega
        · simp only [has_mark_set_ne _ _ _ _ _ e]
          omega
      · exact forall_set _ _ _ _
          (fun k p hp => wok_mono nodes s _ hcov p (hg.workers_ok k p hp))
          ⟨hold, fun m u hmj _ => absurd hmj (Nat.not_lt_zero m)⟩
      · intro x hx u hu
        have hx0 : s.shared.visited[x]? = some Mark.DONE := by
          by_cases e : v = x
          · subst e
            simp only [List.getElem?_set_self hlt] at hx
            cases hx
          · simpa only [List.getElem?_set_ne e] using hx
        exact hcov u (hg.cover_done x hx0 u hu)
    · have hold := hg.workers_ok i _ hw
      refine ginv_move nodes s _ hg hcov i _ (WorkerPc.running t (NeighbourPc.loop v (j + 1)))
        hw rfl rfl (fun _ => rfl) (fun _ => rfl) ?_ hg.reach_queue hg.reach_todo
      refine ⟨hold.1, ?_⟩
      intro m u hmj hu
      by_cases e : m = j
      · subst e
        rw [hnb] at hu
        cases hu
        exact Or.inl hm
      · exact hcov u (hold.2 m u (by omega) hu)
    · have hold := hg.workers_ok i _ hw
      refine ⟨hg.len, ?_, ?_, ?_, hg.reach_queue, hg.reach_todo, ?_, ?_,
        fun x hx u hu => hcov u (hg.cover_done x hx u hu), hcov 0 hg.cover_root⟩
      · intro u
        have e1 := wsum_set (gproc u) s.workers i _
          (WorkerPc.running t (NeighbourPc.mark_done v)) hw
        have e2 := wsum_set (gsummed u) s.workers i _
          (WorkerPc.running t (NeighbourPc.mark_done v)) hw
        have := hg.marks u
        simp only [gproc, gsummed] at e1 e2
        simp only
        omega
      · intro u
        have e2 := wsum_set (gsummed u) s.workers i _
          (WorkerPc.running t (NeighbourPc.mark_done v)) hw
        have := hg.logged u
        simp only [gsummed] at e2
        simp only [count_snoc_nat]
        omega
      · simp only [info_sum_append, info_sum_single]
        rw [hg.sum_eq, wrap32_add]
      · intro x hx
        rcases List.mem_append.mp hx with h1 | h1
        · exact hg.reach_log x h1
        · rw [List.mem_singleton] at h1
          rw [h1]
          exact hold.1
      · refine forall_set _ _ _ _
          (fun k p hp => wok_mono nodes s _ hcov p (hg.workers_ok k p hp)) ⟨hold.1, ?_⟩
        intro u hu
        obtain ⟨m, hmj, hmu⟩ := mem_index_lt _ u j hu hnb
        exact hcov u (hold.2 m u hmj hmu)
  | act_ret _ _ _ t l g1 hw hn =>
    rcases next_ret_inv nodes _ _ _ hn with ⟨v, rfl, hm, rfl⟩ | ⟨v, rfl, rfl⟩
    · exact ginv_move nodes s _ hg hcov i _ (WorkerPc.finished t) hw rfl rfl (fun _ => rfl)
        (fun _ => rfl) trivial hg.reach_queue hg.reach_todo
    · have hold := hg.workers_ok i _ hw
      have hb := wsum_get_le (gsummed v) s.workers i _ hw
      have hmv := hg.marks v
      simp only [gsummed, if_true] at hb
      have hpr : s.shared.visited[v]? = some Mark.PROCESSING := by
        by_contra hc
        simp only [has_mark, hc, if_false] at hmv
        omega
      have hlt : v < s.shared.visited.length := by
        by_contra hc
        rw [List.getElem?_eq_none (Nat.le_of_not_lt hc)] at hpr
        cases hpr
      refine ⟨?_, ?_, ?_, hg.sum_eq, hg.reach_queue, hg.reach_todo, hg.reach_log, ?_, ?_,
        hcov 0 hg.cover_root⟩
      · simp only [List.length_set]
        exact hg.len
      · intro u
        have e1 := wsum_set (gproc u) s.workers i _ (WorkerPc.finished t) hw
        have e2 := wsum_set (gsummed u) s.workers i _ (WorkerPc.finished t) hw
        have := hg.marks u
        simp only [gproc, gsummed] at e1 e2
        by_cases e : v = u
        · subst e
          simp only [has_mark_set_self _ _ _ _ hlt, if_true] at e2 ⊢
          simp only [has_mark, hpr, if_true] at this
          simp
          omega
        · simp only [has_mark_set_ne _ _ _ _ _ e, e, if_false] at e2 ⊢
          omega
      · intro u
        have e2 := wsum_set (gsummed u) s.workers i _ (WorkerPc.finished t) hw
        have := hg.logged u
        simp only [gsummed] at e2
        by_cases e : v = u
        · subst e
          simp only [has_mark_set_self _ _ _ _ hlt, if_true] at e2 ⊢
          simp only [has_mark, hpr] at this
          simp at this
          omega
        · simp only [has_mark_set_ne _ _ _ _ _ e, e, if_false] at e2 ⊢
          omega
      · exact forall_set _ _ _ _
          (fun k p hp => wok_mono nodes s _ hcov p (hg.workers_ok k p hp)) trivial
      · intro x hx u hu
        by_cases e : v = x
        · subst e
          exact hcov u (hold.2 u hu)
        · have hx0 : s.shared.visited[x]? = some Mark.DONE := by
            simpa only [List.getElem?_set_ne e] using hx
          exact hcov u (hg.cover_done x hx0 u hu)
  | finish _ _ _ t hw =>
    refine ginv_move nodes s _ hg hcov i _ WorkerPc.ready hw rfl rfl (fun _ => rfl)
      (fun _ => rfl) trivial hg.reach_queue ?_
    intro todo h1
    exact hg.reach_todo todo (wake_main_submitting _ _ h1)

theorem ginv_step (nodes : List os_node_t) (lbl : Label) (s s1 : State NeighbourPc GraphShared)
    (hg : GInv nodes s) (h : Trans (parallel_graph nodes) lbl s s1) : GInv nodes s1 := by
  cases lbl with
  | main w => exact ginv_step_main nodes w s s1 hg h
  | worker i w => exact ginv_step_worker nodes i w s s1 hg h
  | spurious_worker i =>
    have hcov := fun u => covered_step nodes _ s s1 h u
    cases h with
    | spurious_worker _ _ hw =>
      exact ginv_move nodes s _ hg hcov i _ WorkerPc.ready hw rfl rfl (fun _ => rfl)
        (fun _ => rfl) trivial hg.reach_queue hg.reach_todo
  | spurious_main =>
    have hcov := fun u => covered_step nodes _ s s1 h u
    obtain ⟨hlen, hmk, hlg, hsum, hrq, hrt, hrl, hwk, hcd, hcr⟩ := hg
    cases h with
    | spurious_main _ hmain =>
      exact ⟨hlen, hmk, hlg, hsum, hrq, fun todo h => (by cases h), hrl,
        fun j p hp => wok_mono nodes s _ hcov p (hwk j p hp),
        fun v hv u hu => hcov u (hcd v hv u hu), hcov 0 hcr⟩

theorem ginv_run (nodes : List os_node_t) (ls : List Label) :
    ∀ s s1 : State NeighbourPc GraphShared, Inv s → GInv nodes s →
      run (parallel_graph nodes) ls s = some s1 → GInv nodes s1 := by
  induction ls with
  | nil =>
    intro s s1 _ hg h
    simp only [run, Option.some.injEq] at h
    rw [← h]; exact hg
  | cons lbl ls ih =>
    intro s s1 hi hg h
    simp only [run] at h
    cases hs : step (parallel_graph nodes) lbl s with
    | none => simp [hs] at h
    | some s2 =>
      simp only [hs] at h
      have ht := step_sound _ lbl s s2 hi.mutex_free hs
      exact ih s2 s1 (inv_step _ lbl s s2 hi ht) (ginv_step nodes lbl s s2 hg ht) h

/-! ## The traversal: what holds at the end -/

theorem valid_neighbours (nodes : List os_node_t) (hv : valid_graph nodes = true) (u v : Nat)
    (h : v ∈ (node_at nodes u).neighbours) : v < nodes.length := by
  by_cases hlt : u < nodes.length
  · have e : node_at nodes u = nodes[u] := by
      simp [node_at, List.getD_eq_getElem?_getD, List.getElem?_eq_getElem hlt]
    rw [e] at h
    simp only [valid_graph, List.all_eq_true, decide_eq_true_eq] at hv
    exact hv _ (List.getElem_mem hlt) v h
  · have e : node_at nodes u = { info := 0, neighbours := [] } := by
      simp [node_at, List.getD_eq_getElem?_getD, List.getElem?_eq_none (Nat.le_of_not_lt hlt)]
    rw [e] at h
    simp at h

theorem reach_lt (nodes : List os_node_t) (hv : valid_graph nodes = true)
    (h0 : 0 < nodes.length) (v : Nat) (h : Reach nodes 0 v) : v < nodes.length := by
  cases h with
  | root => exact h0
  | edge u _ _ huv => exact valid_neighbours nodes hv u v huv

theorem has_mark_le_one (vis : List Mark) (v : Nat) (m : Mark) : has_mark vis v m ≤ 1 := by
  unfold has_mark
  split <;> omega

/-- At the return of `wait_for_completion` the nodes whose value was added
are exactly the nodes reachable from node 0, each added once, all marked
`DONE`, and `sum` is their wrapped sum. -/
theorem parallel_final (nodes : List os_node_t) (hv : valid_graph nodes = true)
    (h0 : 0 < nodes.length) (s : State NeighbourPc GraphShared) (hi : Inv s)
    (hg : GInv nodes s) (hret : s.main = MainPc.returned) :
    s.shared.log.Nodup ∧ (∀ v, v ∈ s.shared.log ↔ Reach nodes 0 v) ∧
    s.shared.sum = wrap32 (info_sum nodes s.shared.log) ∧
    (∀ v, Reach nodes 0 v → s.shared.visited[v]? = some Mark.DONE) := by
  have hq := returned_queue_empty s hi hret
  have hpend : ∀ v, pend v s = 0 := by
    intro v
    have h1 := returned_wsum_zero s hi hret (gpend v) rfl
    simp only [pend, hret, todo_count, hq, task_count, List.map_nil, List.sum_nil, h1,
      Nat.add_zero]
  have hcovered : ∀ v, Covered s v → mark_at s.shared.visited v ≠ Mark.NOT_VISITED := by
    intro v hc
    rcases hc with h | h
    · exact h
    · rw [hpend v] at h
      exact absurd h (Nat.lt_irrefl 0)
  have hnoproc : ∀ v, has_mark s.shared.visited v Mark.PROCESSING = 0 := by
    intro v
    have h1 := returned_wsum_zero s hi hret (gproc v) rfl
    have h2 := returned_wsum_zero s hi hret (gsummed v) rfl
    have := hg.marks v
    omega
  have hdone : ∀ v, v < nodes.length → mark_at s.shared.visited v ≠ Mark.NOT_VISITED →
      s.shared.visited[v]? = some Mark.DONE := by
    intro v hlt hm
    have hlt2 : v < s.shared.visited.length := by rw [hg.len]; exact hlt
    have e : s.shared.visited[v]? = some s.shared.visited[v] := List.getElem?_eq_getElem hlt2
    have hm2 := mark_at_get _ _ _ e
    have hp := hnoproc v
    cases hmk : s.shared.visited[v] with
    | NOT_VISITED =>
      rw [hmk] at hm2
      exact absurd hm2 hm
    | PROCESSING =>
      rw [hmk] at e
      simp [has_mark, e] at hp
    | DONE =>
      rw [hmk] at e
      exact e
  have hclosed : ∀ v, Reach nodes 0 v → s.shared.visited[v]? = some Mark.DONE := by
    intro v hr
    induction hr with
    | root => exact hdone 0 h0 (hcovered 0 hg.cover_root)
    | edge a b _ hab ih =>
      exact hdone b (valid_neighbours nodes hv a b hab) (hcovered b (hg.cover_done a ih b hab))
  have hcount : ∀ v, s.shared.log.count v = has_mark s.shared.visited v Mark.DONE := by
    intro v
    have h2 := returned_wsum_zero s hi hret (gsummed v) rfl
    have := hg.logged v
    omega
  refine ⟨?_, ?_, hg.sum_eq, hclosed⟩
  · rw [List.nodup_iff_count_le_one]
    intro v
    rw [hcount v]
    exact has_mark_le_one _ _ _
  · intro v
    constructor
    · exact hg.reach_log v
    · intro hr
      have h1 := hclosed v hr
      have h2 := hcount v
      simp only [has_mark, h1, if_true] at h2
      exact List.count_pos_iff.mp (by omega)

/-! ## The recursive traversal of `serial.c` -/

theorem wrap32_idem (a : Int) : wrap32 (wrap32 a) = wrap32 a := by
  unfold wrap32
  omega

theorem unvisited_set_done (vis : List Mark) :
    ∀ (i : Nat), vis[i]? = some Mark.NOT_VISITED →
      unvisited (vis.set i Mark.DONE) + 1 = unvisited vis := by
  induction vis with
  | nil => intro i h; simp at h
  | cons a vis ih =>
    intro i h
    cases i with
    | zero =>
      simp only [List.getElem?_cons_zero, Option.some.injEq] at h
      subst h
      simp [unvisited]
      omega
    | succ i =>
      simp only [List.getElem?_cons_succ] at h
      have := ih i h
      simp only [unvisited, List.set_cons_succ, List.map_cons, List.sum_cons] at this ⊢
      omega

theorem serial_post_refl (nodes : List os_node_t) (roots : List Nat) (st : SerialState) :
    SerialPost nodes roots st st := by
  refine ⟨rfl, le_refl _, fun _ _ => rfl, fun _ => Or.inr (Or.inr rfl), [], ?_⟩
  refine ⟨by simp, List.nodup_nil, ?_, ?_, ?_, ?_, fun h => h, by simp⟩
  · intro v
    constructor
    · intro h; cases h
    · intro h
      rw [h.1] at h
      exact absurd h.2 (by simp)
  · intro v h; cases h
  · intro v h; cases h
  · simp [info_sum]

theorem serial_post_roots (nodes : List os_node_t) (r1 r2 : List Nat) (st st1 : SerialState)
    (hsub : ∀ r, r ∈ r1 → r ∈ r2) (h : SerialPost nodes r1 st st1) :
    SerialPost nodes r2 st st1 := by
  obtain ⟨h1, h2, h3, h4, new, k1, k2, k3, k4, k5, k6, k7, k8⟩ := h
  refine ⟨h1, h2, h3, h4, new, k1, k2, k3, ?_, k5, k6, k7, k8⟩
  intro v hv
  obtain ⟨r, hr, hreach⟩ := k4 v hv
  exact ⟨r, hsub r hr, hreach⟩

theorem serial_post_trans (nodes : List os_node_t) (r1 r2 : List Nat)
    (st sa sb : SerialState) (ha : SerialPost nodes r1 st sa) (hb : SerialPost nodes r2 sa sb) :
    SerialPost nodes (r1 ++ r2) st sb := by
  obtain ⟨a1, a2, a3, a4, na, p1, p2, p3, p4, p5, p6, p7, p8⟩ := ha
  obtain ⟨b1, b2, b3, b4, nb, q1, q2, q3, q4, q5, q6, q7, q8⟩ := hb
  refine ⟨by rw [b1, a1], le_trans b2 a2, ?_, ?_, na ++ nb, ?_⟩
  · intro v hv
    have h1 := a3 v hv
    rw [b3 v (by rw [h1]; exact hv), h1]
  · intro v
    rcases b4 v with h | h | h
    · exact Or.inl h
    · exact Or.inr (Or.inl h)
    · rw [h]
      exact a4 v
  refine ⟨by rw [q1, p1, List.append_assoc], ?_, ?_, ?_, ?_, ?_, ?_, ?_⟩
  · rw [List.nodup_append]
    refine ⟨p2, q2, ?_⟩
    intro v hva hvb
    have h1 := ((p3 v).mp hva).2
    have h2 := ((q3 v).mp hvb).1
    rw [h1] at h2
    cases h2
  · intro v
    rw [List.mem_append]
    constructor
    · intro h
      rcases h with h | h
      · obtain ⟨h1, h2⟩ := (p3 v).mp h
        exact ⟨h1, by rw [b3 v (by rw [h2]; simp), h2]⟩
      · obtain ⟨h1, h2⟩ := (q3 v).mp h
        refine ⟨?_, h2⟩
        by_contra hc
        have := a3 v hc
        rw [h1] at this
        exact hc this.symm
    · intro h
      obtain ⟨h1, h2⟩ := h
      rcases a4 v with k | k | k
      · exact Or.inr ((q3 v).mpr ⟨k, h2⟩)
      · exact Or.inl ((p3 v).mpr ⟨h1, k⟩)
      · exact Or.inr ((q3 v).mpr ⟨by rw [k, h1], h2⟩)
  · intro v hv
    rcases List.mem_append.mp hv with h | h
    · obtain ⟨r, hr, hreach⟩ := p4 v h
      exact ⟨r, List.mem_append_left _ hr, hreach⟩
    · obtain ⟨r, hr, hreach⟩ := q4 v h
      exact ⟨r, List.mem_append_right _ hr, hreach⟩
  · intro v hv u hu
    rcases List.mem_append.mp hv with h | h
    · have h1 := p5 v h u hu
      rw [b3 u (by rw [h1]; simp), h1]
    · exact q5 v h u hu
  · rw [q6, info_sum_append, ← wrap32_add, p6, wrap32_add, add_assoc]
  · intro h
    exact q7 (p7 h)
  · rw [q8, p8, List.length_append]
    omega

theorem serial_loop_spec (nodes : List os_node_t) (fuel : Nat)
    (call : Nat → SerialState → Option SerialState)
    (hcall : ∀ u st, mark_at st.visited u = Mark.NOT_VISITED →
      (∀ v, mark_at st.visited v ≠ Mark.PROCESSING) → unvisited st.visited < fuel →
      st.visited.length = nodes.length →
      ∃ st1, call u st = some st1 ∧ SerialPost nodes [u] st st1 ∧
        mark_at st1.visited u = Mark.DONE) :
    ∀ (us : List Nat) (st : SerialState), (∀ u, u ∈ us → u < nodes.length) →
      (∀ v, mark_at st.visited v ≠ Mark.PROCESSING) → unvisited st.visited < fuel →
      st.visited.length = nodes.length →
      ∃ st1, serial_loop call us st = some st1 ∧ SerialPost nodes us st st1 ∧
        ∀ u, u ∈ us → mark_at st1.visited u = Mark.DONE := by
  intro us
  induction us with
  | nil =>
    intro st _ _ _ _
    exact ⟨st, rfl, serial_post_refl nodes [] st, fun u hu => by cases hu⟩
  | cons u rest ih =>
    intro st hlt hclean hfuel hlen
    have hrest : ∀ x, x ∈ rest → x < nodes.length := fun x hx => hlt x (List.mem_cons_of_mem _ hx)
    by_cases hm : mark_at st.visited u = Mark.NOT_VISITED
    · obtain ⟨sa, hsa, hpa, hda⟩ := hcall u st hm hclean hfuel hlen
      have hclean_a : ∀ v, mark_at sa.visited v ≠ Mark.PROCESSING := by
        intro v
        rcases hpa.marks v with k | k | k
        · rw [k]; simp
        · rw [k]; simp
        · rw [k]; exact hclean v
      obtain ⟨sb, hsb, hpb, hdb⟩ := ih sa hrest hclean_a (lt_of_le_of_lt hpa.fewer hfuel)
        (by rw [hpa.len, hlen])
      refine ⟨sb, ?_, serial_post_trans nodes [u] rest st sa sb hpa hpb, ?_⟩
      · simp only [serial_loop, hm, if_true, hsa]
        exact hsb
      · intro x hx
        rcases List.mem_cons.mp hx with e | e
        · rw [e, hpb.mono u (by rw [hda]; simp), hda]
        · exact hdb x e
    · obtain ⟨sb, hsb, hpb, hdb⟩ := ih st hrest hclean hfuel hlen
      refine ⟨sb, ?_, serial_post_roots nodes rest (u :: rest) st sb
        (fun r hr => List.mem_cons_of_mem _ hr) hpb, ?_⟩
      · simp only [serial_loop, hm, if_false]
        exact hsb
      · intro x hx
        rcases List.mem_cons.mp hx with e | e
        · have hlt2 : u < st.visited.length := by rw [hlen]; exact hlt u (List.mem_cons_self _ _)
          have e2 : st.visited[u]? = some st.visited[u] := List.getElem?_eq_getElem hlt2
          have h1 : mark_at st.visited u = Mark.DONE := by
            have h2 := mark_at_get _ _ _ e2
            have h3 := hclean u
            cases hmk : st.visited[u] with
            | NOT_VISITED => rw [hmk] at h2; exact absurd h2 hm
            | PROCESSING => rw [hmk] at h2; exact absurd h2 h3
            | DONE => rw [hmk] at h2; exact h2
          rw [e, hpb.mono u (by rw [h1]; simp), h1]
        · exact hdb x e

theorem info_sum_cons (nodes : List os_node_t) (v : Nat) (vs : List Nat) :
    info_sum nodes (v :: vs) = (node_at nodes v).info + info_sum nodes vs := by
  simp [info_sum]

theorem mark_at_replicate (n v : Nat) (h : v < n) :
    mark_at (List.replicate n Mark.NOT_VISITED) v = Mark.NOT_VISITED := by
  rw [mark_at_def, List.getElem?_replicate, if_pos h]
  rfl

theorem mark_at_replicate_clean (n v : Nat) :
    mark_at (List.replicate n Mark.NOT_VISITED) v ≠ Mark.PROCESSING := by
  rw [mark_at_def, List.getElem?_replicate]
  split <;> simp

theorem unvisited_replicate (n : Nat) : unvisited (List.replicate n Mark.NOT_VISITED) = n := by
  induction n with
  | zero => rfl
  | succ n ih =>
    simp only [unvisited, List.replicate_succ, List.map_cons, List.sum_cons, if_true] at ih ⊢
    omega

/-- A call `process_node(idx)` of `serial.c` on an unvisited node returns,
given recursion depth beyond the number of unvisited nodes, and does what
`SerialPost` says. -/
theorem serial_process_node_spec (nodes : List os_node_t) (hv : valid_graph nodes = true) :
    ∀ (fuel idx : Nat) (st : SerialState), mark_at st.visited idx = Mark.NOT_VISITED →
      (∀ v, mark_at st.visited v ≠ Mark.PROCESSING) → unvisited st.visited < fuel →
      st.visited.length = nodes.length →
      ∃ st1, serial_process_node nodes fuel idx st = some st1 ∧
        SerialPost nodes [idx] st st1 ∧ mark_at st1.visited idx = Mark.DONE := by
  intro fuel
  induction fuel with
  | zero =>
    intro idx st _ _ hfuel _
    exact absurd hfuel (Nat.not_lt_zero _)
  | succ fuel ih =>
    intro idx st hm hclean hfuel hlen
    have hget := get_of_mark_at _ _ _ hm (by simp)
    have hlt := mark_at_lt st.visited idx (by rw [hm]; simp)
    have hun := unvisited_set_done st.visited idx hget
    have hself : mark_at (st.visited.set idx Mark.DONE) idx = Mark.DONE :=
      mark_at_set_self _ _ _ hlt
    have hother : ∀ v, v ≠ idx →
        mark_at (st.visited.set idx Mark.DONE) v = mark_at st.visited v :=
      fun v hne => mark_at_set_ne _ _ _ _ (Ne.symm hne)
    have hclean1 : ∀ v, mark_at (st.visited.set idx Mark.DONE) v ≠ Mark.PROCESSING := by
      intro v
      by_cases e : v = idx
      · rw [e, hself]; simp
      · rw [hother v e]; exact hclean v
    obtain ⟨st1, hl, hpost, hdone⟩ := serial_loop_spec nodes fuel
      (serial_process_node nodes fuel) ih (node_at nodes idx).neighbours
      { visited := st.visited.set idx Mark.DONE,
        sum := wrap32 (st.sum + (node_at nodes idx).info),
        num_nodes := st.num_nodes + 1,
        log := st.log ++ [idx] }
      (fun u hu => valid_neighbours nodes hv idx u hu) hclean1 (by simp only; omega)
      (by simp only [List.length_set]; exact hlen)
    have hidx : mark_at st1.visited idx = Mark.DONE := by
      rw [hpost.mono idx (by simp only [hself]; simp)]
      exact hself
    refine ⟨st1, hl, ?_, hidx⟩
    obtain ⟨b1, b2, b3, b4, nl, q1, q2, q3, q4, q5, q6, q7, q8⟩ := hpost
    simp only at b1 b2 b3 b4 q1 q3 q6 q7 q8
    refine ⟨by rw [b1, List.length_set], by omega, ?_, ?_, idx :: nl, ?_⟩
    · intro v hvm
      have hne : v ≠ idx := by
        intro e
        rw [e] at hvm
        exact hvm hm
      rw [b3 v (by rw [hother v hne]; exact hvm), hother v hne]
    · intro v
      rcases b4 v with k | k | k
      · exact Or.inl k
      · exact Or.inr (Or.inl k)
      · by_cases e : v = idx
        · rw [e]
          exact Or.inr (Or.inl hidx)
        · rw [k, hother v e]
          exact Or.inr (Or.inr rfl)
    refine ⟨by rw [q1, List.append_assoc]; rfl, ?_, ?_, ?_, ?_, ?_, ?_, ?_⟩
    · rw [List.nodup_cons]
      refine ⟨?_, q2⟩
      intro hmem
      have := ((q3 idx).mp hmem).1
      rw [hself] at this
      cases this
    · intro v
      rw [List.mem_cons]
      constructor
      · intro h
        rcases h with e | h
        · rw [e]
          exact ⟨hm, hidx⟩
        · obtain ⟨h1, h2⟩ := (q3 v).mp h
          have hne : v ≠ idx := by
            intro e
            rw [e, hself] at h1
            cases h1
          rw [hother v hne] at h1
          exact ⟨h1, h2⟩
      · intro h
        by_cases e : v = idx
        · exact Or.inl e
        · exact Or.inr ((q3 v).mpr ⟨by rw [hother v e]; exact h.1, h.2⟩)
    · intro v hvm
      rcases List.mem_cons.mp hvm with e | h
      · exact ⟨idx, List.mem_singleton.mpr rfl, by rw [e]; exact Reach.root⟩
      · obtain ⟨r, hr, hreach⟩ := q4 v h
        exact ⟨idx, List.mem_singleton.mpr rfl,
          reach_trans nodes idx r v (Reach.edge idx r Reach.root hr) hreach⟩
    · intro v hvm u hu
      rcases List.mem_cons.mp hvm with e | h
      · rw [e] at hu
        exact hdone u hu
      · exact q5 v h u hu
    · rw [q6, wrap32_add, info_sum_cons, add_assoc]
    · intro _
      exact q7 (wrap32_idem _)
    · rw [q8, List.length_cons]
      omega

/-- The traversal of `serial.c`: `process_node(0)` returns, having processed
exactly the nodes reachable from node 0, each once; `sum` is the wrapped sum
of their values and `num_nodes` their number. -/
theorem serial_correct (nodes : List os_node_t) (hv : valid_graph nodes = true)
    (h0 : 0 < nodes.length) :
    ∃ st1, serial_process_node nodes (nodes.length + 1) 0 (serial_init nodes) = some st1 ∧
      st1.log.Nodup ∧ (∀ v, v ∈ st1.log ↔ Reach nodes 0 v) ∧
      st1.sum = wrap32 (info_sum nodes st1.log) ∧ st1.num_nodes = st1.log.length := by
  obtain ⟨st1, hrun, hpost, hroot⟩ := serial_process_node_spec nodes hv (nodes.length + 1) 0
    (serial_init nodes) (mark_at_replicate _ _ h0) (mark_at_replicate_clean _)
    (by simp only [serial_init, unvisited_replicate]; omega) (by simp [serial_init])
  obtain ⟨_, _, _, _, new, q1, q2, q3, q4, q5, q6, q7, q8⟩ := hpost
  have hlog : st1.log = new := by
    rw [q1]
    simp [serial_init]
  refine ⟨st1, hrun, by rw [hlog]; exact q2, ?_, ?_, ?_⟩
  · intro v
    rw [hlog]
    constructor
    · intro h
      obtain ⟨r, hr, hreach⟩ := q4 v h
      rw [List.mem_singleton] at hr
      rw [hr] at hreach
      exact hreach
    · intro hr
      induction hr with
      | root => exact (q3 0).mpr ⟨mark_at_replicate _ _ h0, hroot⟩
      | edge a b _ hab ih =>
        exact (q3 b).mpr ⟨mark_at_replicate _ _ (valid_neighbours nodes hv a b hab),
          q5 a ih b hab⟩
  · have h1 : wrap32 st1.sum = st1.sum := q7 (by simp [serial_init, wrap32])
    rw [← h1, q6, hlog]
    simp [serial_init]
  · rw [q8, hlog]
    simp [serial_init]

/-! ## The traversal: termination, and the comparison with `serial.c` -/

theorem unvisited_rank_set (nodes : List os_node_t) (m : Mark) (hm : m ≠ Mark.NOT_VISITED) :
    ∀ (vis : List Mark) (a i : Nat), vis[i]? = some Mark.NOT_VISITED →
      unvisited_rank nodes a (vis.set i m) + degree nodes (a + i) * 9
        = unvisited_rank nodes a vis := by
  intro vis
  induction vis with
  | nil => intro a i h; simp at h
  | cons x vis ih =>
    intro a i h
    cases i with
    | zero =>
      simp only [List.getElem?_cons_zero, Option.some.injEq] at h
      subst h
      simp only [List.set_cons_zero, unvisited_rank, hm, if_false, if_true, Nat.add_zero]
      omega
    | succ i =>
      simp only [List.getElem?_cons_succ] at h
      have h2 := ih (a + 1) i h
      have e : a + 1 + i = a + (i + 1) := by omega
      rw [e] at h2
      simp only [List.set_cons_succ, unvisited_rank]
      omega

theorem unvisited_rank_set_le (nodes : List os_node_t) (m : Mark) (hm : m ≠ Mark.NOT_VISITED) :
    ∀ (vis : List Mark) (a i : Nat),
      unvisited_rank nodes a (vis.set i m) ≤ unvisited_rank nodes a vis := by
  intro vis
  induction vis with
  | nil => intro a i; simp [unvisited_rank]
  | cons x vis ih =>
    intro a i
    cases i with
    | zero =>
      simp only [List.set_cons_zero, unvisited_rank, hm, if_false]
      omega
    | succ i =>
      have h2 := ih (a + 1) i
      simp only [List.set_cons_succ, unvisited_rank]
      omega

theorem neighbour_index_lt (nodes : List os_node_t) (v j nb : Nat)
    (h : (node_at nodes v).neighbours[j]? = some nb) : j < degree nodes v := by
  by_contra hc
  rw [degree] at hc
  rw [List.getElem?_eq_none (Nat.le_of_not_lt hc)] at h
  cases h

/-- The rank `graph_rank` fits the traversal: every step of `neighbour` pays
for the task it enqueues or for itself. -/
theorem graph_ranked (nodes : List os_node_t) :
    Ranked (parallel_graph nodes) (graph_rank nodes) := by
  constructor
  · intro t
    simp [graph_rank, parallel_graph]
  · intro l g u l1 g1 h
    obtain ⟨v, j, nb, hl, hn, _, _, hl1, hg1⟩ := next_enqueue_inv nodes l l1 g g1 u h
    have hj := neighbour_index_lt nodes v j nb hn
    rw [hl, hl1, hg1]
    simp only [graph_rank]
    omega
  · intro l g l1 g1 h
    rcases next_internal_inv nodes l l1 g g1 h with
      ⟨v, hl, hm, hl1, hg1⟩ | ⟨v, j, nb, hl, hn, _, hl1, hg1⟩ | ⟨v, j, hl, _, hl1, hg1⟩
    · have hget := get_of_mark_at _ _ _ hm (by simp)
      have h2 := unvisited_rank_set nodes Mark.PROCESSING (by simp) g.visited 0 v hget
      rw [Nat.zero_add] at h2
      rw [hl, hl1, hg1]
      simp only [graph_rank]
      omega
    · have hj := neighbour_index_lt nodes v j nb hn
      rw [hl, hl1, hg1]
      simp only [graph_rank]
      omega
    · rw [hl, hl1, hg1]
      simp only [graph_rank]
      omega
  · intro l g g1 h
    rcases next_ret_inv nodes l g g1 h with ⟨v, hl, _, hg1⟩ | ⟨v, hl, hg1⟩
    · rw [hl, hg1]
      simp only [graph_rank]
      omega
    · have h2 := unvisited_rank_set_le nodes Mark.DONE (by simp) g.visited 0 v
      rw [hl, hg1]
      simp only [graph_rank]
      omega

theorem wrap32_of_range (x : Int) (h1 : -2147483648 ≤ x) (h2 : x ≤ 2147483647) :
    wrap32 x = x := by
  unfold wrap32
  omega

theorem info_sum_perm (nodes : List os_node_t) (a b : List Nat) (h : a.Perm b) :
    info_sum nodes a = info_sum nodes b := by
  unfold info_sum
  exact (h.map _).sum_eq

/-- C9 (end-to-end traversal).  For every graph with a node 0 whose neighbour
indices all name nodes, and every pool of at least one worker, the traversal
of `parallel.c` (one task for node 0 submitted by `main`, the action
`neighbour` run by the pool)

* never deadlocks and can always be run to the return of
  `wait_for_completion`;
* in every state in which `wait_for_completion` has returned, whatever the
  interleaving, has added the value of exactly the nodes reachable from
  node 0, each exactly once (however many tasks were enqueued for it), has
  marked them `DONE`, and `sum` is the sum of their values in `int`
  arithmetic, which is their sum when that fits an `int`;
* ends with the `sum` that `process_node(0)` of `serial.c` computes, which
  returns and processes the same nodes. -/
theorem traversal_sum (nodes : List os_node_t) (n : Nat) (hv : valid_graph nodes = true)
    (h0 : 0 < nodes.length) (hn : 1 ≤ n) :
    (∀ s, Reachable (parallel_graph nodes) n [neighbour_task 0] (graph_init nodes) s →
      s.main ≠ MainPc.returned →
      ∃ lbl, lbl.isSpurious = false ∧ (step (parallel_graph nodes) lbl s).isSome = true) ∧
    (∀ ls s, run (parallel_graph nodes) ls (init n [neighbour_task 0] (graph_init nodes)) = some s →
      ∃ ls1 s1, run (parallel_graph nodes) (ls ++ ls1)
          (init n [neighbour_task 0] (graph_init nodes)) = some s1 ∧
        s1.main = MainPc.returned) ∧
    (∀ s, Reachable (parallel_graph nodes) n [neighbour_task 0] (graph_init nodes) s →
      s.main = MainPc.returned →
      s.shared.log.Nodup ∧
      (∀ v, v ∈ s.shared.log ↔ Reach nodes 0 v) ∧
      (∀ v, Reach nodes 0 v → s.shared.visited[v]? = some Mark.DONE) ∧
      s.shared.sum = wrap32 (info_sum nodes s.shared.log) ∧
      (-2147483648 ≤ info_sum nodes s.shared.log → info_sum nodes s.shared.log ≤ 2147483647 →
        s.shared.sum = info_sum nodes s.shared.log) ∧
      ∃ st, serial_process_node nodes (nodes.length + 1) 0 (serial_init nodes) = some st ∧
        st.log.Perm s.shared.log ∧ st.num_nodes = s.shared.log.length ∧
        st.sum = s.shared.sum) := by
  have hi0 : Inv (init n [neighbour_task 0] (graph_init nodes) : State NeighbourPc GraphShared) :=
    inv_init n _ _
  have hl0 : Live (init n [neighbour_task 0] (graph_init nodes) : State NeighbourPc GraphShared) :=
    live_init n _ _ hn
  refine ⟨?_, ?_, ?_⟩
  · intro s hr hne
    exact progress (parallel_graph nodes) s (inv_reachable _ n _ _ s hr)
      (live_reachable _ n _ _ s hn hr) hne
  · intro ls s hrun
    obtain ⟨ls1, s1, _, h2, h3⟩ := completes_from (graph_rank nodes) (graph_ranked nodes) _ s
      (le_refl _) (inv_run _ ls _ s hi0 hrun) (live_run _ ls _ s hi0 hl0 hrun)
    exact ⟨ls1, s1, run_append _ ls ls1 _ s s1 hrun h2, h3⟩
  · intro s hr hret
    have hi := inv_reachable _ n _ _ s hr
    obtain ⟨ls, hls⟩ := hr
    have hg := ginv_run nodes ls _ s hi0 (ginv_init nodes n) hls
    obtain ⟨p1, p2, p3, p4⟩ := parallel_final nodes hv h0 s hi hg hret
    obtain ⟨st, q0, q1, q2, q3, q4⟩ := serial_correct nodes hv h0
    have hperm : st.log.Perm s.shared.log :=
      (List.perm_ext_iff_of_nodup q1 p1).mpr (fun v => by rw [q2 v, p2 v])
    refine ⟨p1, p2, p4, p3, ?_, st, q0, hperm, ?_, ?_⟩
    · intro h1 h2
      rw [p3]
      exact wrap32_of_range _ h1 h2
    · rw [q4]
      exact hperm.length_eq
    · rw [q3, p3, info_sum_perm nodes _ _ hperm]

/-- Witness for C9: the graph with edges 0→{1,2}, 1→{3}, 2→{3} and values 10,
20, 30, 40 on four workers.  On `diamond_schedule` two tasks are enqueued for
node 3, the value of every node is added exactly once, and the sum is 100, as
computed by `serial.c`. -/
theorem traversal_sum_witness :
    valid_graph diamond = true ∧ 0 < diamond.length ∧ 1 ≤ 4 ∧
    run (parallel_graph diamond) diamond_schedule diamond_init = some diamond_final ∧
    diamond_final.main = MainPc.returned ∧
    diamond_final.submitted.map os_task_t.argument = [0, 1, 2, 3, 3] ∧
    diamond_final.invoked.map os_task_t.argument = [0, 1, 2, 3, 3] ∧
    diamond_final.shared.log = [3, 0, 1, 2] ∧
    diamond_final.shared.sum = 100 ∧
    (serial_process_node diamond 5 0 (serial_init diamond)).map SerialState.sum = some 100 ∧
    (diamond_final.shared.log.Nodup ∧
      (∀ v, v ∈ diamond_final.shared.log ↔ Reach diamond 0 v) ∧
      (∀ v, Reach diamond 0 v → diamond_final.shared.visited[v]? = some Mark.DONE) ∧
      diamond_final.shared.sum = wrap32 (info_sum diamond diamond_final.shared.log) ∧
      (-2147483648 ≤ info_sum diamond diamond_final.shared.log →
        info_sum diamond diamond_final.shared.log ≤ 2147483647 →
        diamond_final.shared.sum = info_sum diamond diamond_final.shared.log) ∧
      ∃ st, serial_process_node diamond (diamond.length + 1) 0 (serial_init diamond) = some st ∧
        st.log.Perm diamond_final.shared.log ∧
        st.num_nodes = diamond_final.shared.log.length ∧
        st.sum = diamond_final.shared.sum) :=
  ⟨rfl, by decide, by decide, rfl, rfl, rfl, rfl, rfl, rfl, rfl,
    (traversal_sum diamond 4 rfl (by decide) (by decide)).2.2 diamond_final
      ⟨diamond_schedule, rfl⟩ rfl⟩
/-! ## The flag `stop` -/

/-- No step resets `stop`. -/
theorem stop_never_reset {L G : Type} (W : Workload L G) (lbl : Label) (s s1 : State L G)
    (hm : s.tp.mutex = none) (h : step W lbl s = some s1) (hs : s.tp.stop = true) :
    s1.tp.stop = true := by
  have ht := step_sound W lbl s s1 hm h
  cases ht <;> first | exact hs | rfl

/-- The only step that sets `stop` is the one in which `wait_for_completion`
finds the queue empty; nothing is asked of the workers. -/
theorem stop_set_on_empty_queue {L G : Type} (W : Workload L G) (lbl : Label) (s s1 : State L G)
    (hm : s.tp.mutex = none) (h : step W lbl s = some s1) (hs : s.tp.stop = false)
    (hs1 : s1.tp.stop = true) :
    s.main = MainPc.wfc_entry ∧ s.tp.head = [] ∧ s1.main = MainPc.joining 0 ∧
      ∃ w, lbl = Label.main w := by
  have ht := step_sound W lbl s s1 hm h
  cases ht with
  | wfc_stop _ w h1 h2 h3 => exact ⟨h1, h2, rfl, w, rfl⟩
  | wfc_leave _ w h1 h2 h3 => rw [h3] at hs; cases hs
  | _ => simp_all
end ParallelGraph
